import Mathlib

/-!
# Hermes2D: H1 space DOF assignment and hanging-node constraint merge

A shallow embedding of `hermes2d/src/space/space_h1.cpp`.

* Pointers to mesh nodes and elements are node / element ids (`Nat`); the
  per-node side table `ndata` and the per-element table `edata` are total
  functions on ids.
* `Scalar` coefficients are rationals: all statements about coefficients are
  statements of exact arithmetic.
* `int` counters are unbounded integers (DOF counts stay far below `2^31`).
* Collaborators whose code lives outside `space_h1.cpp` (mesh queries,
  shapeset tables, the essential-BC lookup, the sentinel constants of
  `space.h`) are fields of the records `Mesh` and `Space`; the refinement
  hierarchy that `update_constraints` walks is the record `Refinement`.
* Of the selective assembler only the header is among the sources: its
  bookkeeping and its two operations are modelled from the specification.
-/

namespace Hermes2D

/-! ## Data model -/

/-- Modelled from the spec: `Space<Scalar>::BaseComponent`, declared in
`space.h`, one `(dof, coefficient)` pair of a baselist. -/
structure BaseComponent where
  dof : Int
  coef : ℚ
deriving DecidableEq, Repr

/-- Modelled from the spec: the per-node record `Space<Scalar>::NodeData`,
declared in `space.h`. A baselist pointer is the list of its cells; `base` is
the id of the constraining edge node. -/
structure NodeData where
  dof : Int
  n : Int
  baselist : List BaseComponent := []
  ncomponents : Nat := 0
  base : Option Nat := none
  part : Int := 0
  vertex_bc_coef : Option ℚ := none
  edge_bc_proj : List ℚ := []
deriving DecidableEq, Repr

/-- Modelled from the spec: the per-element record
`Space<Scalar>::ElementData`, declared in `space.h`. -/
structure ElementData where
  order : Int
  bdof : Int
  n : Int
deriving DecidableEq, Repr

/-- Modelled from the spec: the kind of a mesh node, a vertex or an edge
(`Node::type` of the mesh). -/
inductive NodeType where
  | vertex
  | edge
deriving DecidableEq, Repr

/-- Modelled from the spec: a mesh node, as far as `space_h1.cpp` reads it.
`is_constrained_vertex` is the result of `Node::is_constrained_vertex()`,
which belongs to the mesh. -/
structure Node where
  type : NodeType
  ref : Nat
  bnd : Bool
  p1 : Int
  p2 : Int
  marker : Int
  is_constrained_vertex : Bool
deriving DecidableEq, Repr

/-- Modelled from the spec: a mesh element. `vn i` and `en i` are the ids of
the nodes `e->vn[i]`, `e->en[i]`; `nvert` is `get_nvert()` and `mode` is
`get_mode()`. -/
structure Element where
  id : Nat
  nvert : Nat
  vn : Nat → Nat
  en : Nat → Nat
  mode : Nat

/-- What the space reads from its mesh: the active elements in iteration
order (`for_all_active_elements`), the node table, `peek_vertex_node` and the
boundary-marker conversion. -/
structure Mesh where
  active : List Element
  node : Nat → Node
  peek_vertex_node : Int → Int → Option Nat
  get_user_marker : Int → Int

/-- The shapeset queries that the space makes: the index tables, the bubble
count `get_num_bubbles order mode` and the value
`get_fn_value index x y component mode` of a shape function. -/
structure Shapeset where
  get_vertex_index : Nat → Nat → Int
  get_edge_index : Nat → Int → Int → Nat → Int
  get_constrained_edge_index : Nat → Int → Int → Int → Nat → Int
  get_num_bubbles : Int → Nat → Int
  get_fn_value : Int → ℚ → ℚ → Nat → Nat → ℚ

/-- The immutable surroundings of an `H1Space`: its mesh, its shapeset, the
essential boundary conditions (`none` is the null pointer; the function tells
whether `get_boundary_condition` finds a condition for a user marker), the
edge order `get_edge_order_internal` of an edge node and the two sentinel
values declared in `space.h`. -/
structure Space where
  mesh : Mesh
  shapeset : Shapeset
  essential_bcs : Option (Int → Bool)
  get_edge_order_internal : Nat → Int
  H2D_UNASSIGNED_DOF : Int
  H2D_CONSTRAINED_DOF : Int

/-- Modelled from the spec: `Space<Scalar>::EdgeInfo`, declared in `space.h`:
the constraining edge node, the code of the sub-interval, the orientation and
the sub-interval itself. -/
structure EdgeInfo where
  node : Nat
  part : Int
  ori : Int
  lo : ℚ
  hi : ℚ
deriving DecidableEq, Repr

/-- The mutable part of an `H1Space`: the node and element tables, the DOF
counter `next_dof` and the three function counts. -/
structure SpaceState where
  ndata : Nat → NodeData
  edata : Nat → ElementData
  next_dof : Int
  vertex_functions_count : Int
  edge_functions_count : Int
  bubble_functions_count : Int

/-! ## Merging baselists -/

/-- The local variables of `merge_baselists` that `output_component` takes by
reference. `result` holds the cells `result[0 .. current)`, so that
`current - result` is its length; a cell that was reserved but not written is
`none`. `last` and `edge_dofs` are offsets from `result`; `edge` is the id of
the constraining edge node while its slots are still to be placed. -/
structure MergeCursor where
  result : List (Option BaseComponent)
  last : Option Nat
  edge : Option Nat
  edge_dofs : Option Nat
deriving DecidableEq, Repr

/-- The cell `*last`, when `last` is not null. -/
def MergeCursor.lastCell (s : MergeCursor) : Option BaseComponent :=
  match s.last with
  | none => none
  | some i => (s.result.get? i).join

/-- The second half of `H1Space::output_component`, after the early return:
leave space for the edge node dofs if they belong in front of `min`, then
output `min` with half its coefficient. Moving `current` forward by
`ndata[edge].n` appends that many unwritten cells (the count is nonnegative
for every constraining edge; a negative count is read as zero). -/
def output_new_component (ndata : Nat → NodeData) (min : BaseComponent) (s : MergeCursor) :
    MergeCursor :=
  let s1 : MergeCursor :=
    match s.edge with
    | some en =>
      if (ndata en).dof ≤ min.dof then
        { result :=
            if (ndata en).dof ≠ min.dof then
              s.result ++ List.replicate (ndata en).n.toNat none
            else s.result
          last := s.last
          edge := none
          edge_dofs := some s.result.length }
      else s
    | none => s
  { s1 with
    result := s1.result ++ [some { dof := min.dof, coef := min.coef * (1 / 2) }]
    last := some s1.result.length }

/-- `H1Space::output_component`: if the dof of `min` is the one written last,
add half of its coefficient there; otherwise output a new component. -/
def output_component (ndata : Nat → NodeData) (s : MergeCursor) (min : BaseComponent) :
    MergeCursor :=
  match s.last, s.lastCell with
  | some i, some l =>
    if l.dof = min.dof then
      { s with
        result := s.result.set i (some { dof := l.dof, coef := l.coef + min.coef * (1 / 2) }) }
    else output_new_component ndata min s
  | _, _ => output_new_component ndata min s

/-- The main loop of `merge_baselists`: while both lists have a component
left, output the one with the smaller dof (the second list's on a tie). It
returns what is left of the two lists and the cursor. -/
def merge_main (ndata : Nat → NodeData) :
    List BaseComponent → List BaseComponent → MergeCursor →
      List BaseComponent × List BaseComponent × MergeCursor
  | a :: l1, b :: l2, s =>
    if a.dof < b.dof then merge_main ndata l1 (b :: l2) (output_component ndata s a)
    else merge_main ndata (a :: l1) l2 (output_component ndata s b)
  | l1, l2, s => (l1, l2, s)
termination_by l1 l2 _ => l1.length + l2.length

/-- What `merge_baselists` hands back: the cells of the returned array, the
out-parameters `edge_dofs` (an offset into the array) and `ncomponents`. -/
structure MergeResult where
  baselist : List (Option BaseComponent)
  edge_dofs : Option Nat
  ncomponents : Nat
deriving DecidableEq, Repr

/-- `H1Space::merge_baselists`. `edge` is the id of the constraining edge
node or `none` for a null pointer; `edge_dofs0` is the value the caller's
`edge_dofs` variable holds on entry. The final `realloc` keeps the cells and
every offset, so it does not show. -/
def merge_baselists (ndata : Nat → NodeData) (l1 l2 : List BaseComponent)
    (edge : Option Nat) (edge_dofs0 : Option Nat) : MergeResult :=
  let s0 : MergeCursor := { result := [], last := none, edge := edge, edge_dofs := edge_dofs0 }
  let m := merge_main ndata l1 l2 s0
  let s1 := m.1.foldl (output_component ndata) m.2.2
  let s2 := m.2.1.foldl (output_component ndata) s1
  let s3 : MergeCursor :=
    match s2.edge with
    | some en =>
      { s2 with
        edge_dofs := some s2.result.length
        result := s2.result ++ List.replicate (ndata en).n.toNat none }
    | none => s2
  { baselist := s3.result, edge_dofs := s3.edge_dofs, ncomponents := s3.result.length }

/-- The upper bound `max_result` that `merge_baselists` allocates. -/
def max_result (ndata : Nat → NodeData) (l1 l2 : List BaseComponent) (edge : Option Nat) : Int :=
  (l1.length : Int) + l2.length +
    (match edge with
     | some en => (ndata en).n
     | none => 0)

/-- A baselist whose dofs are strictly ascending. -/
def StrictAsc (l : List BaseComponent) : Prop :=
  (l.map (·.dof)).Pairwise (· < ·)

instance StrictAsc.decidable (l : List BaseComponent) : Decidable (StrictAsc l) := by
  unfold StrictAsc; infer_instance

/-! ### Auxiliary definitions: the merge as a function of the two lists -/

/-- The slot reservation of `output_component` in front of dof `d`. -/
def reserve (ndata : Nat → NodeData) (s : MergeCursor) (d : Int) : MergeCursor :=
  match s.edge with
  | some en =>
    if (ndata en).dof ≤ d then
      { result :=
          if (ndata en).dof ≠ d then
            s.result ++ List.replicate (ndata en).n.toNat none
          else s.result
        last := s.last
        edge := none
        edge_dofs := some s.result.length }
    else s
  | none => s

/-- Reserve the edge slots if they belong in front of dof `x.dof`, then write
the finished component `x` at the cursor. -/
def emit (ndata : Nat → NodeData) (s : MergeCursor) (x : BaseComponent) : MergeCursor :=
  { reserve ndata s x.dof with
    result := (reserve ndata s x.dof).result ++ [some x]
    last := some (reserve ndata s x.dof).result.length }

/-- The scaled component `0.5 * x`. -/
def halve (x : BaseComponent) : BaseComponent := { dof := x.dof, coef := x.coef * (1 / 2) }

/-- The merged components as a function of the two lists alone: a sorted
merge in which a dof present in both lists appears once, with half the sum of
its two coefficients. -/
def mergeSpec : List BaseComponent → List BaseComponent → List BaseComponent
  | a :: l1, b :: l2 =>
    if a.dof < b.dof then halve a :: mergeSpec l1 (b :: l2)
    else if b.dof < a.dof then halve b :: mergeSpec (a :: l1) l2
    else { dof := b.dof, coef := b.coef * (1 / 2) + a.coef * (1 / 2) } :: mergeSpec l1 l2
  | a :: l1, [] => halve a :: mergeSpec l1 []
  | [], l2 => l2.map halve
termination_by l1 l2 => l1.length + l2.length

/-- The cursor after the three loops of `merge_baselists`. -/
def merge_loops (ndata : Nat → NodeData) (l1 l2 : List BaseComponent) (s : MergeCursor) :
    MergeCursor :=
  let m := merge_main ndata l1 l2 s
  m.2.1.foldl (output_component ndata) (m.1.foldl (output_component ndata) m.2.2)

/-- The coefficient of dof `d` in the baselist `l`, and `0` when `d` does not
occur in `l`. -/
def coefOf (l : List BaseComponent) (d : Int) : ℚ :=
  match l.find? (fun x => x.dof = d) with
  | some x => x.coef
  | none => 0

/-- The cells of a buffer that were written, in order. -/
def written (cells : List (Option BaseComponent)) : List BaseComponent :=
  cells.filterMap id

/-- The end of `merge_baselists`: the slots still owed to the edge node are
placed after the last component, and the cursor becomes the result. -/
def merge_finish (ndata : Nat → NodeData) (s : MergeCursor) : MergeResult :=
  let s3 : MergeCursor :=
    match s.edge with
    | some en =>
      { s with
        edge_dofs := some s.result.length
        result := s.result ++ List.replicate (ndata en).n.toNat none }
    | none => s
  { baselist := s3.result, edge_dofs := s3.edge_dofs, ncomponents := s3.result.length }

/-- A sample baselist; it shares the dof 1 with `sampleB`. -/
def sampleA : List BaseComponent := [⟨1, 1⟩, ⟨7, 3⟩]

/-- The second sample baselist. -/
def sampleB : List BaseComponent := [⟨1, 3⟩, ⟨4, 1⟩, ⟨9, 2⟩]

/-- A sample node table in which every node has first dof 5 and two edge
functions. -/
def sampleNdata : Nat → NodeData := fun _ => { dof := 5, n := 2 }

/-- Writing the components `xs` into the cells `pos, pos + 1, ...`, one after
the other; `none` when a write falls outside the buffer. -/
def write_cells : List (Option BaseComponent) → Nat → List BaseComponent →
    Option (List (Option BaseComponent))
  | cells, _, [] => some cells
  | cells, pos, x :: xs =>
    if pos < cells.length then write_cells (cells.set pos (some x)) (pos + 1) xs else none

/-- Reading a whole buffer; `none` when a cell was never written. -/
def allWritten : List (Option BaseComponent) → Option (List BaseComponent)
  | [] => some []
  | none :: _ => none
  | some x :: cs => (allWritten cs).map (x :: ·)

/-! ## Baselist of a mid-edge vertex (`update_constrained_nodes`) -/

/-- The baselist of an endpoint vertex `v` as `update_constrained_nodes` takes
it: the stored one for a constrained vertex, and otherwise the made-up list
with the single component `(dof, 1.0)` for a free dof, or `(dof, bc coef)`
(`0` without a stored coefficient) for a dof fixed by a boundary condition. -/
def endpoint_baselist (sp : Space) (ndata : Nat → NodeData) (v : Nat) : List BaseComponent :=
  if (sp.mesh.node v).is_constrained_vertex then (ndata v).baselist.take (ndata v).ncomponents
  else
    [{ dof := (ndata v).dof
       coef :=
        if 0 ≤ (ndata v).dof then 1
        else
          match (ndata v).vertex_bc_coef with
          | some c => c
          | none => 0 }]

/-- The components that `update_constrained_nodes` writes into the edge slots
for the edge info `ei`: for `k < n` the dof `dof + k` of the constraining edge
node with the value of the `k`-th edge function of orientation `ei.ori` at the
midpoint of `[lo, hi]`. -/
def edge_coefs (sp : Space) (ndata : Nat → NodeData) (ei : EdgeInfo) (mode : Nat) :
    List BaseComponent :=
  (List.range (ndata ei.node).n.toNat).map fun (k : Nat) =>
    { dof := (ndata ei.node).dof + (k : Int)
      coef :=
        sp.shapeset.get_fn_value (sp.shapeset.get_edge_index 0 ei.ori ((k : Int) + 2) mode)
          ((ei.lo + ei.hi) * (1 / 2)) (-1) 0 mode }

/-- The node data that `update_constrained_nodes` stores for the mid-edge
vertex `mid_vn` of the edge from `v0` to `v1` with edge info `ei`: the merged
endpoint baselists with the edge slots filled. `none` when a slot write leaves
the merged array or a cell stays unwritten. -/
def constrained_vertex_data (sp : Space) (ndata : Nat → NodeData) (v0 v1 mid_vn : Nat)
    (ei : EdgeInfo) (mode : Nat) : Option NodeData :=
  let r := merge_baselists ndata (endpoint_baselist sp ndata v0) (endpoint_baselist sp ndata v1)
    (some ei.node) none
  match r.edge_dofs with
  | none => none
  | some p =>
    match (write_cells r.baselist p (edge_coefs sp ndata ei mode)).bind allWritten with
    | none => none
    | some bl => some { ndata mid_vn with baselist := bl, ncomponents := r.ncomponents }

/-! ## DOF assignment -/

/-- Modelled from the spec: `Space::get_element_order`, defined in
`space.cpp`, returns the polynomial order stored for the element. -/
def get_element_order (st : SpaceState) (id : Nat) : Int := (st.edata id).order

/-- The body of the inner loop of `assign_vertex_dofs` for the vertex
`e->vn[i]`. -/
def assign_vertex_dofs_visit (sp : Space) (e : Element) (st : SpaceState) (i : Nat) :
    SpaceState :=
  let nd := st.ndata (e.vn i)
  if !(sp.mesh.node (e.vn i)).is_constrained_vertex ∧ nd.dof = sp.H2D_UNASSIGNED_DOF then
    if nd.n = 0 then
      { st with
        ndata := Function.update st.ndata (e.vn i)
          { nd with dof := sp.H2D_CONSTRAINED_DOF, n := 1 } }
    else
      { st with
        ndata := Function.update st.ndata (e.vn i) { nd with dof := st.next_dof, n := 1 }
        next_dof := st.next_dof + 1
        vertex_functions_count := st.vertex_functions_count + 1 }
  else st

/-- The body of the element loop of `assign_vertex_dofs`. -/
def assign_vertex_dofs_element (sp : Space) (st : SpaceState) (e : Element) : SpaceState :=
  if 0 < get_element_order st e.id then
    (List.range e.nvert).foldl (assign_vertex_dofs_visit sp e) st
  else st

/-- `H1Space::assign_vertex_dofs`. -/
def assign_vertex_dofs (sp : Space) (st : SpaceState) : SpaceState :=
  sp.mesh.active.foldl (assign_vertex_dofs_element sp) { st with vertex_functions_count := 0 }

/-- The test of `assign_edge_dofs` that an edge node is not constrained:
`en->ref > 1 || en->bnd || peek_vertex_node(en->p1, en->p2) != nullptr`. -/
def edge_eligible (sp : Space) (en : Nat) : Bool :=
  decide (1 < (sp.mesh.node en).ref) || (sp.mesh.node en).bnd ||
    (sp.mesh.peek_vertex_node (sp.mesh.node en).p1 (sp.mesh.node en).p2).isSome

/-- The test of `assign_edge_dofs` that an edge node carries an essential
boundary condition: it is a boundary edge, `essential_bcs` is not null and a
condition is found for the user marker of the edge. -/
def edge_essential (sp : Space) (en : Nat) : Bool :=
  (sp.mesh.node en).bnd &&
    (match sp.essential_bcs with
     | some bcs => bcs (sp.mesh.get_user_marker (sp.mesh.node en).marker)
     | none => false)

/-- The body of the inner loop of `assign_edge_dofs` for the edge
`e->en[i]`. -/
def assign_edge_dofs_visit (sp : Space) (e : Element) (st : SpaceState) (i : Nat) :
    SpaceState :=
  let nd := st.ndata (e.en i)
  if nd.dof = sp.H2D_UNASSIGNED_DOF then
    if edge_eligible sp (e.en i) then
      let ndofs := sp.get_edge_order_internal (e.en i) - 1
      if edge_essential sp (e.en i) then
        { st with
          ndata := Function.update st.ndata (e.en i)
            { nd with n := ndofs, dof := sp.H2D_CONSTRAINED_DOF } }
      else
        { st with
          ndata := Function.update st.ndata (e.en i) { nd with n := ndofs, dof := st.next_dof }
          next_dof := st.next_dof + ndofs
          edge_functions_count := st.edge_functions_count + ndofs }
    else
      { st with ndata := Function.update st.ndata (e.en i) { nd with n := -1 } }
  else st

/-- The body of the element loop of `assign_edge_dofs`. -/
def assign_edge_dofs_element (sp : Space) (st : SpaceState) (e : Element) : SpaceState :=
  if 0 < get_element_order st e.id then
    (List.range e.nvert).foldl (assign_edge_dofs_visit sp e) st
  else st

/-- `H1Space::assign_edge_dofs`. -/
def assign_edge_dofs (sp : Space) (st : SpaceState) : SpaceState :=
  sp.mesh.active.foldl (assign_edge_dofs_element sp) { st with edge_functions_count := 0 }

/-- The body of the element loop of `assign_bubble_dofs`. -/
def assign_bubble_dofs_element (sp : Space) (st : SpaceState) (e : Element) : SpaceState :=
  let ed := st.edata e.id
  let n := sp.shapeset.get_num_bubbles ed.order e.mode
  { st with
    edata := Function.update st.edata e.id { ed with bdof := st.next_dof, n := n }
    next_dof := st.next_dof + n
    bubble_functions_count := st.bubble_functions_count + n }

/-- `H1Space::assign_bubble_dofs`. -/
def assign_bubble_dofs (sp : Space) (st : SpaceState) : SpaceState :=
  sp.mesh.active.foldl (assign_bubble_dofs_element sp) { st with bubble_functions_count := 0 }

/-- The three assignment passes run one after the other: vertices, edges,
bubbles. -/
def assign_dofs_passes (sp : Space) (st : SpaceState) : SpaceState :=
  assign_bubble_dofs sp (assign_edge_dofs sp (assign_vertex_dofs sp st))

/-- Conditions on the collaborators of the space under which the assignment
passes are studied: the two sentinels are negative and distinct, the vertex
and edge slots of an active element refer to vertex and edge nodes, a
shapeset has no negative bubble count, and the mesh iteration yields every
active element once. -/
structure WellFormed (sp : Space) : Prop where
  unassigned_neg : sp.H2D_UNASSIGNED_DOF < 0
  constrained_neg : sp.H2D_CONSTRAINED_DOF < 0
  sentinels_ne : sp.H2D_UNASSIGNED_DOF ≠ sp.H2D_CONSTRAINED_DOF
  vertex_type : ∀ e ∈ sp.mesh.active, ∀ i < e.nvert,
    (sp.mesh.node (e.vn i)).type = NodeType.vertex
  edge_type : ∀ e ∈ sp.mesh.active, ∀ i < e.nvert,
    (sp.mesh.node (e.en i)).type = NodeType.edge
  bubbles_nonneg : ∀ o m, 0 ≤ sp.shapeset.get_num_bubbles o m
  ids_nodup : (sp.mesh.active.map (·.id)).Nodup

/-- Every edge of an active element of positive order has edge order at
least one (`get_edge_order_internal` is the smaller order of the adjacent
elements of positive order). -/
def EdgeOrdersPositive (sp : Space) (st : SpaceState) : Prop :=
  ∀ e ∈ sp.mesh.active, 0 < get_element_order st e.id →
    ∀ i < e.nvert, 1 ≤ sp.get_edge_order_internal (e.en i)

/-- Who can hold a DOF index: a vertex node, an edge node, or the bubble
functions of an element. -/
inductive DofOwner where
  | vertex (id : Nat)
  | edge (id : Nat)
  | bubble (eid : Nat)
deriving DecidableEq, Repr

/-- The index `k` belongs to the owner `o`: it is the dof of a vertex node
with `dof >= 0`, or lies in `[dof, dof + n)` of an edge node with `dof >= 0`,
or lies in `[bdof, bdof + n)` of one of the elements `done`. -/
def Owns (sp : Space) (st : SpaceState) (done : List Nat) : DofOwner → Int → Prop
  | .vertex id, k =>
    (sp.mesh.node id).type = NodeType.vertex ∧ 0 ≤ (st.ndata id).dof ∧ (st.ndata id).dof = k
  | .edge id, k =>
    (sp.mesh.node id).type = NodeType.edge ∧ 0 ≤ (st.ndata id).dof ∧
      (st.ndata id).dof ≤ k ∧ k < (st.ndata id).dof + (st.ndata id).n
  | .bubble eid, k =>
    eid ∈ done ∧ (st.edata eid).bdof ≤ k ∧ k < (st.edata eid).bdof + (st.edata eid).n

/-- The owners split the interval `[first, next)`: every owned index lies in
it, every index in it is owned, and by one owner only. -/
structure Partition {Ω : Type} (owns : Ω → Int → Prop) (first next : Int) : Prop where
  le : first ≤ next
  bound : ∀ o k, owns o k → first ≤ k ∧ k < next
  cover : ∀ k, first ≤ k → k < next → ∃ o, owns o k
  uniq : ∀ o o' k, owns o k → owns o' k → o = o'

/-- The invariant of the assignment passes, `done` being the elements whose
bubble dofs are assigned: the owners split `[first, next_dof)`, and the block
of every assigned edge node lies inside it (also when the block is empty);
a negative dof is one of the two sentinels. -/
structure DofInv (sp : Space) (first : Int) (done : List Nat) (st : SpaceState) : Prop where
  part : Partition (Owns sp st done) first st.next_dof
  edge_block : ∀ id, (sp.mesh.node id).type = NodeType.edge → 0 ≤ (st.ndata id).dof →
    0 ≤ (st.ndata id).n ∧ first ≤ (st.ndata id).dof ∧
      (st.ndata id).dof + (st.ndata id).n ≤ st.next_dof
  sentinel : ∀ id, (st.ndata id).dof < 0 →
    (st.ndata id).dof = sp.H2D_UNASSIGNED_DOF ∨ (st.ndata id).dof = sp.H2D_CONSTRAINED_DOF

/-- The visits `(e, i)` that the element loops of `assign_vertex_dofs` and
`assign_edge_dofs` make, in order, for the element orders in `edata`. -/
def visit_list (edata : Nat → ElementData) (l : List Element) : List (Element × Nat) :=
  l.flatMap fun e =>
    if 0 < (edata e.id).order then (List.range e.nvert).map (fun i => (e, i)) else []

/-! ## A sample space: one first-order triangle -/

/-- A triangle with the vertex nodes 0, 1, 2 and the edge nodes 3, 4, 5. -/
def sampleTriangle : Element :=
  { id := 0, nvert := 3, vn := fun i => i, en := fun i => i + 3, mode := 0 }

/-- The mesh of the single triangle: its three edges lie on the boundary and
no vertex is hanging. -/
def sampleMesh : Mesh :=
  { active := [sampleTriangle]
    node := fun id =>
      { type := if id < 3 then NodeType.vertex else NodeType.edge
        ref := 1
        bnd := decide (3 ≤ id)
        p1 := 0
        p2 := 0
        marker := 1
        is_constrained_vertex := false }
    peek_vertex_node := fun _ _ => none
    get_user_marker := fun m => m }

/-- A shapeset without bubble functions, as the first-order ones. -/
def sampleShapeset : Shapeset :=
  { get_vertex_index := fun iv _ => iv
    get_edge_index := fun edge ori order _ => 3 + 20 * edge + 10 * ori + order
    get_constrained_edge_index := fun edge order ori part _ => 100 + edge + order + ori + part
    get_num_bubbles := fun _ _ => 0
    get_fn_value := fun index x _ _ _ => index * x + 1 }

/-- The space of first-order elements on the triangle, without essential
boundary conditions. -/
def sampleSpace : Space :=
  { mesh := sampleMesh
    shapeset := sampleShapeset
    essential_bcs := none
    get_edge_order_internal := fun _ => 1
    H2D_UNASSIGNED_DOF := -2
    H2D_CONSTRAINED_DOF := -1 }

/-- The state before the assignment: every dof unassigned, `next_dof = 0`,
order one in every element. -/
def sampleState : SpaceState :=
  { ndata := fun _ => { dof := -2, n := 1 }
    edata := fun _ => { order := 1, bdof := 0, n := 0 }
    next_dof := 0
    vertex_functions_count := 0
    edge_functions_count := 0
    bubble_functions_count := 0 }

/-- Node data for the sample of a hanging vertex: the vertices 0 and 1 carry
the dofs 0 and 1, the edge node 3 the dofs 3 and 4. -/
def sampleHangingNdata : Nat → NodeData := fun id =>
  if id = 3 then { dof := 3, n := 2 } else { dof := id, n := 1 }

/-- The edge info of the whole edge `[-1, 1]` of edge node 3. -/
def sampleEdgeInfo : EdgeInfo := { node := 3, part := -1, ori := 0, lo := -1, hi := 1 }

/-! ## Assembly lists -/

/-- Modelled from the spec: one `(shape_index, dof, coefficient)` triplet of
an `AsmList` (the class is declared in `asmlist.h`). -/
structure Triplet where
  idx : Int
  dof : Int
  coef : ℚ
deriving DecidableEq, Repr

/-- Modelled from the spec: `AsmList::add_triplet` appends a triplet to the
ordered sequence of triplets. -/
def add_triplet (al : List Triplet) (idx dof : Int) (coef : ℚ) : List Triplet :=
  al ++ [{ idx := idx, dof := dof, coef := coef }]

/-- Modelled from the spec: `Element::next_vert`, the local index of the next
vertex around the element. -/
def next_vert (e : Element) (i : Nat) : Nat := if i + 1 < e.nvert then i + 1 else 0

/-- The integer `x ^ ~0`: all bits of a two's complement `int` flipped. -/
def flip_bits (x : Int) : Int := -x - 1

/-- `H1Space::get_vertex_assembly_list`, appending to `al`. The result is
`none` when the code reads through a null `vertex_bc_coef` or past the end of
the stored baselist. -/
def get_vertex_assembly_list (sp : Space) (ndata : Nat → NodeData) (e : Element) (iv : Nat)
    (al : List Triplet) : Option (List Triplet) :=
  let nd := ndata (e.vn iv)
  let index := sp.shapeset.get_vertex_index iv e.mode
  if !(sp.mesh.node (e.vn iv)).is_constrained_vertex then
    if 0 ≤ nd.dof then some (add_triplet al index nd.dof 1)
    else
      match nd.vertex_bc_coef with
      | some c => some (add_triplet al index nd.dof c)
      | none => none
  else if nd.ncomponents ≤ nd.baselist.length then
    some ((nd.baselist.take nd.ncomponents).foldl
      (fun al b => if b.coef ≠ 0 then add_triplet al index b.dof b.coef else al) al)
  else none

/-- The orientation flag that `get_boundary_assembly_list_internal` computes
for the edge `surf_num` of `e` from the ids of its two vertices. -/
def edge_orientation (e : Element) (surf_num : Nat) : Int :=
  if e.vn surf_num < e.vn (next_vert e surf_num) then 0 else 1

/-- `H1Space::get_boundary_assembly_list_internal`, appending to `al`. The
result is `none` when the code reads past the end of `edge_bc_proj` or
through a null `base`. -/
def get_boundary_assembly_list_internal (sp : Space) (ndata : Nat → NodeData) (e : Element)
    (surf_num : Nat) (al : List Triplet) : Option (List Triplet) :=
  let nd := ndata (e.en surf_num)
  if 0 ≤ nd.n then
    if 0 ≤ nd.dof then
      some ((List.range nd.n.toNat).foldl
        (fun al (j : Nat) =>
          add_triplet al
            (sp.shapeset.get_edge_index surf_num (edge_orientation e surf_num) ((j : Int) + 2)
              e.mode)
            (nd.dof + (j : Int)) 1) al)
    else
      (List.range nd.n.toNat).foldlM
        (fun al (j : Nat) =>
          match nd.edge_bc_proj.get? (j + 2) with
          | some c =>
            some (add_triplet al (sp.shapeset.get_edge_index surf_num 0 ((j : Int) + 2) e.mode)
              (-1) c)
          | none => none) al
  else
    let ori : Int := if nd.part < 0 then 1 else 0
    let part : Int := if nd.part < 0 then flip_bits nd.part else nd.part
    match nd.base with
    | none => none
    | some b =>
      some ((List.range (ndata b).n.toNat).foldl
        (fun al (j : Nat) =>
          add_triplet al
            (sp.shapeset.get_constrained_edge_index surf_num ((j : Int) + 2) ori part e.mode)
            ((ndata b).dof + (j : Int)) 1) al)

/-! ## Edge infos of `update_constrained_nodes` -/

/-- What `update_constrained_nodes` stores in the node data of the edge of an
active element that has the edge info `ei`: the constraining edge node and
the part code, with all bits flipped when the orientation flag is set. -/
def store_edge_info (nd : NodeData) (ei : EdgeInfo) : NodeData :=
  { nd with base := some ei.node, part := if ei.ori ≠ 0 then flip_bits ei.part else ei.part }

/-- The edge infos `half_ei[i][0]` and `half_ei[i][1]` of the two half-edges
that `update_constrained_nodes` builds from `ei[i]`; two null pointers when
`ei[i]` is null. -/
def half_edge_infos : Option EdgeInfo → Option EdgeInfo × Option EdgeInfo
  | none => (none, none)
  | some ei =>
    (some { node := ei.node, part := (ei.part + 1) * 2, ori := ei.ori,
            lo := ei.lo, hi := (ei.lo + ei.hi) / 2 },
     some { node := ei.node, part := (ei.part + 1) * 2 + 1, ori := ei.ori,
            lo := (ei.lo + ei.hi) / 2, hi := ei.hi })

/-- A node table for the assembly-list samples: vertex 0 is free with dof 0,
vertex 1 is fixed by a boundary condition with coefficient 7/2, node 2 is a
hanging vertex with a three-entry baselist, edge 3 carries the dofs 3 and 4,
edge 4 is fixed by a boundary condition, and edge 5 is constrained by edge 3
on the second half, in reversed orientation. -/
def sampleAsmNdata : Nat → NodeData := fun id =>
  if id = 0 then { dof := 0, n := 1 }
  else if id = 1 then { dof := -1, n := 1, vertex_bc_coef := some (7 / 2) }
  else if id = 2 then
    { dof := -2, n := 1, baselist := [⟨0, 1 / 2⟩, ⟨3, 0⟩, ⟨9, 1 / 4⟩], ncomponents := 3 }
  else if id = 3 then { dof := 3, n := 2 }
  else if id = 4 then { dof := -1, n := 2, edge_bc_proj := [1, 2, 3, 4] }
  else store_edge_info { dof := -2, n := -1 } { node := 3, part := 1, ori := 1, lo := 0, hi := 1 }

/-- The space of the assembly-list samples: the sample space with node 2 a
hanging vertex. -/
def sampleAsmSpace : Space :=
  { sampleSpace with
    mesh :=
      { sampleMesh with
        node := fun id =>
          { sampleMesh.node id with is_constrained_vertex := decide (id = 2) } } }

/-! ## `H1Space::init` -/

/-- The calls that `H1Space::init` makes, in the order it makes them. -/
inductive InitCall where
  | new_H1Shapeset
  | precalculate_projection_matrix
  | set_uniform_order_internal (order : Int) (marker : Int)
  | assign_dofs
deriving DecidableEq, Repr

/-- The outcome of `H1Space::init`: the calls made, and the message of the
exception if one was thrown. -/
structure InitResult where
  calls : List InitCall
  exception : Option String
deriving DecidableEq, Repr

/-- `H1Space::init`. `shapeset_null` tells whether the shapeset argument is
the null pointer; `any_int` is the constant `HERMES_ANY_INT`. -/
def init (shapeset_null : Bool) (p_init : Int) (assign_dofs_init : Bool) (any_int : Int) :
    InitResult :=
  let c1 : List InitCall := if shapeset_null then [InitCall.new_H1Shapeset] else []
  let c2 := c1 ++ [InitCall.precalculate_projection_matrix]
  if assign_dofs_init then
    if p_init < 1 then
      { calls := c2, exception := some "P_INIT must be >=  1 in an H1 space." }
    else
      { calls := c2 ++ [InitCall.set_uniform_order_internal p_init any_int, InitCall.assign_dofs]
        exception := none }
  else { calls := c2, exception := none }

/-! ## Selective assembler -/

/-- Modelled from the spec: the bookkeeping of
`DiscreteProblemSelectiveAssembler` (only its declaration is among the
sources): the snapshot `spaces_size`, `sp_seq` of the spaces of the previous
call and the flag `matrix_structure_reusable`; `enumerations` counts how often
the sparsity pattern was enumerated. -/
structure SelectiveAssembler where
  spaces_size : Nat
  sp_seq : List Int
  matrix_structure_reusable : Bool
  enumerations : Nat
deriving DecidableEq, Repr

/-- Modelled from the spec: `prepare_sparse_structure`, whose body is not
among the sources, for spaces with the sequence numbers `seqs`. If the space
count or a sequence number differs from the snapshot, the structure is
rebuilt (the pattern enumerated anew, the flag invalidated) and the snapshot
refreshed; otherwise the previous structure is declared reusable and nothing
is rebuilt. -/
def prepare_sparse_structure (a : SelectiveAssembler) (seqs : List Int) : SelectiveAssembler :=
  if a.spaces_size ≠ seqs.length ∨ a.sp_seq ≠ seqs then
    { spaces_size := seqs.length
      sp_seq := seqs
      matrix_structure_reusable := false
      enumerations := a.enumerations + 1 }
  else { a with matrix_structure_reusable := true }

/-! ## Boundary projection -/

/-- Modelled from the spec: an essential boundary condition, with a constant
value (`BC_CONST`, `value_const`) or a value that is a function of the
position (`BC_FUNCTION`, `value(x, y)`). -/
inductive EssentialBoundaryCondition where
  | const (value_const : ℚ)
  | function (value : ℚ → ℚ → ℚ)

/-- What `get_bc_projection` takes from outside `space_h1.cpp`: the points
`(x, weight)` of the one-dimensional quadrature of maximal order, the point
`nurbs_edge u` of the boundary segment at the parameter `u`, the solver
`cholsl n b` of the factored projection matrix for the first `n` edge
functions, and the mode of the base element. -/
structure ProjectionEnv where
  pt : List (ℚ × ℚ)
  nurbs_edge : ℚ → ℚ × ℚ
  cholsl : Nat → List ℚ → List ℚ
  mode : Nat

/-- The value of the boundary condition at the parameter `t` of the
segment. -/
def bc_value (env : ProjectionEnv) (bc : EssentialBoundaryCondition) (t : ℚ) : ℚ :=
  match bc with
  | .const v => v
  | .function f => f (env.nurbs_edge (2 * t - 1)).1 (env.nurbs_edge (2 * t - 1)).2

/-- The right-hand side that `get_bc_projection` integrates for the `i`-th
higher-order coefficient, from the endpoint values `p0`, `p1`. -/
def bc_projection_rhs (sp : Space) (env : ProjectionEnv) (lo hi : ℚ)
    (bc : EssentialBoundaryCondition) (p0 p1 : ℚ) (i : Nat) : ℚ :=
  env.pt.foldl
    (fun acc p =>
      let t := (p.1 + 1) * (1 / 2)
      let s := 1 - t
      let l := p0 * s + p1 * t
      acc + p.2 *
        sp.shapeset.get_fn_value (sp.shapeset.get_edge_index 0 0 ((i : Int) + 2) env.mode)
          p.1 (-1) 0 env.mode *
        (bc_value env bc (lo * s + hi * t) - l)) 0

/-- `H1Space::get_bc_projection` on the segment `[lo, hi]` of `surf_pos`: the
two endpoint values, followed for `order > 1` by the solution of the
projection system for the `order - 1` integrated right-hand sides. -/
def get_bc_projection (sp : Space) (env : ProjectionEnv) (lo hi : ℚ) (order : Int)
    (bc : EssentialBoundaryCondition) : List ℚ :=
  let p0 := bc_value env bc lo
  let p1 := bc_value env bc hi
  if 1 < order then
    [p0, p1] ++ env.cholsl (order - 1).toNat
      ((List.range (order - 1).toNat).map (bc_projection_rhs sp env lo hi bc p0 p1))
  else [p0, p1]

/-- A sample projection environment: a two-point quadrature, a straight
boundary segment, and a diagonal projection matrix. -/
def sampleProjectionEnv : ProjectionEnv :=
  { pt := [(-1 / 2, 1), (1 / 2, 1)]
    nurbs_edge := fun u => (u, 0)
    cholsl := fun _ b => b.map (· / 3)
    mode := 0 }

/-- The baselist `l` contains all the dofs `e, ..., e + n - 1` of the edge
node, or none of them (and then no dof in that range at all). -/
def AllOrNone (e n : Int) (l : List BaseComponent) : Prop :=
  (∀ k ∈ List.range n.toNat, e + (k : Int) ∈ l.map (·.dof)) ∨
    (∀ x ∈ l, x.dof < e ∨ e + n ≤ x.dof)

instance AllOrNone.decidable (e n : Int) (l : List BaseComponent) :
    Decidable (AllOrNone e n l) := by
  unfold AllOrNone; infer_instance

/-- Node data for the sample of a hanging vertex between a free vertex and an
already resolved hanging vertex: vertex 0 carries the dof 0, the hanging
vertex 2 the baselist of the midpoint of the edge with the dofs 3 and 4
between the dofs 0 and 1. -/
def sampleNestedNdata : Nat → NodeData := fun id =>
  if id = 3 then { dof := 3, n := 2 }
  else if id = 2 then
    { dof := -2, n := 1
      baselist := [⟨0, 1 / 2⟩, ⟨1, 1 / 2⟩, ⟨3, 1⟩, ⟨4, 1⟩]
      ncomponents := 4 }
  else { dof := id, n := 1 }

/-! ## Conforming meshes -/

/-- A mesh with only conforming elements: no vertex of an active element is
hanging, and every edge of an active element is a boundary edge or is shared
by two elements (its reference count exceeds 1). -/
def Conforming (sp : Space) : Prop :=
  ∀ e ∈ sp.mesh.active, ∀ i < e.nvert,
    (sp.mesh.node (e.vn i)).is_constrained_vertex = false ∧
      ((sp.mesh.node (e.en i)).bnd = true ∨ 1 < (sp.mesh.node (e.en i)).ref)

/-- The vertex nodes of the active elements of positive order, each once. -/
def vertex_nodes (sp : Space) (st : SpaceState) : List Nat :=
  ((visit_list st.edata sp.mesh.active).map (fun p => p.1.vn p.2)).dedup

/-- The edge nodes of the active elements of positive order, each once. -/
def edge_nodes (sp : Space) (st : SpaceState) : List Nat :=
  ((visit_list st.edata sp.mesh.active).map (fun p => p.1.en p.2)).dedup

/-- The number of functions determined by the orders: one per vertex node,
`edge order - 1` per edge node, and `get_num_bubbles(order, mode)` per active
element. -/
def expected_dofs (sp : Space) (st : SpaceState) : Int :=
  ((vertex_nodes sp st).length : Int) +
    ((edge_nodes sp st).map (fun en => sp.get_edge_order_internal en - 1)).sum +
    (sp.mesh.active.map
      (fun e => sp.shapeset.get_num_bubbles (st.edata e.id).order e.mode)).sum

/-- What the passes keep true about the marks, `st0` being the state they
started from: an unassigned vertex has its `n` of the start; an assigned
vertex carries the constrained marker exactly when its `n` was 0 at the
start; an assigned edge carries it exactly when it has an essential boundary
condition, and has `n = edge order - 1`. -/
structure MarkInv (sp : Space) (st0 s : SpaceState) : Prop where
  nonneg : 0 ≤ s.next_dof
  vertex_n : ∀ id, (sp.mesh.node id).type = NodeType.vertex →
    (s.ndata id).dof = sp.H2D_UNASSIGNED_DOF → (s.ndata id).n = (st0.ndata id).n
  vertex_mark : ∀ id, (sp.mesh.node id).type = NodeType.vertex →
    (s.ndata id).dof ≠ sp.H2D_UNASSIGNED_DOF →
    ((s.ndata id).dof = sp.H2D_CONSTRAINED_DOF ↔ (st0.ndata id).n = 0)
  edge_mark : ∀ id, (sp.mesh.node id).type = NodeType.edge →
    (s.ndata id).dof ≠ sp.H2D_UNASSIGNED_DOF →
    ((s.ndata id).dof = sp.H2D_CONSTRAINED_DOF ↔ edge_essential sp id = true) ∧
      (s.ndata id).n = sp.get_edge_order_internal id - 1

/-- The sample space with an essential boundary condition on every boundary
marker. -/
def sampleDirichletSpace : Space :=
  { sampleSpace with essential_bcs := some (fun _ => true) }

/-- The state before the assignment in the sample with essential boundary
conditions: every vertex lies on the essential boundary (`n = 0`). -/
def sampleDirichletState : SpaceState :=
  { sampleState with ndata := fun _ => { dof := -2, n := 0 } }

/-! ## Constraint propagation (`update_constrained_nodes`, `update_constraints`) -/

/-- Modelled from the spec: the refinement tree below an element, as
`update_constrained_nodes` walks it. An element is active, or it is a
triangle with the four sons `sons[0..3]`, or a quadrilateral split
horizontally (`sons[2] == nullptr`, sons 0 and 1), vertically
(`sons[0] == nullptr`, sons 2 and 3) or fully (four sons). A triangle has
three vertices and a quadrilateral four. -/
inductive ElementTree where
  | active (e : Element)
  | triangle (e : Element) (s0 s1 s2 s3 : ElementTree)
  | quad_h (e : Element) (s0 s1 : ElementTree)
  | quad_v (e : Element) (s2 s3 : ElementTree)
  | quad_full (e : Element) (s0 s1 s2 s3 : ElementTree)

/-- What `update_constraints` reads from the refinement hierarchy of the mesh:
the base elements in iteration order (`for_all_base_elements`), each with its
refinement tree, `Mesh::peek_edge_node` on two vertex ids, and
`Space::get_mid_edge_vertex_node(e, i, j)`, defined in `space.cpp`. -/
structure Refinement where
  base : List ElementTree
  peek_edge_node : Nat → Nat → Option Nat
  get_mid_edge_vertex_node : Element → Nat → Nat → Option Nat

/-- The elements with sons in a refinement tree. -/
def ElementTree.refined : ElementTree → List Element
  | .active _ => []
  | .triangle e s0 s1 s2 s3 => e :: (s0.refined ++ s1.refined ++ s2.refined ++ s3.refined)
  | .quad_h e s0 s1 => e :: (s0.refined ++ s1.refined)
  | .quad_v e s2 s3 => e :: (s2.refined ++ s3.refined)
  | .quad_full e s0 s1 s2 s3 => e :: (s0.refined ++ s1.refined ++ s2.refined ++ s3.refined)

/-- The four edge-info pointers `ei0, ei1, ei2, ei3` of a call, by index. -/
def edge_info_args (a b c d : Option EdgeInfo) : Nat → Option EdgeInfo
  | 0 => a
  | 1 => b
  | 2 => c
  | 3 => d
  | _ => none

/-- The active branch of `update_constrained_nodes`: every edge of `e` with an
edge info stores the constraining edge node and the part code. -/
def store_edge_infos (e : Element) (ei : Nat → Option EdgeInfo) (nd : Nat → NodeData) :
    Nat → NodeData :=
  (List.range e.nvert).foldl
    (fun nd i =>
      match ei i with
      | some x => Function.update nd (e.en i) (store_edge_info (nd (e.en i)) x)
      | none => nd) nd

/-- The edge info that `update_constrained_nodes` creates for the edge `i` of
a refined element that has none yet: when the mid-edge vertex exists and is
constrained and the edge node between the two vertices exists, the whole
interval `[-1, 1]` of that edge node with part code `-1`. -/
def new_edge_info (sp : Space) (rf : Refinement) (e : Element) (i : Nat) : Option EdgeInfo :=
  match rf.get_mid_edge_vertex_node e i (next_vert e i) with
  | none => none
  | some mid_vn =>
    if (sp.mesh.node mid_vn).is_constrained_vertex then
      match rf.peek_edge_node (e.vn i) (e.vn (next_vert e i)) with
      | none => none
      | some mid_en =>
        some { node := mid_en, part := -1, lo := -1, hi := 1
               ori := if e.vn i < e.vn (next_vert e i) then 0 else 1 }
    else none

/-- The array `ei` after the first loop of the refined branch. -/
def edge_infos (sp : Space) (rf : Refinement) (e : Element) (ei : Nat → Option EdgeInfo) :
    Nat → Option EdgeInfo :=
  fun i =>
    if i < e.nvert then
      match ei i with
      | some x => some x
      | none => new_edge_info sp rf e i
    else ei i

/-- One round of the second loop of the refined branch: the baselist of the
mid-edge vertex of edge `i` is built and stored. -/
def mid_vertex_baselist (sp : Space) (rf : Refinement) (e : Element)
    (ei : Nat → Option EdgeInfo) (nd : Nat → NodeData) (i : Nat) : Option (Nat → NodeData) :=
  match ei i with
  | none => some nd
  | some x =>
    match rf.get_mid_edge_vertex_node e i (next_vert e i) with
    | none => some nd
    | some mid_vn =>
      (constrained_vertex_data sp nd (e.vn i) (e.vn (next_vert e i)) mid_vn x e.mode).map
        (fun d => Function.update nd mid_vn d)

/-- The second loop of the refined branch, over the edges of `e`. -/
def mid_vertex_baselists (sp : Space) (rf : Refinement) (e : Element)
    (ei : Nat → Option EdgeInfo) (st : SpaceState) : Option SpaceState :=
  ((List.range e.nvert).foldlM (mid_vertex_baselist sp rf e ei) st.ndata).map
    (fun nd => { st with ndata := nd })

/-- `H1Space::update_constrained_nodes`. `none` when a baselist cannot be
completed (see `constrained_vertex_data`). -/
def update_constrained_nodes (sp : Space) (rf : Refinement) :
    ElementTree → (Nat → Option EdgeInfo) → SpaceState → Option SpaceState
  | .active e, ei, st =>
    if get_element_order st e.id = 0 then some st
    else some { st with ndata := store_edge_infos e ei st.ndata }
  | .triangle e s0 s1 s2 s3, ei, st =>
    if get_element_order st e.id = 0 then some st
    else
      let ei1 := edge_infos sp rf e ei
      let h := fun i => half_edge_infos (ei1 i)
      (mid_vertex_baselists sp rf e ei1 st).bind fun t0 =>
      (update_constrained_nodes sp rf s0 (edge_info_args (h 0).1 none (h 2).2 none) t0).bind
        fun t1 =>
      (update_constrained_nodes sp rf s1 (edge_info_args (h 0).2 (h 1).1 none none) t1).bind
        fun t2 =>
      (update_constrained_nodes sp rf s2 (edge_info_args none (h 1).2 (h 2).1 none) t2).bind
        fun t3 =>
      update_constrained_nodes sp rf s3 (edge_info_args none none none none) t3
  | .quad_h e s0 s1, ei, st =>
    if get_element_order st e.id = 0 then some st
    else
      let ei1 := edge_infos sp rf e ei
      let h := fun i => half_edge_infos (ei1 i)
      (mid_vertex_baselists sp rf e ei1 st).bind fun t0 =>
      (update_constrained_nodes sp rf s0 (edge_info_args (ei1 0) (h 1).1 none (h 3).2) t0).bind
        fun t1 =>
      update_constrained_nodes sp rf s1 (edge_info_args none (h 1).2 (ei1 2) (h 3).1) t1
  | .quad_v e s2 s3, ei, st =>
    if get_element_order st e.id = 0 then some st
    else
      let ei1 := edge_infos sp rf e ei
      let h := fun i => half_edge_infos (ei1 i)
      (mid_vertex_baselists sp rf e ei1 st).bind fun t0 =>
      (update_constrained_nodes sp rf s2 (edge_info_args (h 0).1 none (h 2).2 (ei1 3)) t0).bind
        fun t1 =>
      update_constrained_nodes sp rf s3 (edge_info_args (h 0).2 (ei1 1) (h 2).1 none) t1
  | .quad_full e s0 s1 s2 s3, ei, st =>
    if get_element_order st e.id = 0 then some st
    else
      let ei1 := edge_infos sp rf e ei
      let h := fun i => half_edge_infos (ei1 i)
      (mid_vertex_baselists sp rf e ei1 st).bind fun t0 =>
      (update_constrained_nodes sp rf s0 (edge_info_args (h 0).1 none none (h 3).2) t0).bind
        fun t1 =>
      (update_constrained_nodes sp rf s1 (edge_info_args (h 0).2 (h 1).1 none none) t1).bind
        fun t2 =>
      (update_constrained_nodes sp rf s2 (edge_info_args none (h 1).2 (h 2).1 none) t2).bind
        fun t3 =>
      update_constrained_nodes sp rf s3 (edge_info_args none none (h 2).2 (h 3).1) t3

/-- `H1Space::update_constraints`: every base element, with four null edge
infos. -/
def update_constraints (sp : Space) (rf : Refinement) (st : SpaceState) : Option SpaceState :=
  rf.base.foldlM
    (fun s t => update_constrained_nodes sp rf t (edge_info_args none none none none) s) st

/-- The dofs `dof + k`, `k < n`, of the node `en` in the state `s0` lie below
`next_dof`. -/
def BlockInRange (s0 : SpaceState) (en : Nat) : Prop :=
  ∀ k : Nat, (k : Int) < (s0.ndata en).n → (s0.ndata en).dof + (k : Int) < s0.next_dof

/-- What constraint propagation keeps true, `s0` being the state after the
assignment passes: `dof`, `n`, the element table and `next_dof` are those of
`s0`, every dof of a stored baselist lies below `next_dof`, and so does the
block of every stored constraining edge node. -/
structure RangeInv (s0 s : SpaceState) : Prop where
  next_eq : s.next_dof = s0.next_dof
  edata_eq : s.edata = s0.edata
  dof_eq : ∀ id, (s.ndata id).dof = (s0.ndata id).dof
  n_eq : ∀ id, (s.ndata id).n = (s0.ndata id).n
  baselist : ∀ id, ∀ b ∈ (s.ndata id).baselist, b.dof < s0.next_dof
  base : ∀ id b, (s.ndata id).base = some b → BlockInRange s0 b

/-- Conditions on the refinement hierarchy under which constraint
propagation is studied: the vertex slots of a refined element refer to vertex
nodes, and a constraining edge node (the edge node found between the two
ends of an edge with a hanging midpoint) is an eligible edge, without an
essential boundary condition, of an active element of positive order. -/
structure ConstraintsOK (sp : Space) (rf : Refinement) (st : SpaceState) : Prop where
  vertex_type : ∀ t ∈ rf.base, ∀ e ∈ t.refined, ∀ i < e.nvert,
    (sp.mesh.node (e.vn i)).type = NodeType.vertex
  constraining : ∀ t ∈ rf.base, ∀ e ∈ t.refined, ∀ i < e.nvert,
    ∀ x, new_edge_info sp rf e i = some x →
      edge_eligible sp x.node = true ∧ edge_essential sp x.node = false ∧
        ∃ a ∈ sp.mesh.active, 0 < get_element_order st a.id ∧ ∃ k < a.nvert, a.en k = x.node

/-! ## A sample with a hanging vertex: a triangle next to a refined triangle -/

/-- The coarse active triangle with the vertices 1, 0, 3; its edge 0 (node
10) is the constraining edge between the vertices 1 and 0. -/
def sampleCoarse : Element :=
  { id := 0, nvert := 3, vn := fun i => if i = 0 then 1 else if i = 1 then 0 else 3
    en := fun i => 10 + i, mode := 0 }

/-- The refined triangle with the vertices 0, 1, 2. -/
def sampleParent : Element :=
  { id := 1, nvert := 3, vn := fun i => i, en := fun i => if i = 0 then 10 else 12 + i
    mode := 0 }

/-- The son 0 of the refined triangle: vertices 0, 4, 6. -/
def sampleSon0 : Element :=
  { id := 2, nvert := 3, vn := fun i => if i = 0 then 0 else if i = 1 then 4 else 6
    en := fun i => 20 + i, mode := 0 }

/-- The son 1 of the refined triangle: vertices 4, 1, 5. -/
def sampleSon1 : Element :=
  { id := 3, nvert := 3, vn := fun i => if i = 0 then 4 else if i = 1 then 1 else 5
    en := fun i => 23 + i, mode := 0 }

/-- The son 2 of the refined triangle: vertices 6, 5, 2. -/
def sampleSon2 : Element :=
  { id := 4, nvert := 3, vn := fun i => if i = 0 then 6 else if i = 1 then 5 else 2
    en := fun i => 26 + i, mode := 0 }

/-- The inner son 3 of the refined triangle: vertices 5, 6, 4. -/
def sampleSon3 : Element :=
  { id := 5, nvert := 3, vn := fun i => if i = 0 then 5 else if i = 1 then 6 else 4
    en := fun i => if i = 0 then 26 else if i = 1 then 21 else 25, mode := 0 }

/-- The mesh of the two triangles: the vertex 4, the midpoint of the edge
between 0 and 1, is hanging; the edge nodes 20 and 23 are the two halves of
the constraining edge 10; the edges 11, 12, 22, 24, 27, 28 lie on the
boundary and the edges 21, 25, 26 are shared by two sons. -/
def sampleRefinedMesh : Mesh :=
  { active := [sampleCoarse, sampleSon0, sampleSon1, sampleSon2, sampleSon3]
    node := fun id =>
      { type := if id < 7 then NodeType.vertex else NodeType.edge
        ref := if id = 21 ∨ id = 25 ∨ id = 26 then 2 else 1
        bnd := decide (id = 11 ∨ id = 12 ∨ id = 22 ∨ id = 24 ∨ id = 27 ∨ id = 28)
        p1 := 0
        p2 := if id = 10 then 1 else 0
        marker := 1
        is_constrained_vertex := decide (id = 4) }
    peek_vertex_node := fun a b => if a = 0 ∧ b = 1 then some 4 else none
    get_user_marker := fun m => m }

/-- The space of second-order elements on the two triangles, without
essential boundary conditions. -/
def sampleRefinedSpace : Space :=
  { mesh := sampleRefinedMesh
    shapeset := sampleShapeset
    essential_bcs := none
    get_edge_order_internal := fun _ => 2
    H2D_UNASSIGNED_DOF := -2
    H2D_CONSTRAINED_DOF := -1 }

/-- The state before the assignment on the two triangles: every dof
unassigned, no baselist, `next_dof = 0`, order two in every element. -/
def sampleRefinedState : SpaceState :=
  { ndata := fun _ => { dof := -2, n := 1 }
    edata := fun _ => { order := 2, bdof := 0, n := 0 }
    next_dof := 0
    vertex_functions_count := 0
    edge_functions_count := 0
    bubble_functions_count := 0 }

/-- The refinement hierarchy of the two triangles: the coarse triangle is a
base element and active, the other base element has four active sons and the
mid-edge vertices 4, 5, 6. -/
def sampleRefinement : Refinement :=
  { base :=
      [ElementTree.active sampleCoarse,
       ElementTree.triangle sampleParent (ElementTree.active sampleSon0)
         (ElementTree.active sampleSon1) (ElementTree.active sampleSon2)
         (ElementTree.active sampleSon3)]
    peek_edge_node := fun a b => if (a = 0 ∧ b = 1) ∨ (a = 1 ∧ b = 0) then some 10 else none
    get_mid_edge_vertex_node := fun e i _ =>
      if e.id = 1 then
        if i = 0 then some 4 else if i = 1 then some 5 else if i = 2 then some 6 else none
      else none }

/-! ## Half-edge descents and the part code -/

/-- One half-edge descent in `update_constrained_nodes`: the edge info handed
to the son on the first half (`b = false`, `half_ei[i][0]`) or on the second
half (`b = true`, `half_ei[i][1]`). -/
def half_edge_info (o : Option EdgeInfo) (b : Bool) : Option EdgeInfo :=
  if b then (half_edge_infos o).2 else (half_edge_infos o).1

/-- The edge info reached by the descents `b1, ..., bk`, in this order. -/
def descend (o : Option EdgeInfo) (bits : List Bool) : Option EdgeInfo :=
  bits.foldl half_edge_info o

/-- The bits `b1 ... bk` read as a binary number, `b1` first, continuing the
number `v`. -/
def bits_from (v : Nat) (bits : List Bool) : Nat :=
  bits.foldl (fun v b => 2 * v + (if b then 1 else 0)) v

/-- The bits `b1 ... bk` read as a binary number. -/
def bits_value (bits : List Bool) : Nat := bits_from 0 bits

/-! ## Selective assembly: which forms contribute -/

/-- Modelled from the spec: the sub-domain markers a weak-form form is
declared for (the form classes are declared in `forms.h`, not among the
sources): `any` is `HERMES_ANY`, no marker restriction; `only l` is the
declared marker set `l`. -/
inductive FormAreas where
  | any
  | only (markers : List Int)
deriving DecidableEq, Repr

/-- Modelled from the spec: the form classes behind the overloads of
`form_to_be_assembled`: the general form and its volumetric, surface and
discontinuous-Galerkin variants. -/
inductive FormVariant where
  | general
  | vol
  | surf
  | dg
deriving DecidableEq, Repr

/-- Modelled from the spec: a weak-form form object as the predicate reads
it: a matrix form with its row `i` and column `j`, or a vector form with its
row `i`, and the declared markers. -/
inductive Form where
  | matrix (variant : FormVariant) (i j : Nat) (areas : FormAreas)
  | vector (variant : FormVariant) (i : Nat) (areas : FormAreas)
deriving DecidableEq, Repr

/-- The declared markers of a form. -/
def Form.areas : Form → FormAreas
  | .matrix _ _ _ areas => areas
  | .vector _ _ areas => areas

/-- The edge info of the first half `[-1, 0]` of edge node 3. -/
def sampleHalfEdgeInfo : EdgeInfo := { node := 3, part := 0, ori := 0, lo := -1, hi := 0 }

/-! ## Lemmas and theorems -/

theorem output_eq_emit (ndata : Nat → NodeData) (s : MergeCursor) (m : BaseComponent) :
    output_new_component ndata m s = emit ndata s (halve m) := by
  unfold output_new_component emit reserve halve
  cases s.edge with
  | none => rfl
  | some en => by_cases h1 : (ndata en).dof ≤ m.dof <;> simp [h1]

theorem emit_lastCell (ndata : Nat → NodeData) (s : MergeCursor) (x : BaseComponent) :
    (emit ndata s x).lastCell = some x := by
  simp [emit, MergeCursor.lastCell]

theorem output_component_fresh (ndata : Nat → NodeData) (s : MergeCursor) (m : BaseComponent)
    (h : ∀ l, s.lastCell = some l → l.dof ≠ m.dof) :
    output_component ndata s m = emit ndata s (halve m) := by
  unfold output_component
  cases hl : s.last with
  | none => simp [output_eq_emit]
  | some i =>
    cases hc : s.lastCell with
    | none => simp [output_eq_emit]
    | some l =>
      have := h l hc
      simp [this, output_eq_emit]

theorem output_component_tie (ndata : Nat → NodeData) (s : MergeCursor) (x m : BaseComponent)
    (h : x.dof = m.dof) :
    output_component ndata (emit ndata s x) m =
      emit ndata s { dof := x.dof, coef := x.coef + m.coef * (1 / 2) } := by
  have h2 := emit_lastCell ndata s x
  unfold output_component
  rw [h2]
  simp [emit, h]

theorem strictAsc_cons (a : BaseComponent) (l : List BaseComponent) :
    StrictAsc (a :: l) ↔ (∀ x ∈ l, a.dof < x.dof) ∧ StrictAsc l := by
  simp [StrictAsc, List.pairwise_cons]

theorem merge_loops_cons_cons (ndata : Nat → NodeData) (a b : BaseComponent)
    (l1 l2 : List BaseComponent) (s : MergeCursor) :
    merge_loops ndata (a :: l1) (b :: l2) s =
      if a.dof < b.dof then merge_loops ndata l1 (b :: l2) (output_component ndata s a)
      else merge_loops ndata (a :: l1) l2 (output_component ndata s b) := by
  unfold merge_loops
  rw [merge_main]
  split <;> rfl

theorem merge_loops_nil_right (ndata : Nat → NodeData) (l1 : List BaseComponent)
    (s : MergeCursor) :
    merge_loops ndata l1 [] s = l1.foldl (output_component ndata) s := by
  unfold merge_loops
  cases l1 <;> simp [merge_main]

theorem merge_loops_nil_left (ndata : Nat → NodeData) (l2 : List BaseComponent)
    (s : MergeCursor) :
    merge_loops ndata [] l2 s = l2.foldl (output_component ndata) s := by
  unfold merge_loops
  cases l2 <;> simp [merge_main]

theorem merge_loops_cons_of_lt (ndata : Nat → NodeData) (a : BaseComponent)
    (l1 l2 : List BaseComponent) (s : MergeCursor) (h : ∀ x ∈ l2, a.dof < x.dof) :
    merge_loops ndata (a :: l1) l2 s = merge_loops ndata l1 l2 (output_component ndata s a) := by
  cases l2 with
  | nil => simp [merge_loops_nil_right]
  | cons b l2 =>
    rw [merge_loops_cons_cons, if_pos (h b (List.mem_cons_self _ _))]

theorem foldl_output_eq (ndata : Nat → NodeData) (l : List BaseComponent) :
    ∀ s : MergeCursor, StrictAsc l → (∀ c, s.lastCell = some c → ∀ x ∈ l, c.dof < x.dof) →
      l.foldl (output_component ndata) s = (l.map halve).foldl (emit ndata) s := by
  induction l with
  | nil => intro s _ _; rfl
  | cons a l ih =>
    intro s hl hs
    rw [strictAsc_cons] at hl
    have hf : output_component ndata s a = emit ndata s (halve a) :=
      output_component_fresh ndata s a
        (fun c hc => ne_of_lt (hs c hc a (List.mem_cons_self _ _)))
    simp only [List.foldl_cons, List.map_cons, hf]
    apply ih _ hl.2
    intro c hc x hx
    rw [emit_lastCell] at hc
    cases hc
    exact hl.1 x hx

theorem merge_loops_eq (ndata : Nat → NodeData) :
    ∀ (k : Nat) (l1 l2 : List BaseComponent) (s : MergeCursor), l1.length + l2.length = k →
      StrictAsc l1 → StrictAsc l2 →
      (∀ c, s.lastCell = some c → (∀ x ∈ l1, c.dof < x.dof) ∧ ∀ x ∈ l2, c.dof < x.dof) →
      merge_loops ndata l1 l2 s = (mergeSpec l1 l2).foldl (emit ndata) s := by
  intro k
  induction k using Nat.strong_induction_on with
  | _ k ih =>
    intro l1 l2 s hk h1 h2 hs
    cases l1 with
    | nil =>
      rw [merge_loops_nil_left, mergeSpec]
      exact foldl_output_eq ndata l2 s h2 (fun c hc => (hs c hc).2)
    | cons a l1 =>
      cases l2 with
      | nil =>
        rw [merge_loops_nil_right]
        have : mergeSpec (a :: l1) [] = (a :: l1).map halve := by
          clear ih hk h1 hs
          induction l1 generalizing a with
          | nil => simp [mergeSpec]
          | cons b l ihl => rw [mergeSpec, ihl]; rfl
        rw [this]
        exact foldl_output_eq ndata (a :: l1) s h1 (fun c hc => (hs c hc).1)
      | cons b l2 =>
        have h1' := (strictAsc_cons a l1).1 h1
        have h2' := (strictAsc_cons b l2).1 h2
        have hsa : ∀ c, s.lastCell = some c → c.dof < a.dof :=
          fun c hc => (hs c hc).1 a (List.mem_cons_self _ _)
        have hsb : ∀ c, s.lastCell = some c → c.dof < b.dof :=
          fun c hc => (hs c hc).2 b (List.mem_cons_self _ _)
        rw [merge_loops_cons_cons, mergeSpec]
        by_cases hab : a.dof < b.dof
        · rw [if_pos hab, if_pos hab,
            output_component_fresh ndata s a (fun c hc => ne_of_lt (hsa c hc)), List.foldl_cons]
          apply ih (l1.length + (b :: l2).length) (by simp at hk ⊢; omega) _ _ _ rfl h1'.2 h2
          intro c hc
          rw [emit_lastCell] at hc
          cases hc
          refine ⟨h1'.1, ?_⟩
          intro x hx
          rcases List.mem_cons.1 hx with rfl | hx
          · exact hab
          · exact lt_trans hab (h2'.1 x hx)
        · rw [if_neg hab, if_neg hab,
            output_component_fresh ndata s b (fun c hc => ne_of_lt (hsb c hc))]
          by_cases hba : b.dof < a.dof
          · rw [if_pos hba, List.foldl_cons]
            apply ih ((a :: l1).length + l2.length) (by simp at hk ⊢; omega) _ _ _ rfl h1 h2'.2
            intro c hc
            rw [emit_lastCell] at hc
            cases hc
            refine ⟨?_, h2'.1⟩
            intro x hx
            rcases List.mem_cons.1 hx with rfl | hx
            · exact hba
            · exact lt_trans hba (h1'.1 x hx)
          · have heq : a.dof = b.dof := le_antisymm (not_lt.1 hba) (not_lt.1 hab)
            rw [if_neg hba, List.foldl_cons,
              merge_loops_cons_of_lt ndata a l1 l2 _ (fun x hx => heq ▸ h2'.1 x hx),
              output_component_tie ndata s (halve b) a (by simp [halve, heq])]
            apply ih (l1.length + l2.length) (by simp at hk ⊢; omega) _ _ _ rfl h1'.2 h2'.2
            intro c hc
            rw [emit_lastCell] at hc
            cases hc
            exact ⟨fun x hx => heq ▸ h1'.1 x hx, h2'.1⟩

theorem mergeSpec_nil_right (l1 : List BaseComponent) : mergeSpec l1 [] = l1.map halve := by
  induction l1 with
  | nil => simp [mergeSpec]
  | cons a l ih => rw [mergeSpec, ih]; rfl

theorem mergeSpec_comm :
    ∀ (k : Nat) (l1 l2 : List BaseComponent), l1.length + l2.length = k →
      mergeSpec l1 l2 = mergeSpec l2 l1 := by
  intro k
  induction k using Nat.strong_induction_on with
  | _ k ih =>
    intro l1 l2 hk
    cases l1 with
    | nil => rw [mergeSpec_nil_right, mergeSpec]
    | cons a l1 =>
      cases l2 with
      | nil => rw [mergeSpec_nil_right, mergeSpec]
      | cons b l2 =>
        rw [mergeSpec, mergeSpec]
        by_cases hab : a.dof < b.dof
        · rw [if_pos hab, if_neg (not_lt.2 (le_of_lt hab)), if_pos hab,
            ih _ (by simp at hk ⊢; omega) l1 (b :: l2) rfl]
        · by_cases hba : b.dof < a.dof
          · rw [if_neg hab, if_pos hba, if_pos hba,
              ih _ (by simp at hk ⊢; omega) (a :: l1) l2 rfl]
          · have heq : a.dof = b.dof := le_antisymm (not_lt.1 hba) (not_lt.1 hab)
            rw [if_neg hab, if_neg hba, if_neg hba, if_neg hab,
              ih _ (by simp at hk ⊢; omega) l1 l2 rfl, heq, add_comm]

theorem coefOf_cons (a : BaseComponent) (l : List BaseComponent) (d : Int) :
    coefOf (a :: l) d = if a.dof = d then a.coef else coefOf l d := by
  unfold coefOf
  by_cases h : a.dof = d <;> simp [List.find?_cons, h]

theorem coefOf_of_lt (l : List BaseComponent) (d : Int) (h : ∀ x ∈ l, d < x.dof) :
    coefOf l d = 0 := by
  induction l with
  | nil => rfl
  | cons a l ih =>
    rw [coefOf_cons, if_neg (ne_of_gt (h a (List.mem_cons_self _ _)))]
    exact ih (fun x hx => h x (List.mem_cons_of_mem _ hx))

theorem coefOf_mem (l : List BaseComponent) (h : StrictAsc l) (y : BaseComponent) (hy : y ∈ l) :
    coefOf l y.dof = y.coef := by
  induction l with
  | nil => cases hy
  | cons b l ih =>
    rw [coefOf_cons]
    rw [strictAsc_cons] at h
    rcases List.mem_cons.1 hy with rfl | hy'
    · simp
    · rw [if_neg (ne_of_lt (h.1 y hy')), ih h.2 hy']

theorem mergeSpec_map_halve (l : List BaseComponent) (h : StrictAsc l) :
    StrictAsc (l.map halve) ∧
      (∀ d, d ∈ (l.map halve).map (·.dof) ↔ d ∈ l.map (·.dof)) ∧
      (∀ x ∈ l.map halve, x.coef = (1 / 2) * coefOf l x.dof) := by
  refine ⟨?_, ?_, ?_⟩
  · simpa [StrictAsc, halve, List.map_map, Function.comp_def] using h
  · intro d
    have : (l.map halve).map (·.dof) = l.map (·.dof) := by
      rw [List.map_map]; rfl
    rw [this]
  · intro x hx
    obtain ⟨y, hy, rfl⟩ := List.mem_map.1 hx
    show y.coef * (1 / 2) = 1 / 2 * coefOf l y.dof
    rw [coefOf_mem l h y hy]
    ring

/-- Facts about `mergeSpec` on strictly ascending lists: the entries are
strictly ascending, their dofs are those of the inputs, and each coefficient
is half the sum of the input coefficients of its dof. -/
theorem mergeSpec_props :
    ∀ (k : Nat) (l1 l2 : List BaseComponent), l1.length + l2.length = k →
      StrictAsc l1 → StrictAsc l2 →
      StrictAsc (mergeSpec l1 l2) ∧
      (∀ d, d ∈ (mergeSpec l1 l2).map (·.dof) ↔ d ∈ l1.map (·.dof) ∨ d ∈ l2.map (·.dof)) ∧
      (∀ x ∈ mergeSpec l1 l2, x.coef = (1 / 2) * (coefOf l1 x.dof + coefOf l2 x.dof)) := by
  intro k
  induction k using Nat.strong_induction_on with
  | _ k ih =>
    intro l1 l2 hk h1 h2
    cases l1 with
    | nil =>
      rw [mergeSpec]
      obtain ⟨p1, p2, p3⟩ := mergeSpec_map_halve l2 h2
      refine ⟨p1, fun d => by rw [p2 d]; simp, fun x hx => ?_⟩
      rw [p3 x hx]; simp [coefOf]
    | cons a l1 =>
      cases l2 with
      | nil =>
        rw [mergeSpec_nil_right]
        obtain ⟨p1, p2, p3⟩ := mergeSpec_map_halve (a :: l1) h1
        refine ⟨p1, fun d => by rw [p2 d]; simp, fun x hx => ?_⟩
        rw [p3 x hx]; simp [coefOf]
      | cons b l2 =>
        have h1' := (strictAsc_cons a l1).1 h1
        have h2' := (strictAsc_cons b l2).1 h2
        have mem1 : ∀ (x : BaseComponent) (l : List BaseComponent) (d : Int),
            (∀ y ∈ l, d < y.dof) → x.dof ∈ l.map (·.dof) → d < x.dof := by
          intro x l d hl hx
          obtain ⟨y, hy, hyx⟩ := List.mem_map.1 hx
          exact hyx ▸ hl y hy
        rw [mergeSpec]
        by_cases hab : a.dof < b.dof
        · rw [if_pos hab]
          obtain ⟨p1, p2, p3⟩ := ih _ (by simp at hk ⊢; omega) l1 (b :: l2) rfl h1'.2 h2
          have hb : ∀ y ∈ b :: l2, a.dof < y.dof := by
            intro y hy
            rcases List.mem_cons.1 hy with rfl | hy
            · exact hab
            · exact lt_trans hab (h2'.1 y hy)
          have hgt : ∀ x ∈ mergeSpec l1 (b :: l2), a.dof < x.dof := by
            intro x hx
            rcases (p2 x.dof).1 (List.mem_map.2 ⟨x, hx, rfl⟩) with h | h
            · exact mem1 x l1 _ h1'.1 h
            · exact mem1 x (b :: l2) _ hb h
          refine ⟨(strictAsc_cons _ _).2 ⟨hgt, p1⟩, ?_, ?_⟩
          · intro d
            have hh : ∀ y : BaseComponent, (halve y).dof = y.dof := fun _ => rfl
            simp only [List.map_cons, List.mem_cons, hh]
            rw [p2 d]
            simp only [List.map_cons, List.mem_cons]
            tauto
          · intro x hx
            rcases List.mem_cons.1 hx with rfl | hx
            · show a.coef * (1 / 2) = 1 / 2 * (coefOf (a :: l1) a.dof + coefOf (b :: l2) a.dof)
              rw [coefOf_of_lt (b :: l2) a.dof hb, coefOf_cons, if_pos rfl]; ring
            · rw [p3 x hx, coefOf_cons a l1, if_neg (ne_of_lt (hgt x hx))]
        · rw [if_neg hab]
          by_cases hba : b.dof < a.dof
          · rw [if_pos hba]
            obtain ⟨p1, p2, p3⟩ := ih _ (by simp at hk ⊢; omega) (a :: l1) l2 rfl h1 h2'.2
            have ha : ∀ y ∈ a :: l1, b.dof < y.dof := by
              intro y hy
              rcases List.mem_cons.1 hy with rfl | hy
              · exact hba
              · exact lt_trans hba (h1'.1 y hy)
            have hgt : ∀ x ∈ mergeSpec (a :: l1) l2, b.dof < x.dof := by
              intro x hx
              rcases (p2 x.dof).1 (List.mem_map.2 ⟨x, hx, rfl⟩) with h | h
              · exact mem1 x (a :: l1) _ ha h
              · exact mem1 x l2 _ h2'.1 h
            refine ⟨(strictAsc_cons _ _).2 ⟨hgt, p1⟩, ?_, ?_⟩
            · intro d
              have hh : ∀ y : BaseComponent, (halve y).dof = y.dof := fun _ => rfl
              simp only [List.map_cons, List.mem_cons, hh]
              rw [p2 d]
              simp only [List.map_cons, List.mem_cons]
              tauto
            · intro x hx
              rcases List.mem_cons.1 hx with rfl | hx
              · show b.coef * (1 / 2) = 1 / 2 * (coefOf (a :: l1) b.dof + coefOf (b :: l2) b.dof)
                rw [coefOf_of_lt (a :: l1) b.dof ha, coefOf_cons, if_pos rfl]; ring
              · rw [p3 x hx, coefOf_cons b l2, if_neg (ne_of_lt (hgt x hx))]
          · have heq : a.dof = b.dof := le_antisymm (not_lt.1 hba) (not_lt.1 hab)
            rw [if_neg hba]
            obtain ⟨p1, p2, p3⟩ := ih _ (by simp at hk ⊢; omega) l1 l2 rfl h1'.2 h2'.2
            have hgt : ∀ x ∈ mergeSpec l1 l2, b.dof < x.dof := by
              intro x hx
              rcases (p2 x.dof).1 (List.mem_map.2 ⟨x, hx, rfl⟩) with h | h
              · exact mem1 x l1 _ (fun y hy => heq ▸ h1'.1 y hy) h
              · exact mem1 x l2 _ h2'.1 h
            refine ⟨(strictAsc_cons _ _).2 ⟨hgt, p1⟩, ?_, ?_⟩
            · intro d
              simp only [List.map_cons, List.mem_cons]
              rw [p2 d, heq]
              tauto
            · intro x hx
              rcases List.mem_cons.1 hx with rfl | hx
              · show b.coef * (1 / 2) + a.coef * (1 / 2) =
                  1 / 2 * (coefOf (a :: l1) b.dof + coefOf (b :: l2) b.dof)
                rw [coefOf_cons, coefOf_cons, if_pos heq, if_pos rfl]; ring
              · rw [p3 x hx, coefOf_cons a l1, coefOf_cons b l2,
                  if_neg (ne_of_lt (hgt x hx)), if_neg (ne_of_lt (heq ▸ hgt x hx))]

theorem merge_baselists_eq_spec (ndata : Nat → NodeData) (l1 l2 : List BaseComponent)
    (edge edge_dofs0 : Option Nat) (h1 : StrictAsc l1) (h2 : StrictAsc l2) :
    merge_baselists ndata l1 l2 edge edge_dofs0 =
      merge_finish ndata ((mergeSpec l1 l2).foldl (emit ndata)
        { result := [], last := none, edge := edge, edge_dofs := edge_dofs0 }) := by
  rw [← merge_loops_eq ndata _ l1 l2 _ rfl h1 h2]
  · rfl
  · intro c hc
    simp [MergeCursor.lastCell] at hc

theorem written_append_replicate_none (cells : List (Option BaseComponent)) (n : Nat) :
    written (cells ++ List.replicate n none) = written cells := by
  unfold written
  rw [List.filterMap_append]
  have : List.filterMap id (List.replicate n (none : Option BaseComponent)) = [] := by
    induction n with
    | zero => rfl
    | succ n ih => simp [List.replicate_succ, ih]
  rw [this, List.append_nil]

theorem written_reserve (ndata : Nat → NodeData) (s : MergeCursor) (d : Int) :
    written (reserve ndata s d).result = written s.result := by
  unfold reserve
  cases s.edge with
  | none => rfl
  | some en =>
    by_cases h1 : (ndata en).dof ≤ d
    · by_cases h2 : (ndata en).dof = d
      · simp [h1, h2]
      · simp only [h1, if_true, ne_eq, h2, not_false_eq_true]
        exact written_append_replicate_none _ _
    · simp [h1]

theorem written_emit (ndata : Nat → NodeData) (s : MergeCursor) (x : BaseComponent) :
    written (emit ndata s x).result = written s.result ++ [x] := by
  have := written_reserve ndata s x.dof
  unfold written at *
  simp [emit, List.filterMap_append, this]

theorem written_foldl_emit (ndata : Nat → NodeData) (cs : List BaseComponent) :
    ∀ s : MergeCursor,
      written (cs.foldl (emit ndata) s).result = written s.result ++ cs := by
  induction cs with
  | nil => intro s; simp
  | cons x cs ih =>
    intro s
    rw [List.foldl_cons, ih, written_emit, List.append_assoc]; rfl

theorem written_merge_finish (ndata : Nat → NodeData) (s : MergeCursor) :
    written (merge_finish ndata s).baselist = written s.result := by
  unfold merge_finish
  cases s.edge with
  | none => rfl
  | some en => exact written_append_replicate_none _ _

theorem foldl_emit_no_edge (ndata : Nat → NodeData) (cs : List BaseComponent) :
    ∀ s : MergeCursor, s.edge = none →
      (cs.foldl (emit ndata) s).result = s.result ++ cs.map some ∧
      (cs.foldl (emit ndata) s).edge = none ∧
      (cs.foldl (emit ndata) s).edge_dofs = s.edge_dofs := by
  induction cs with
  | nil => intro s hs; simp [hs]
  | cons x cs ih =>
    intro s hs
    have he : emit ndata s x =
        { s with result := s.result ++ [some x], last := some s.result.length } := by
      simp [emit, reserve, hs]
    rw [List.foldl_cons, he]
    obtain ⟨p1, p2, p3⟩ := ih { s with result := s.result ++ [some x], last := some s.result.length } hs
    exact ⟨by rw [p1]; simp, p2, p3⟩

/-- C1. Merging without a constraining edge: the result holds exactly the
dofs of the two lists, and the coefficient of every entry is half the sum of
the coefficients of its dof in the two lists (a missing dof counting as 0). -/
theorem merge_baselists_no_edge (ndata : Nat → NodeData) (l1 l2 : List BaseComponent)
    (edge_dofs0 : Option Nat) (h1 : StrictAsc l1) (h2 : StrictAsc l2) :
    (∀ d, (∃ c, some { dof := d, coef := c } ∈
            (merge_baselists ndata l1 l2 none edge_dofs0).baselist) ↔
          (d ∈ l1.map (·.dof) ∨ d ∈ l2.map (·.dof))) ∧
      (∀ cell ∈ (merge_baselists ndata l1 l2 none edge_dofs0).baselist,
        ∃ x, cell = some x ∧ x.coef = (1 / 2) * (coefOf l1 x.dof + coefOf l2 x.dof)) := by
  obtain ⟨_, p2, p3⟩ := mergeSpec_props _ l1 l2 rfl h1 h2
  have hb : (merge_baselists ndata l1 l2 none edge_dofs0).baselist =
      (mergeSpec l1 l2).map some := by
    rw [merge_baselists_eq_spec ndata l1 l2 none edge_dofs0 h1 h2]
    have := (foldl_emit_no_edge ndata (mergeSpec l1 l2)
      { result := [], last := none, edge := none, edge_dofs := edge_dofs0 } rfl)
    simp [merge_finish, this.1, this.2.1]
  rw [hb]
  refine ⟨?_, ?_⟩
  · intro d
    rw [← p2 d]
    constructor
    · rintro ⟨c, hc⟩
      obtain ⟨x, hx, hxe⟩ := List.mem_map.1 hc
      cases hxe
      exact List.mem_map.2 ⟨_, hx, rfl⟩
    · intro hd
      obtain ⟨x, hx, rfl⟩ := List.mem_map.1 hd
      exact ⟨x.coef, List.mem_map.2 ⟨x, hx, rfl⟩⟩
  · intro cell hc
    obtain ⟨x, hx, rfl⟩ := List.mem_map.1 hc
    exact ⟨x, rfl, p3 x hx⟩

/-- The witness of C1 on the two sample baselists. -/
theorem merge_baselists_no_edge_witness :
    StrictAsc sampleA ∧ StrictAsc sampleB ∧
    (∀ d, (∃ c, some { dof := d, coef := c } ∈
            (merge_baselists sampleNdata sampleA sampleB none none).baselist) ↔
          (d ∈ sampleA.map (·.dof) ∨ d ∈ sampleB.map (·.dof))) ∧
      (∀ cell ∈ (merge_baselists sampleNdata sampleA sampleB none none).baselist,
        ∃ x, cell = some x ∧
          x.coef = (1 / 2) * (coefOf sampleA x.dof + coefOf sampleB x.dof)) :=
  ⟨by decide, by decide,
    merge_baselists_no_edge sampleNdata sampleA sampleB none (by decide) (by decide)⟩

/-- C3. The components that `merge_baselists` writes, the reserved edge slots
left aside, have strictly ascending dofs; in particular no dof is repeated. -/
theorem merge_baselists_written_strictAsc (ndata : Nat → NodeData)
    (l1 l2 : List BaseComponent) (edge edge_dofs0 : Option Nat)
    (h1 : StrictAsc l1) (h2 : StrictAsc l2) :
    StrictAsc (written (merge_baselists ndata l1 l2 edge edge_dofs0).baselist) ∧
      ((written (merge_baselists ndata l1 l2 edge edge_dofs0).baselist).map (·.dof)).Nodup := by
  have hw : written (merge_baselists ndata l1 l2 edge edge_dofs0).baselist = mergeSpec l1 l2 := by
    rw [merge_baselists_eq_spec ndata l1 l2 edge edge_dofs0 h1 h2, written_merge_finish,
      written_foldl_emit]
    rfl
  rw [hw]
  have p1 := (mergeSpec_props _ l1 l2 rfl h1 h2).1
  exact ⟨p1, List.Pairwise.imp (fun h => ne_of_lt h) p1⟩

/-- The witness of C3 on the two sample baselists, with a constraining edge. -/
theorem merge_baselists_written_strictAsc_witness :
    StrictAsc sampleA ∧ StrictAsc sampleB ∧
    StrictAsc (written (merge_baselists sampleNdata sampleA sampleB (some 0) none).baselist) ∧
      ((written (merge_baselists sampleNdata sampleA sampleB (some 0) none).baselist).map
        (·.dof)).Nodup :=
  ⟨by decide, by decide,
    merge_baselists_written_strictAsc sampleNdata sampleA sampleB (some 0) none
      (by decide) (by decide)⟩

/-- C4. The merge does not depend on the order of its two arguments: the
cells, `ncomponents` and the position `edge_dofs` are the same, for every
constraining edge node (with a nonnegative count of edge functions) and for
none. -/
theorem merge_baselists_comm (ndata : Nat → NodeData) (A B : List BaseComponent)
    (edge edge_dofs0 : Option Nat) (hA : StrictAsc A) (hB : StrictAsc B)
    (_hn : ∀ en, edge = some en → 0 ≤ (ndata en).n) :
    (merge_baselists ndata A B edge edge_dofs0).baselist =
        (merge_baselists ndata B A edge edge_dofs0).baselist ∧
      (merge_baselists ndata A B edge edge_dofs0).ncomponents =
        (merge_baselists ndata B A edge edge_dofs0).ncomponents ∧
      (merge_baselists ndata A B edge edge_dofs0).edge_dofs =
        (merge_baselists ndata B A edge edge_dofs0).edge_dofs := by
  rw [merge_baselists_eq_spec ndata A B edge edge_dofs0 hA hB,
    merge_baselists_eq_spec ndata B A edge edge_dofs0 hB hA, mergeSpec_comm _ A B rfl]
  exact ⟨rfl, rfl, rfl⟩

/-- The witness of C4 on the two sample baselists, with a constraining edge. -/
theorem merge_baselists_comm_witness :
    StrictAsc sampleA ∧ StrictAsc sampleB ∧
    (∀ en, some 0 = some en → 0 ≤ (sampleNdata en).n) ∧
    (merge_baselists sampleNdata sampleA sampleB (some 0) none).baselist =
        (merge_baselists sampleNdata sampleB sampleA (some 0) none).baselist ∧
      (merge_baselists sampleNdata sampleA sampleB (some 0) none).ncomponents =
        (merge_baselists sampleNdata sampleB sampleA (some 0) none).ncomponents ∧
      (merge_baselists sampleNdata sampleA sampleB (some 0) none).edge_dofs =
        (merge_baselists sampleNdata sampleB sampleA (some 0) none).edge_dofs :=
  ⟨by decide, by decide, by intro en _; simp [sampleNdata],
    merge_baselists_comm sampleNdata sampleA sampleB (some 0) none (by decide) (by decide)
      (by intro en _; simp [sampleNdata])⟩

theorem allWritten_map_some (l : List BaseComponent) : allWritten (l.map some) = some l := by
  induction l with
  | nil => rfl
  | cons a l ih => simp [allWritten, ih]

theorem write_cells_reserved (xs : List BaseComponent) :
    ∀ (pre post : List (Option BaseComponent)),
      write_cells (pre ++ List.replicate xs.length none ++ post) pre.length xs =
        some (pre ++ xs.map some ++ post) := by
  induction xs with
  | nil => intro pre post; simp [write_cells]
  | cons x xs ih =>
    intro pre post
    have hlt : pre.length < (pre ++ List.replicate (x :: xs).length none ++ post).length := by
      simp
    rw [write_cells, if_pos hlt]
    have hset : (pre ++ List.replicate (x :: xs).length none ++ post).set pre.length (some x) =
        (pre ++ [some x]) ++ List.replicate xs.length none ++ post := by
      simp [List.replicate_succ, List.set_append]
    rw [hset]
    have := ih (pre ++ [some x]) post
    simp only [List.length_append, List.length_singleton] at this
    rw [this]
    simp

/-- The cells and the slot position that `merge_baselists` produces from the
finished components `cs` when the constraining edge node `en` is still
pending: the components below the edge's first dof, then the reserved slots
(none if the next component already carries the edge's first dof), then the
rest. -/
theorem merge_finish_foldl_emit (ndata : Nat → NodeData) (en : Nat) (cs : List BaseComponent) :
    ∀ s : MergeCursor, s.edge = some en →
      (merge_finish ndata (cs.foldl (emit ndata) s)).baselist =
          s.result ++ (cs.takeWhile (fun x => x.dof < (ndata en).dof)).map some ++
            (if ((cs.dropWhile (fun x => x.dof < (ndata en).dof)).head?).map (·.dof) =
                some (ndata en).dof then []
             else List.replicate (ndata en).n.toNat none) ++
            (cs.dropWhile (fun x => x.dof < (ndata en).dof)).map some ∧
        (merge_finish ndata (cs.foldl (emit ndata) s)).edge_dofs =
          some (s.result.length + (cs.takeWhile (fun x => x.dof < (ndata en).dof)).length) := by
  induction cs with
  | nil =>
    intro s hs
    simp [merge_finish, hs]
  | cons x cs ih =>
    intro s hs
    by_cases hx : x.dof < (ndata en).dof
    · have he : emit ndata s x =
          { s with result := s.result ++ [some x], last := some s.result.length } := by
        simp [emit, reserve, hs, not_le.2 hx]
      rw [List.foldl_cons, he]
      obtain ⟨p1, p2⟩ :=
        ih { s with result := s.result ++ [some x], last := some s.result.length } hs
      rw [p1, p2]
      simp [List.takeWhile_cons, List.dropWhile_cons, hx]
      omega
    · have hle : (ndata en).dof ≤ x.dof := not_lt.1 hx
      obtain ⟨q1, q2, q3⟩ := foldl_emit_no_edge ndata cs (emit ndata s x)
        (by simp [emit, reserve, hs, hle])
      rw [List.foldl_cons]
      have hr : (merge_finish ndata (cs.foldl (emit ndata) (emit ndata s x))).baselist =
          (cs.foldl (emit ndata) (emit ndata s x)).result := by
        simp [merge_finish, q2]
      have hd : (merge_finish ndata (cs.foldl (emit ndata) (emit ndata s x))).edge_dofs =
          (cs.foldl (emit ndata) (emit ndata s x)).edge_dofs := by
        simp [merge_finish, q2]
      rw [hr, hd, q1, q3]
      by_cases heq : (ndata en).dof = x.dof
      · simp [emit, reserve, hs, hle, heq, List.takeWhile_cons, List.dropWhile_cons]
      · have hne : ¬ x.dof = (ndata en).dof := fun h => heq h.symm
        simp [emit, reserve, hs, hle, heq, hne, hx, List.takeWhile_cons, List.dropWhile_cons]

theorem edge_coefs_length (sp : Space) (ndata : Nat → NodeData) (ei : EdgeInfo) (mode : Nat) :
    (edge_coefs sp ndata ei mode).length = (ndata ei.node).n.toNat := by
  simp [edge_coefs]

theorem mergeSpec_single (a b : BaseComponent) (h : a.dof ≠ b.dof) :
    (mergeSpec [a] [b]).Perm [halve a, halve b] := by
  rw [mergeSpec]
  by_cases hab : a.dof < b.dof
  · rw [if_pos hab, mergeSpec]; rfl
  · have hba : b.dof < a.dof := lt_of_le_of_ne (not_lt.1 hab) (Ne.symm h)
    rw [if_neg hab, if_pos hba, mergeSpec_nil_right]
    exact List.Perm.swap _ _ _

/-- C2. A single hanging vertex between two unconstrained vertices with
distinct free dofs `d0`, `d1`, against an edge node with first dof `e` and
`n` edge functions whose dofs avoid `d0` and `d1`, on the whole edge
`[-1, 1]`: the stored baselist has `2 + n` components, namely `(d0, 0.5)`,
`(d1, 0.5)` and `(e + k, value of the k-th edge function at 0)` for `k < n`. -/
theorem single_hanging_vertex_baselist (sp : Space) (ndata : Nat → NodeData)
    (v0 v1 mid_vn : Nat) (ei : EdgeInfo) (mode : Nat) (n : Nat)
    (hv0 : (sp.mesh.node v0).is_constrained_vertex = false)
    (hv1 : (sp.mesh.node v1).is_constrained_vertex = false)
    (hd0 : 0 ≤ (ndata v0).dof) (hd1 : 0 ≤ (ndata v1).dof)
    (hne : (ndata v0).dof ≠ (ndata v1).dof)
    (hn : (ndata ei.node).n = n)
    (hdis0 : (ndata v0).dof < (ndata ei.node).dof ∨ (ndata ei.node).dof + n ≤ (ndata v0).dof)
    (hdis1 : (ndata v1).dof < (ndata ei.node).dof ∨ (ndata ei.node).dof + n ≤ (ndata v1).dof)
    (hlo : ei.lo = -1) (hhi : ei.hi = 1) :
    ∃ nd, constrained_vertex_data sp ndata v0 v1 mid_vn ei mode = some nd ∧
      nd.ncomponents = 2 + n ∧ nd.baselist.length = 2 + n ∧
      nd.baselist.Perm
        ({ dof := (ndata v0).dof, coef := 1 / 2 } :: { dof := (ndata v1).dof, coef := 1 / 2 } ::
          (List.range n).map fun (k : Nat) =>
            { dof := (ndata ei.node).dof + (k : Int)
              coef := sp.shapeset.get_fn_value
                (sp.shapeset.get_edge_index 0 ei.ori ((k : Int) + 2) mode) 0 (-1) 0 mode }) := by
  have hb0 : endpoint_baselist sp ndata v0 = [{ dof := (ndata v0).dof, coef := 1 }] := by
    simp [endpoint_baselist, hv0, hd0]
  have hb1 : endpoint_baselist sp ndata v1 = [{ dof := (ndata v1).dof, coef := 1 }] := by
    simp [endpoint_baselist, hv1, hd1]
  have hec : edge_coefs sp ndata ei mode =
      (List.range n).map fun (k : Nat) =>
        { dof := (ndata ei.node).dof + (k : Int)
          coef := sp.shapeset.get_fn_value
            (sp.shapeset.get_edge_index 0 ei.ori ((k : Int) + 2) mode) 0 (-1) 0 mode } := by
    simp [edge_coefs, hn, hlo, hhi]
  have hlen : (edge_coefs sp ndata ei mode).length = n := by
    rw [edge_coefs_length, hn]; rfl
  set a : BaseComponent := { dof := (ndata v0).dof, coef := 1 } with ha
  set b : BaseComponent := { dof := (ndata v1).dof, coef := 1 } with hb
  set cs := mergeSpec [a] [b] with hcs
  have hperm : cs.Perm [halve a, halve b] := mergeSpec_single a b hne
  have hs1 : StrictAsc [a] := by simp [StrictAsc]
  have hs2 : StrictAsc [b] := by simp [StrictAsc]
  obtain ⟨m1, m2⟩ := merge_finish_foldl_emit ndata ei.node cs
    { result := [], last := none, edge := some ei.node, edge_dofs := none } rfl
  set pre := cs.takeWhile (fun x => x.dof < (ndata ei.node).dof) with hpre
  set post := cs.dropWhile (fun x => x.dof < (ndata ei.node).dof) with hpost
  have hpp : pre ++ post = cs := List.takeWhile_append_dropWhile _ _
  have hslots : (if (post.head?).map (·.dof) = some (ndata ei.node).dof then []
      else List.replicate (ndata ei.node).n.toNat (none : Option BaseComponent)) =
      List.replicate (edge_coefs sp ndata ei mode).length none := by
    rw [hlen]
    split
    · rename_i hh
      cases hp : post with
      | nil => rw [hp] at hh; simp at hh
      | cons x xs =>
        rw [hp] at hh
        simp only [List.head?_cons, Option.map_some', Option.some.injEq] at hh
        have hx : x ∈ cs := by rw [← hpp, hp]; simp
        have hx' : x ∈ [halve a, halve b] := hperm.mem_iff.1 hx
        have hn0 : n = 0 := by
          simp only [List.mem_cons, List.mem_singleton, List.not_mem_nil, or_false] at hx'
          rcases hx' with rfl | rfl
          · simp only [halve, ha] at hh; omega
          · simp only [halve, hb] at hh; omega
        rw [hn0]; rfl
    · rw [hn]; rfl
  rw [hslots] at m1
  simp only [List.nil_append, List.length_nil, Nat.zero_add] at m1 m2
  have hw := write_cells_reserved (edge_coefs sp ndata ei mode) (pre.map some) (post.map some)
  rw [List.length_map] at hw
  have hall : allWritten (pre.map some ++ (edge_coefs sp ndata ei mode).map some ++ post.map some) =
      some (pre ++ edge_coefs sp ndata ei mode ++ post) := by
    rw [← List.map_append, ← List.map_append, allWritten_map_some]
  have hr : merge_baselists ndata (endpoint_baselist sp ndata v0) (endpoint_baselist sp ndata v1)
      (some ei.node) none =
      merge_finish ndata (cs.foldl (emit ndata)
        { result := [], last := none, edge := some ei.node, edge_dofs := none }) := by
    rw [hb0, hb1]
    exact merge_baselists_eq_spec ndata [a] [b] (some ei.node) none hs1 hs2
  have hnc : (merge_finish ndata (cs.foldl (emit ndata)
      { result := [], last := none, edge := some ei.node, edge_dofs := none })).ncomponents =
      (merge_finish ndata (cs.foldl (emit ndata)
        { result := [], last := none, edge := some ei.node, edge_dofs := none })).baselist.length := by
    simp [merge_finish]
  have hcl : cs.length = 2 := by rw [hperm.length_eq]; rfl
  have hppl : pre.length + post.length = 2 := by
    rw [← List.length_append, hpp, hcl]
  refine ⟨{ ndata mid_vn with
      baselist := pre ++ edge_coefs sp ndata ei mode ++ post
      ncomponents := (pre.map some ++ List.replicate (edge_coefs sp ndata ei mode).length none ++
        post.map some).length }, ?_, ?_, ?_, ?_⟩
  · unfold constrained_vertex_data
    simp only [hr, m2, hnc, m1, hw, Option.some_bind, hall]
  · simp [hlen]; omega
  · simp [hlen]; omega
  · rw [← hec]
    have h1 : (pre ++ edge_coefs sp ndata ei mode ++ post).Perm
        (cs ++ edge_coefs sp ndata ei mode) := by
      rw [← hpp, List.append_assoc, List.append_assoc]
      exact List.Perm.append_left _ List.perm_append_comm
    refine h1.trans ?_
    have h2 := hperm.append_right (edge_coefs sp ndata ei mode)
    refine h2.trans ?_
    simp [halve, ha, hb]

/-! ### DOF assignment: generic facts -/

theorem foldl_preserves {α β : Type} (P : α → Prop) (f : α → β → α) (l : List β)
    (h : ∀ s x, x ∈ l → P s → P (f s x)) : ∀ s, P s → P (l.foldl f s) := by
  induction l with
  | nil => intro s hs; exact hs
  | cons x l ih =>
    intro s hs
    rw [List.foldl_cons]
    exact ih (fun s y hy => h s y (List.mem_cons_of_mem _ hy)) _
      (h s x (List.mem_cons_self _ _) hs)

theorem Partition.extend {Ω : Type} {owns owns' : Ω → Int → Prop} {first next : Int}
    (h : Partition owns first next) (o : Ω) (m : Int) (hm : 0 ≤ m)
    (hnew : ∀ k, owns' o k ↔ next ≤ k ∧ k < next + m)
    (hold : ∀ o', o' ≠ o → ∀ k, owns' o' k ↔ owns o' k)
    (hfresh : ∀ k, ¬ owns o k) : Partition owns' first (next + m) := by
  classical
  refine ⟨by have := h.le; omega, ?_, ?_, ?_⟩
  · intro o' k hk
    by_cases ho : o' = o
    · subst ho
      have := (hnew k).1 hk
      have := h.le
      omega
    · have := h.bound o' k ((hold o' ho k).1 hk)
      omega
  · intro k h1 h2
    by_cases hk : k < next
    · obtain ⟨o', ho'⟩ := h.cover k h1 hk
      have hne : o' ≠ o := fun e => hfresh k (e ▸ ho')
      exact ⟨o', (hold o' hne k).2 ho'⟩
    · exact ⟨o, (hnew k).2 ⟨not_lt.1 hk, h2⟩⟩
  · intro o1 o2 k h1 h2
    by_cases e1 : o1 = o
    · by_cases e2 : o2 = o
      · rw [e1, e2]
      · subst e1
        have a := (hnew k).1 h1
        have b := h.bound o2 k ((hold o2 e2 k).1 h2)
        omega
    · by_cases e2 : o2 = o
      · subst e2
        have a := (hnew k).1 h2
        have b := h.bound o1 k ((hold o1 e1 k).1 h1)
        omega
      · exact h.uniq o1 o2 k ((hold o1 e1 k).1 h1) ((hold o2 e2 k).1 h2)

theorem Partition.congr {Ω : Type} {owns owns' : Ω → Int → Prop} {first next : Int}
    (h : Partition owns first next) (heq : ∀ o k, owns' o k ↔ owns o k) :
    Partition owns' first next :=
  ⟨h.le, fun o k hk => h.bound o k ((heq o k).1 hk),
    fun k h1 h2 => (h.cover k h1 h2).imp fun o ho => (heq o k).2 ho,
    fun o o' k h1 h2 => h.uniq o o' k ((heq o k).1 h1) ((heq o' k).1 h2)⟩

/-- What one visit of `assign_vertex_dofs` does: nothing, or mark the vertex
as fixed by a boundary condition, or give it the next dof. -/
theorem assign_vertex_dofs_visit_cases (sp : Space) (e : Element) (st : SpaceState) (i : Nat) :
    assign_vertex_dofs_visit sp e st i = st ∨
    ((st.ndata (e.vn i)).dof = sp.H2D_UNASSIGNED_DOF ∧
      (sp.mesh.node (e.vn i)).is_constrained_vertex = false ∧
      (st.ndata (e.vn i)).n = 0 ∧
      assign_vertex_dofs_visit sp e st i =
        { st with
          ndata := Function.update st.ndata (e.vn i)
            { st.ndata (e.vn i) with dof := sp.H2D_CONSTRAINED_DOF, n := 1 } }) ∨
    ((st.ndata (e.vn i)).dof = sp.H2D_UNASSIGNED_DOF ∧
      (sp.mesh.node (e.vn i)).is_constrained_vertex = false ∧
      (st.ndata (e.vn i)).n ≠ 0 ∧
      assign_vertex_dofs_visit sp e st i =
        { st with
          ndata := Function.update st.ndata (e.vn i)
            { st.ndata (e.vn i) with dof := st.next_dof, n := 1 }
          next_dof := st.next_dof + 1
          vertex_functions_count := st.vertex_functions_count + 1 }) := by
  unfold assign_vertex_dofs_visit
  by_cases hc : (sp.mesh.node (e.vn i)).is_constrained_vertex = true
  · left; simp [hc]
  · by_cases hd : (st.ndata (e.vn i)).dof = sp.H2D_UNASSIGNED_DOF
    · by_cases hn : (st.ndata (e.vn i)).n = 0
      · right; left
        simp only [Bool.not_eq_true] at hc
        exact ⟨hd, hc, hn, by simp [hc, hd, hn]⟩
      · right; right
        simp only [Bool.not_eq_true] at hc
        exact ⟨hd, hc, hn, by simp [hc, hd, hn]⟩
    · left; simp [hd]

/-- What one visit of `assign_edge_dofs` does: nothing, or mark the edge as
constrained (`n = -1`), or as fixed by a boundary condition, or give it the
next `order - 1` dofs. -/
theorem assign_edge_dofs_visit_cases (sp : Space) (e : Element) (st : SpaceState) (i : Nat) :
    assign_edge_dofs_visit sp e st i = st ∨
    ((st.ndata (e.en i)).dof = sp.H2D_UNASSIGNED_DOF ∧ edge_eligible sp (e.en i) = false ∧
      assign_edge_dofs_visit sp e st i =
        { st with
          ndata := Function.update st.ndata (e.en i) { st.ndata (e.en i) with n := -1 } }) ∨
    ((st.ndata (e.en i)).dof = sp.H2D_UNASSIGNED_DOF ∧ edge_eligible sp (e.en i) = true ∧
      edge_essential sp (e.en i) = true ∧
      assign_edge_dofs_visit sp e st i =
        { st with
          ndata := Function.update st.ndata (e.en i)
            { st.ndata (e.en i) with
              n := sp.get_edge_order_internal (e.en i) - 1, dof := sp.H2D_CONSTRAINED_DOF } }) ∨
    ((st.ndata (e.en i)).dof = sp.H2D_UNASSIGNED_DOF ∧ edge_eligible sp (e.en i) = true ∧
      edge_essential sp (e.en i) = false ∧
      assign_edge_dofs_visit sp e st i =
        { st with
          ndata := Function.update st.ndata (e.en i)
            { st.ndata (e.en i) with
              n := sp.get_edge_order_internal (e.en i) - 1, dof := st.next_dof }
          next_dof := st.next_dof + (sp.get_edge_order_internal (e.en i) - 1)
          edge_functions_count :=
            st.edge_functions_count + (sp.get_edge_order_internal (e.en i) - 1) }) := by
  unfold assign_edge_dofs_visit
  by_cases hd : (st.ndata (e.en i)).dof = sp.H2D_UNASSIGNED_DOF
  · by_cases he : edge_eligible sp (e.en i) = true
    · by_cases hb : edge_essential sp (e.en i) = true
      · right; right; left
        exact ⟨hd, he, hb, by simp [hd, he, hb]⟩
      · right; right; right
        simp only [Bool.not_eq_true] at hb
        exact ⟨hd, he, hb, by simp [hd, he, hb]⟩
    · right; left
      simp only [Bool.not_eq_true] at he
      exact ⟨hd, he, by simp [hd, he]⟩
  · left; simp [hd]

theorem owns_of_ndata_eq (sp : Space) (st st' : SpaceState) (done : List Nat) (v : Nat)
    (nd : NodeData) (hnd : st'.ndata = Function.update st.ndata v nd)
    (hed : st'.edata = st.edata) (o : DofOwner) (k : Int)
    (h1 : o ≠ DofOwner.vertex v) (h2 : o ≠ DofOwner.edge v) :
    Owns sp st' done o k ↔ Owns sp st done o k := by
  cases o with
  | vertex id =>
    have : id ≠ v := fun h => h1 (by rw [h])
    simp [Owns, hnd, Function.update_noteq this]
  | edge id =>
    have : id ≠ v := fun h => h2 (by rw [h])
    simp [Owns, hnd, Function.update_noteq this]
  | bubble eid => simp [Owns, hed]

theorem not_owns_vertex_of_neg (sp : Space) (st : SpaceState) (done : List Nat) (v : Nat)
    (k : Int) (h : (st.ndata v).dof < 0) : ¬ Owns sp st done (DofOwner.vertex v) k := by
  simp only [Owns]; intro hh; omega

theorem not_owns_edge_of_neg (sp : Space) (st : SpaceState) (done : List Nat) (v : Nat)
    (k : Int) (h : (st.ndata v).dof < 0) : ¬ Owns sp st done (DofOwner.edge v) k := by
  simp only [Owns]; intro hh; omega

theorem not_owns_edge_of_vertex (sp : Space) (st : SpaceState) (done : List Nat) (v : Nat)
    (k : Int) (h : (sp.mesh.node v).type = NodeType.vertex) :
    ¬ Owns sp st done (DofOwner.edge v) k := by
  simp [Owns, h]

theorem not_owns_vertex_of_edge (sp : Space) (st : SpaceState) (done : List Nat) (v : Nat)
    (k : Int) (h : (sp.mesh.node v).type = NodeType.edge) :
    ¬ Owns sp st done (DofOwner.vertex v) k := by
  simp [Owns, h]

/-- Storing a negative dof in a node that had a negative dof changes no
ownership. -/
theorem dofInv_of_mark (sp : Space) (first : Int) (done : List Nat) (st st' : SpaceState)
    (v : Nat) (nd : NodeData) (h : DofInv sp first done st)
    (hnd : st'.ndata = Function.update st.ndata v nd) (hed : st'.edata = st.edata)
    (hnext : st'.next_dof = st.next_dof) (hold : (st.ndata v).dof < 0) (hnew : nd.dof < 0)
    (hsen : nd.dof = sp.H2D_UNASSIGNED_DOF ∨ nd.dof = sp.H2D_CONSTRAINED_DOF) :
    DofInv sp first done st' := by
  have hv' : (st'.ndata v).dof < 0 := by rw [hnd, Function.update_same]; exact hnew
  refine ⟨?_, ?_, ?_⟩
  · rw [hnext]
    refine h.part.congr ?_
    intro o k
    by_cases h1 : o = DofOwner.vertex v
    · subst h1
      exact ⟨fun hh => absurd hh (not_owns_vertex_of_neg sp st' done v k hv'),
        fun hh => absurd hh (not_owns_vertex_of_neg sp st done v k hold)⟩
    · by_cases h2 : o = DofOwner.edge v
      · subst h2
        exact ⟨fun hh => absurd hh (not_owns_edge_of_neg sp st' done v k hv'),
          fun hh => absurd hh (not_owns_edge_of_neg sp st done v k hold)⟩
      · exact owns_of_ndata_eq sp st st' done v nd hnd hed o k h1 h2
  · intro id hty hdof
    by_cases hid : id = v
    · subst hid; omega
    · rw [hnd, Function.update_noteq hid] at hdof ⊢
      rw [hnext]
      exact h.edge_block id hty hdof
  · intro id hneg
    by_cases hid : id = v
    · subst hid; rw [hnd, Function.update_same]; exact hsen
    · rw [hnd, Function.update_noteq hid] at hneg ⊢
      exact h.sentinel id hneg

/-- Giving the next dof to an unassigned vertex node keeps the invariant. -/
theorem dofInv_of_vertex (sp : Space) (first : Int) (done : List Nat) (st st' : SpaceState)
    (v : Nat) (nd : NodeData) (h : DofInv sp first done st) (h0 : 0 ≤ first)
    (hty : (sp.mesh.node v).type = NodeType.vertex)
    (hnd : st'.ndata = Function.update st.ndata v nd) (hed : st'.edata = st.edata)
    (hnext : st'.next_dof = st.next_dof + 1) (hold : (st.ndata v).dof < 0)
    (hnew : nd.dof = st.next_dof) : DofInv sp first done st' := by
  have hle := h.part.le
  have hv' : (st'.ndata v).dof = st.next_dof := by rw [hnd, Function.update_same]; exact hnew
  refine ⟨?_, ?_, ?_⟩
  · rw [hnext]
    refine h.part.extend (DofOwner.vertex v) 1 (by omega) ?_ ?_ ?_
    · intro k
      simp only [Owns, hty, hv', true_and]
      constructor <;> intro hh <;> omega
    · intro o ho k
      by_cases h2 : o = DofOwner.edge v
      · subst h2
        exact ⟨fun hh => absurd hh (not_owns_edge_of_vertex sp st' done v k hty),
          fun hh => absurd hh (not_owns_edge_of_vertex sp st done v k hty)⟩
      · exact owns_of_ndata_eq sp st st' done v nd hnd hed o k ho h2
    · intro k
      exact not_owns_vertex_of_neg sp st done v k hold
  · intro id hte hdof
    have hid : id ≠ v := by
      intro hh; rw [hh, hty] at hte; cases hte
    rw [hnd, Function.update_noteq hid] at hdof ⊢
    have := h.edge_block id hte hdof
    omega
  · intro id hneg
    by_cases hid : id = v
    · subst hid; omega
    · rw [hnd, Function.update_noteq hid] at hneg ⊢
      exact h.sentinel id hneg

/-- Giving the next `m` dofs to an unassigned edge node keeps the
invariant. -/
theorem dofInv_of_edge (sp : Space) (first : Int) (done : List Nat) (st st' : SpaceState)
    (v : Nat) (nd : NodeData) (m : Int) (h : DofInv sp first done st) (h0 : 0 ≤ first)
    (hm : 0 ≤ m) (hty : (sp.mesh.node v).type = NodeType.edge)
    (hnd : st'.ndata = Function.update st.ndata v nd) (hed : st'.edata = st.edata)
    (hnext : st'.next_dof = st.next_dof + m) (hold : (st.ndata v).dof < 0)
    (hnew : nd.dof = st.next_dof) (hn : nd.n = m) : DofInv sp first done st' := by
  have hle := h.part.le
  have hv' : (st'.ndata v).dof = st.next_dof := by rw [hnd, Function.update_same]; exact hnew
  have hn' : (st'.ndata v).n = m := by rw [hnd, Function.update_same]; exact hn
  refine ⟨?_, ?_, ?_⟩
  · rw [hnext]
    refine h.part.extend (DofOwner.edge v) m hm ?_ ?_ ?_
    · intro k
      simp only [Owns, hty, hv', hn', true_and]
      constructor <;> intro hh <;> omega
    · intro o ho k
      by_cases h2 : o = DofOwner.vertex v
      · subst h2
        exact ⟨fun hh => absurd hh (not_owns_vertex_of_edge sp st' done v k hty),
          fun hh => absurd hh (not_owns_vertex_of_edge sp st done v k hty)⟩
      · exact owns_of_ndata_eq sp st st' done v nd hnd hed o k h2 ho
    · intro k
      exact not_owns_edge_of_neg sp st done v k hold
  · intro id hte hdof
    by_cases hid : id = v
    · subst hid
      rw [hv', hn', hnext]
      omega
    · rw [hnd, Function.update_noteq hid] at hdof ⊢
      have := h.edge_block id hte hdof
      omega
  · intro id hneg
    by_cases hid : id = v
    · subst hid; omega
    · rw [hnd, Function.update_noteq hid] at hneg ⊢
      exact h.sentinel id hneg

theorem assign_vertex_dofs_visit_inv (sp : Space) (hwf : WellFormed sp) (first : Int)
    (h0 : 0 ≤ first) (done : List Nat) (e : Element) (he : e ∈ sp.mesh.active) (i : Nat)
    (hi : i < e.nvert) (st : SpaceState) (h : DofInv sp first done st) :
    DofInv sp first done (assign_vertex_dofs_visit sp e st i) := by
  have hu := hwf.unassigned_neg
  have hc := hwf.constrained_neg
  rcases assign_vertex_dofs_visit_cases sp e st i with h1 | ⟨hd, _, _, h2⟩ | ⟨hd, _, _, h3⟩
  · rw [h1]; exact h
  · rw [h2]
    exact dofInv_of_mark sp first done st _ (e.vn i) _ h rfl rfl rfl (by rw [hd]; exact hu) hc
      (Or.inr rfl)
  · rw [h3]
    exact dofInv_of_vertex sp first done st _ (e.vn i) _ h h0 (hwf.vertex_type e he i hi)
      rfl rfl rfl (by rw [hd]; exact hu) rfl

theorem assign_edge_dofs_visit_inv (sp : Space) (hwf : WellFormed sp) (first : Int)
    (h0 : 0 ≤ first) (done : List Nat) (e : Element) (he : e ∈ sp.mesh.active) (i : Nat)
    (hi : i < e.nvert) (st : SpaceState) (ho : 1 ≤ sp.get_edge_order_internal (e.en i))
    (h : DofInv sp first done st) :
    DofInv sp first done (assign_edge_dofs_visit sp e st i) := by
  have hu := hwf.unassigned_neg
  have hc := hwf.constrained_neg
  rcases assign_edge_dofs_visit_cases sp e st i with
    h1 | ⟨hd, _, h2⟩ | ⟨hd, _, _, h3⟩ | ⟨hd, _, _, h4⟩
  · rw [h1]; exact h
  · rw [h2]
    exact dofInv_of_mark sp first done st _ (e.en i) _ h rfl rfl rfl (by rw [hd]; exact hu)
      (by show (st.ndata (e.en i)).dof < 0; rw [hd]; exact hu) (Or.inl hd)
  · rw [h3]
    exact dofInv_of_mark sp first done st _ (e.en i) _ h rfl rfl rfl (by rw [hd]; exact hu) hc
      (Or.inr rfl)
  · rw [h4]
    exact dofInv_of_edge sp first done st _ (e.en i) _ (sp.get_edge_order_internal (e.en i) - 1)
      h h0 (by omega) (hwf.edge_type e he i hi) rfl rfl rfl (by rw [hd]; exact hu) rfl rfl

theorem mem_visit_list (edata : Nat → ElementData) (l : List Element) (p : Element × Nat) :
    p ∈ visit_list edata l ↔ p.1 ∈ l ∧ 0 < (edata p.1.id).order ∧ p.2 < p.1.nvert := by
  unfold visit_list
  rw [List.mem_flatMap]
  constructor
  · rintro ⟨e, he, hp⟩
    by_cases ho : 0 < (edata e.id).order
    · rw [if_pos ho] at hp
      obtain ⟨i, hi, rfl⟩ := List.mem_map.1 hp
      exact ⟨he, ho, List.mem_range.1 hi⟩
    · rw [if_neg ho] at hp; cases hp
  · rintro ⟨he, ho, hi⟩
    refine ⟨p.1, he, ?_⟩
    rw [if_pos ho]
    exact List.mem_map.2 ⟨p.2, List.mem_range.2 hi, rfl⟩

/-- An element loop whose visits keep `edata` is the fold of the visits over
the visit list. -/
theorem element_loop_flat (f : Element → SpaceState → Nat → SpaceState)
    (hed : ∀ e s i, (f e s i).edata = s.edata) (l : List Element) :
    ∀ s : SpaceState,
      l.foldl (fun st e =>
          if 0 < get_element_order st e.id then (List.range e.nvert).foldl (f e) st else st) s =
        (visit_list s.edata l).foldl (fun t p => f p.1 t p.2) s ∧
      (l.foldl (fun st e =>
          if 0 < get_element_order st e.id then (List.range e.nvert).foldl (f e) st else st)
        s).edata = s.edata := by
  have inner : ∀ (e : Element) (r : List Nat) (s : SpaceState),
      (r.foldl (f e) s).edata = s.edata := by
    intro e r
    induction r with
    | nil => intro s; rfl
    | cons i r ih => intro s; rw [List.foldl_cons, ih, hed]
  induction l with
  | nil => intro s; exact ⟨rfl, rfl⟩
  | cons e l ih =>
    intro s
    rw [List.foldl_cons]
    by_cases ho : 0 < get_element_order s e.id
    · have ho' : 0 < (s.edata e.id).order := ho
      obtain ⟨p1, p2⟩ := ih ((List.range e.nvert).foldl (f e) s)
      simp only [if_pos ho]
      refine ⟨?_, by rw [p2, inner]⟩
      rw [p1, inner]
      simp only [visit_list, List.flatMap_cons, if_pos ho', List.foldl_append, List.foldl_map]
    · have ho' : ¬ 0 < (s.edata e.id).order := ho
      obtain ⟨p1, p2⟩ := ih s
      simp only [if_neg ho]
      refine ⟨?_, p2⟩
      rw [p1]
      simp only [visit_list, List.flatMap_cons, if_neg ho', List.nil_append]

theorem assign_vertex_dofs_visit_edata (sp : Space) (e : Element) (s : SpaceState) (i : Nat) :
    (assign_vertex_dofs_visit sp e s i).edata = s.edata := by
  rcases assign_vertex_dofs_visit_cases sp e s i with h | ⟨_, _, _, h⟩ | ⟨_, _, _, h⟩ <;> rw [h]

theorem assign_edge_dofs_visit_edata (sp : Space) (e : Element) (s : SpaceState) (i : Nat) :
    (assign_edge_dofs_visit sp e s i).edata = s.edata := by
  rcases assign_edge_dofs_visit_cases sp e s i with
    h | ⟨_, _, h⟩ | ⟨_, _, _, h⟩ | ⟨_, _, _, h⟩ <;> rw [h]

theorem assign_vertex_dofs_flat (sp : Space) (st : SpaceState) :
    assign_vertex_dofs sp st =
      (visit_list st.edata sp.mesh.active).foldl
        (fun t p => assign_vertex_dofs_visit sp p.1 t p.2) { st with vertex_functions_count := 0 } :=
  (element_loop_flat (assign_vertex_dofs_visit sp) (assign_vertex_dofs_visit_edata sp)
    sp.mesh.active { st with vertex_functions_count := 0 }).1

theorem assign_edge_dofs_flat (sp : Space) (st : SpaceState) :
    assign_edge_dofs sp st =
      (visit_list st.edata sp.mesh.active).foldl
        (fun t p => assign_edge_dofs_visit sp p.1 t p.2) { st with edge_functions_count := 0 } :=
  (element_loop_flat (assign_edge_dofs_visit sp) (assign_edge_dofs_visit_edata sp)
    sp.mesh.active { st with edge_functions_count := 0 }).1

theorem assign_vertex_dofs_edata (sp : Space) (st : SpaceState) :
    (assign_vertex_dofs sp st).edata = st.edata :=
  (element_loop_flat (assign_vertex_dofs_visit sp) (assign_vertex_dofs_visit_edata sp)
    sp.mesh.active { st with vertex_functions_count := 0 }).2

theorem assign_edge_dofs_edata (sp : Space) (st : SpaceState) :
    (assign_edge_dofs sp st).edata = st.edata :=
  (element_loop_flat (assign_edge_dofs_visit sp) (assign_edge_dofs_visit_edata sp)
    sp.mesh.active { st with edge_functions_count := 0 }).2

/-- A property that the visit of `x` brings about and that no visit destroys
holds after the loop, `R` being an invariant of the loop. -/
theorem foldl_establish {α β : Type} (f : α → β → α) (R Q : α → Prop) (l : List β) (x : β)
    (hx : x ∈ l) (hR : ∀ s y, y ∈ l → R s → R (f s y))
    (hest : ∀ s, R s → Q (f s x))
    (hstab : ∀ s y, y ∈ l → R s → Q s → Q (f s y)) :
    ∀ s, R s → Q (l.foldl f s) := by
  induction l with
  | nil => cases hx
  | cons y l ih =>
    intro s hs
    rw [List.foldl_cons]
    have hRs : R (f s y) := hR s y (List.mem_cons_self _ _) hs
    have hR' : ∀ s z, z ∈ l → R s → R (f s z) :=
      fun s z hz => hR s z (List.mem_cons_of_mem _ hz)
    have hstab' : ∀ s z, z ∈ l → R s → Q s → Q (f s z) :=
      fun s z hz => hstab s z (List.mem_cons_of_mem _ hz)
    by_cases hxl : x ∈ l
    · exact ih hxl hR' hstab' _ hRs
    · have hxy : x = y := by
        rcases List.mem_cons.1 hx with h | h
        · exact h
        · exact absurd h hxl
      subst hxy
      have hq : Q (f s x) := hest s hs
      have := foldl_preserves (fun t => R t ∧ Q t) f l
        (fun t z hz ht => ⟨hR' t z hz ht.1, hstab' t z hz ht.1 ht.2⟩) (f s x) ⟨hRs, hq⟩
      exact this.2

theorem owns_congr (sp : Space) (st st' : SpaceState) (done : List Nat)
    (hnd : st'.ndata = st.ndata) (hed : st'.edata = st.edata) (o : DofOwner) (k : Int) :
    Owns sp st' done o k ↔ Owns sp st done o k := by
  cases o <;> simp [Owns, hnd, hed]

theorem DofInv.of_eq {sp : Space} {first : Int} {done : List Nat} {st st' : SpaceState}
    (h : DofInv sp first done st) (hnd : st'.ndata = st.ndata) (hed : st'.edata = st.edata)
    (hnext : st'.next_dof = st.next_dof) : DofInv sp first done st' := by
  refine ⟨?_, ?_, ?_⟩
  · rw [hnext]
    exact h.part.congr (owns_congr sp st st' done hnd hed)
  · rw [hnd, hnext]; exact h.edge_block
  · rw [hnd]; exact h.sentinel

theorem dofInv_init (sp : Space) (hwf : WellFormed sp) (st : SpaceState)
    (hun : ∀ id, (st.ndata id).dof = sp.H2D_UNASSIGNED_DOF) :
    DofInv sp st.next_dof [] st := by
  have hneg : ∀ id, (st.ndata id).dof < 0 := fun id => by rw [hun]; exact hwf.unassigned_neg
  have hno : ∀ o k, ¬ Owns sp st [] o k := by
    intro o k
    cases o with
    | vertex id => exact not_owns_vertex_of_neg sp st [] id k (hneg id)
    | edge id => exact not_owns_edge_of_neg sp st [] id k (hneg id)
    | bubble eid => simp [Owns]
  refine ⟨⟨le_refl _, fun o k h => absurd h (hno o k), fun k h1 h2 => by omega,
    fun o o' k h => absurd h (hno o k)⟩, ?_, ?_⟩
  · intro id _ h
    have := hneg id
    omega
  · intro id _
    exact Or.inl (hun id)

theorem assign_vertex_dofs_inv (sp : Space) (hwf : WellFormed sp) (first : Int) (h0 : 0 ≤ first)
    (done : List Nat) (st : SpaceState) (h : DofInv sp first done st) :
    DofInv sp first done (assign_vertex_dofs sp st) := by
  rw [assign_vertex_dofs_flat]
  refine foldl_preserves (DofInv sp first done) _ _ ?_ _ (h.of_eq rfl rfl rfl)
  intro s p hp hs
  obtain ⟨he, _, hi⟩ := (mem_visit_list _ _ p).1 hp
  exact assign_vertex_dofs_visit_inv sp hwf first h0 done p.1 he p.2 hi s hs

theorem assign_edge_dofs_inv (sp : Space) (hwf : WellFormed sp) (first : Int) (h0 : 0 ≤ first)
    (done : List Nat) (st : SpaceState) (hord : EdgeOrdersPositive sp st)
    (h : DofInv sp first done st) :
    DofInv sp first done (assign_edge_dofs sp st) := by
  rw [assign_edge_dofs_flat]
  refine foldl_preserves (DofInv sp first done) _ _ ?_ _ (h.of_eq rfl rfl rfl)
  intro s p hp hs
  obtain ⟨he, ho, hi⟩ := (mem_visit_list _ _ p).1 hp
  exact assign_edge_dofs_visit_inv sp hwf first h0 done p.1 he p.2 hi s
    (hord p.1 he ho p.2 hi) hs

theorem owns_done_congr (sp : Space) (st : SpaceState) (done done' : List Nat)
    (h : ∀ x, x ∈ done' ↔ x ∈ done) (o : DofOwner) (k : Int) :
    Owns sp st done' o k ↔ Owns sp st done o k := by
  cases o <;> simp [Owns, h]

theorem DofInv.congr_done {sp : Space} {first : Int} {done done' : List Nat} {st : SpaceState}
    (hinv : DofInv sp first done st) (h : ∀ x, x ∈ done' ↔ x ∈ done) :
    DofInv sp first done' st :=
  ⟨hinv.part.congr (owns_done_congr sp st done done' h), hinv.edge_block, hinv.sentinel⟩

theorem assign_bubble_dofs_element_inv (sp : Space) (hwf : WellFormed sp) (first : Int)
    (done : List Nat) (st : SpaceState) (e : Element) (hnew : e.id ∉ done)
    (h : DofInv sp first done st) :
    DofInv sp first (e.id :: done) (assign_bubble_dofs_element sp st e) := by
  have hm := hwf.bubbles_nonneg (st.edata e.id).order e.mode
  refine ⟨?_, ?_, ?_⟩
  · refine h.part.extend (DofOwner.bubble e.id)
      (sp.shapeset.get_num_bubbles (st.edata e.id).order e.mode) hm ?_ ?_ ?_
    · intro k
      simp [Owns, assign_bubble_dofs_element]
    · intro o ho k
      cases o with
      | vertex id => simp [Owns, assign_bubble_dofs_element]
      | edge id => simp [Owns, assign_bubble_dofs_element]
      | bubble eid =>
        have hne : eid ≠ e.id := fun hh => ho (by rw [hh])
        simp [Owns, assign_bubble_dofs_element, Function.update_noteq hne, hne]
    · intro k hk
      exact hnew hk.1
  · intro id hty hdof
    have := h.edge_block id hty hdof
    simp only [assign_bubble_dofs_element]
    omega
  · exact h.sentinel

theorem assign_bubble_dofs_foldl_inv (sp : Space) (hwf : WellFormed sp) (first : Int)
    (l : List Element) :
    ∀ (done : List Nat) (st : SpaceState), (l.map (·.id)).Nodup →
      (∀ e ∈ l, e.id ∉ done) → DofInv sp first done st →
      DofInv sp first (l.map (·.id) ++ done) (l.foldl (assign_bubble_dofs_element sp) st) := by
  induction l with
  | nil => intro done st _ _ h; exact h
  | cons e l ih =>
    intro done st hnd hdis h
    rw [List.map_cons, List.nodup_cons] at hnd
    rw [List.foldl_cons]
    have h1 := assign_bubble_dofs_element_inv sp hwf first done st e
      (hdis e (List.mem_cons_self _ _)) h
    have h2 := ih (e.id :: done) _ hnd.2 (by
      intro x hx hmem
      rcases List.mem_cons.1 hmem with hh | hh
      · exact hnd.1 (List.mem_map.2 ⟨x, hx, hh⟩)
      · exact hdis x (List.mem_cons_of_mem _ hx) hh) h1
    refine h2.congr_done ?_
    intro x
    simp only [List.map_cons, List.mem_append, List.mem_cons]
    tauto

theorem assign_bubble_dofs_inv (sp : Space) (hwf : WellFormed sp) (first : Int)
    (st : SpaceState) (h : DofInv sp first [] st) :
    DofInv sp first (sp.mesh.active.map (·.id)) (assign_bubble_dofs sp st) := by
  have := assign_bubble_dofs_foldl_inv sp hwf first sp.mesh.active [] 
    { st with bubble_functions_count := 0 } hwf.ids_nodup (fun _ _ h => by cases h)
    (h.of_eq rfl rfl rfl)
  rw [List.append_nil] at this
  exact this

theorem edgeOrdersPositive_of_edata (sp : Space) (st st' : SpaceState)
    (hed : st'.edata = st.edata) (h : EdgeOrdersPositive sp st) : EdgeOrdersPositive sp st' := by
  intro e he ho i hi
  exact h e he (by simpa [get_element_order, hed] using ho) i hi

/-- The vertex pass keeps the edge and bubble counters, and advances
`next_dof` by the vertex count it leaves. -/
theorem assign_vertex_dofs_counts (sp : Space) (st : SpaceState) :
    (assign_vertex_dofs sp st).edge_functions_count = st.edge_functions_count ∧
      (assign_vertex_dofs sp st).bubble_functions_count = st.bubble_functions_count ∧
      (assign_vertex_dofs sp st).next_dof =
        st.next_dof + (assign_vertex_dofs sp st).vertex_functions_count := by
  rw [assign_vertex_dofs_flat]
  refine foldl_preserves
    (fun s : SpaceState => s.edge_functions_count = st.edge_functions_count ∧
      s.bubble_functions_count = st.bubble_functions_count ∧
      s.next_dof = st.next_dof + s.vertex_functions_count) _ _ ?_ _ ⟨rfl, rfl, by simp⟩
  intro s p _ hs
  obtain ⟨a, b, c⟩ := hs
  rcases assign_vertex_dofs_visit_cases sp p.1 s p.2 with h | ⟨_, _, _, h⟩ | ⟨_, _, _, h⟩ <;>
    rw [h] <;> refine ⟨a, b, ?_⟩ <;> first | exact c | (show _ + _ = _ + (_ + _); omega)

/-- The edge pass keeps the vertex and bubble counters, and advances
`next_dof` by the edge count it leaves. -/
theorem assign_edge_dofs_counts (sp : Space) (st : SpaceState) :
    (assign_edge_dofs sp st).vertex_functions_count = st.vertex_functions_count ∧
      (assign_edge_dofs sp st).bubble_functions_count = st.bubble_functions_count ∧
      (assign_edge_dofs sp st).next_dof =
        st.next_dof + (assign_edge_dofs sp st).edge_functions_count := by
  rw [assign_edge_dofs_flat]
  refine foldl_preserves
    (fun s : SpaceState => s.vertex_functions_count = st.vertex_functions_count ∧
      s.bubble_functions_count = st.bubble_functions_count ∧
      s.next_dof = st.next_dof + s.edge_functions_count) _ _ ?_ _ ⟨rfl, rfl, by simp⟩
  intro s p _ hs
  obtain ⟨a, b, c⟩ := hs
  rcases assign_edge_dofs_visit_cases sp p.1 s p.2 with
    h | ⟨_, _, h⟩ | ⟨_, _, _, h⟩ | ⟨_, _, _, h⟩ <;>
    rw [h] <;> refine ⟨a, b, ?_⟩ <;> first | exact c | (show _ + _ = _ + (_ + _); omega)

/-- The bubble pass keeps the node data and the vertex and edge counters, and
advances `next_dof` by the bubble count it leaves. -/
theorem assign_bubble_dofs_counts (sp : Space) (st : SpaceState) :
    (assign_bubble_dofs sp st).ndata = st.ndata ∧
      (assign_bubble_dofs sp st).vertex_functions_count = st.vertex_functions_count ∧
      (assign_bubble_dofs sp st).edge_functions_count = st.edge_functions_count ∧
      (assign_bubble_dofs sp st).next_dof =
        st.next_dof + (assign_bubble_dofs sp st).bubble_functions_count := by
  unfold assign_bubble_dofs
  refine foldl_preserves
    (fun s : SpaceState => s.ndata = st.ndata ∧ s.vertex_functions_count = st.vertex_functions_count ∧
      s.edge_functions_count = st.edge_functions_count ∧
      s.next_dof = st.next_dof + s.bubble_functions_count) _ _ ?_ _ ⟨rfl, rfl, rfl, by simp⟩
  intro s e _ hs
  obtain ⟨a, b, c, d⟩ := hs
  refine ⟨a, b, c, ?_⟩
  simp only [assign_bubble_dofs_element]
  omega

/-- The invariant after the three passes, from a state without any assigned
dof. -/
theorem assign_dofs_passes_inv (sp : Space) (st : SpaceState) (hwf : WellFormed sp)
    (hord : EdgeOrdersPositive sp st) (h0 : 0 ≤ st.next_dof)
    (hun : ∀ id, (st.ndata id).dof = sp.H2D_UNASSIGNED_DOF) :
    DofInv sp st.next_dof (sp.mesh.active.map (·.id)) (assign_dofs_passes sp st) := by
  have h1 := assign_vertex_dofs_inv sp hwf st.next_dof h0 [] st (dofInv_init sp hwf st hun)
  have h2 := assign_edge_dofs_inv sp hwf st.next_dof h0 [] _
    (edgeOrdersPositive_of_edata sp st _ (assign_vertex_dofs_edata sp st) hord) h1
  exact assign_bubble_dofs_inv sp hwf st.next_dof _ h2

/-- C5. From node data without any assigned dof and `next_dof = first`, the
three passes leave the dofs of the vertex nodes, the blocks `[dof, dof + n)`
of the edge nodes and the blocks `[bdof, bdof + n)` of the active elements
pairwise disjoint with union `[first, next_dof)`, and `next_dof - first` is
the sum of the three function counts. -/
theorem assign_dofs_partition (sp : Space) (st : SpaceState) (first : Int)
    (hwf : WellFormed sp) (hord : EdgeOrdersPositive sp st) (h0 : 0 ≤ first)
    (hfirst : st.next_dof = first)
    (hun : ∀ id, (st.ndata id).dof = sp.H2D_UNASSIGNED_DOF) :
    (∀ k, (first ≤ k ∧ k < (assign_dofs_passes sp st).next_dof) ↔
        ∃ o, Owns sp (assign_dofs_passes sp st) (sp.mesh.active.map (·.id)) o k) ∧
      (∀ o o' k, Owns sp (assign_dofs_passes sp st) (sp.mesh.active.map (·.id)) o k →
        Owns sp (assign_dofs_passes sp st) (sp.mesh.active.map (·.id)) o' k → o = o') ∧
      (assign_dofs_passes sp st).next_dof - first =
        (assign_dofs_passes sp st).vertex_functions_count +
          (assign_dofs_passes sp st).edge_functions_count +
          (assign_dofs_passes sp st).bubble_functions_count := by
  subst hfirst
  have hinv := assign_dofs_passes_inv sp st hwf hord h0 hun
  refine ⟨?_, hinv.part.uniq, ?_⟩
  · intro k
    constructor
    · rintro ⟨h1, h2⟩
      exact hinv.part.cover k h1 h2
    · rintro ⟨o, ho⟩
      exact hinv.part.bound o k ho
  · obtain ⟨_, _, v3⟩ := assign_vertex_dofs_counts sp st
    obtain ⟨e1, _, e3⟩ := assign_edge_dofs_counts sp (assign_vertex_dofs sp st)
    obtain ⟨_, b2, b3, b4⟩ := assign_bubble_dofs_counts sp
      (assign_edge_dofs sp (assign_vertex_dofs sp st))
    unfold assign_dofs_passes
    omega

theorem assign_vertex_dofs_visit_other (sp : Space) (e : Element) (st : SpaceState) (i id : Nat)
    (h : id ≠ e.vn i) : (assign_vertex_dofs_visit sp e st i).ndata id = st.ndata id := by
  rcases assign_vertex_dofs_visit_cases sp e st i with h1 | ⟨_, _, _, h1⟩ | ⟨_, _, _, h1⟩ <;>
    rw [h1]
  all_goals exact Function.update_noteq h _ _

theorem assign_edge_dofs_visit_other (sp : Space) (e : Element) (st : SpaceState) (i id : Nat)
    (h : id ≠ e.en i) : (assign_edge_dofs_visit sp e st i).ndata id = st.ndata id := by
  rcases assign_edge_dofs_visit_cases sp e st i with
    h1 | ⟨_, _, h1⟩ | ⟨_, _, _, h1⟩ | ⟨_, _, _, h1⟩ <;> rw [h1]
  all_goals exact Function.update_noteq h _ _

/-- A vertex visit leaves every node alone whose dof is not the unassigned
marker. -/
theorem assign_vertex_dofs_visit_stable (sp : Space) (e : Element) (st : SpaceState)
    (i id : Nat) (h : (st.ndata id).dof ≠ sp.H2D_UNASSIGNED_DOF) :
    (assign_vertex_dofs_visit sp e st i).ndata id = st.ndata id := by
  by_cases hid : id = e.vn i
  · subst hid
    rcases assign_vertex_dofs_visit_cases sp e st i with h1 | ⟨hd, _⟩ | ⟨hd, _⟩
    · rw [h1]
    · exact absurd hd h
    · exact absurd hd h
  · exact assign_vertex_dofs_visit_other sp e st i id hid

/-- An edge visit leaves every node alone whose dof is not the unassigned
marker. -/
theorem assign_edge_dofs_visit_stable (sp : Space) (e : Element) (st : SpaceState)
    (i id : Nat) (h : (st.ndata id).dof ≠ sp.H2D_UNASSIGNED_DOF) :
    (assign_edge_dofs_visit sp e st i).ndata id = st.ndata id := by
  by_cases hid : id = e.en i
  · subst hid
    rcases assign_edge_dofs_visit_cases sp e st i with h1 | ⟨hd, _⟩ | ⟨hd, _⟩ | ⟨hd, _⟩
    · rw [h1]
    · exact absurd hd h
    · exact absurd hd h
    · exact absurd hd h
  · exact assign_edge_dofs_visit_other sp e st i id hid

theorem assign_vertex_dofs_visit_next_dof (sp : Space) (e : Element) (st : SpaceState) (i : Nat) :
    st.next_dof ≤ (assign_vertex_dofs_visit sp e st i).next_dof := by
  rcases assign_vertex_dofs_visit_cases sp e st i with h1 | ⟨_, _, _, h1⟩ | ⟨_, _, _, h1⟩ <;>
    simp [h1]

theorem assign_edge_dofs_visit_next_dof (sp : Space) (e : Element) (st : SpaceState) (i : Nat)
    (ho : 1 ≤ sp.get_edge_order_internal (e.en i)) :
    st.next_dof ≤ (assign_edge_dofs_visit sp e st i).next_dof := by
  rcases assign_edge_dofs_visit_cases sp e st i with
    h1 | ⟨_, _, h1⟩ | ⟨_, _, _, h1⟩ | ⟨_, _, _, h1⟩ <;> simp [h1]
  omega

theorem assign_vertex_dofs_next_dof (sp : Space) (st : SpaceState) :
    st.next_dof ≤ (assign_vertex_dofs sp st).next_dof := by
  rw [assign_vertex_dofs_flat]
  refine foldl_preserves (fun s : SpaceState => st.next_dof ≤ s.next_dof) _ _ ?_ _ (le_refl _)
  intro s p _ hs
  exact le_trans hs (assign_vertex_dofs_visit_next_dof sp p.1 s p.2)

theorem assign_edge_dofs_next_dof (sp : Space) (st : SpaceState)
    (hord : EdgeOrdersPositive sp st) :
    st.next_dof ≤ (assign_edge_dofs sp st).next_dof := by
  rw [assign_edge_dofs_flat]
  refine foldl_preserves (fun s : SpaceState => st.next_dof ≤ s.next_dof) _ _ ?_ _ (le_refl _)
  intro s p hp hs
  obtain ⟨he, ho, hi⟩ := (mem_visit_list _ _ p).1 hp
  exact le_trans hs (assign_edge_dofs_visit_next_dof sp p.1 s p.2 (hord p.1 he ho p.2 hi))

theorem assign_bubble_dofs_next_dof (sp : Space) (st : SpaceState) (hwf : WellFormed sp) :
    st.next_dof ≤ (assign_bubble_dofs sp st).next_dof := by
  unfold assign_bubble_dofs
  refine foldl_preserves (fun s : SpaceState => st.next_dof ≤ s.next_dof) _ _ ?_ _ (le_refl _)
  intro s e _ hs
  have := hwf.bubbles_nonneg (s.edata e.id).order e.mode
  simp only [assign_bubble_dofs_element]
  omega

theorem assign_vertex_dofs_stable (sp : Space) (st : SpaceState) (id : Nat)
    (h : (st.ndata id).dof ≠ sp.H2D_UNASSIGNED_DOF) :
    (assign_vertex_dofs sp st).ndata id = st.ndata id := by
  rw [assign_vertex_dofs_flat]
  refine foldl_preserves (fun s : SpaceState => s.ndata id = st.ndata id) _ _ ?_ _ rfl
  intro s p _ hs
  rw [← hs]
  exact assign_vertex_dofs_visit_stable sp p.1 s p.2 id (by rw [hs]; exact h)

theorem assign_edge_dofs_stable (sp : Space) (st : SpaceState) (id : Nat)
    (h : (st.ndata id).dof ≠ sp.H2D_UNASSIGNED_DOF) :
    (assign_edge_dofs sp st).ndata id = st.ndata id := by
  rw [assign_edge_dofs_flat]
  refine foldl_preserves (fun s : SpaceState => s.ndata id = st.ndata id) _ _ ?_ _ rfl
  intro s p _ hs
  rw [← hs]
  exact assign_edge_dofs_visit_stable sp p.1 s p.2 id (by rw [hs]; exact h)

/-- A hanging vertex is not touched by the vertex pass. -/
theorem assign_vertex_dofs_hanging (sp : Space) (st : SpaceState) (id : Nat)
    (h : (sp.mesh.node id).is_constrained_vertex = true) :
    (assign_vertex_dofs sp st).ndata id = st.ndata id := by
  rw [assign_vertex_dofs_flat]
  refine foldl_preserves (fun s : SpaceState => s.ndata id = st.ndata id) _ _ ?_ _ rfl
  intro s p _ hs
  rw [← hs]
  by_cases hid : id = p.1.vn p.2
  · rcases assign_vertex_dofs_visit_cases sp p.1 s p.2 with h1 | ⟨_, hc, _⟩ | ⟨_, hc, _⟩
    · rw [h1]
    · rw [← hid, h] at hc; cases hc
    · rw [← hid, h] at hc; cases hc
  · exact assign_vertex_dofs_visit_other sp p.1 s p.2 id hid

theorem sampleSpace_wellFormed : WellFormed sampleSpace := by
  refine ⟨by decide, by decide, by decide, ?_, ?_, ?_, by decide⟩
  · intro e he i hi
    simp only [sampleSpace, sampleMesh, List.mem_singleton] at he
    subst he
    have : i < 3 := hi
    simp [sampleSpace, sampleMesh, sampleTriangle, this]
  · intro e he i hi
    simp only [sampleSpace, sampleMesh, List.mem_singleton] at he
    subst he
    simp [sampleSpace, sampleMesh, sampleTriangle]
  · intro o m
    simp [sampleSpace, sampleShapeset]

theorem sampleSpace_edgeOrders (st : SpaceState) : EdgeOrdersPositive sampleSpace st := by
  intro e _ _ i _
  simp [sampleSpace]

/-- The witness of C2: vertices with the dofs 0 and 1 and an edge node with
the dofs 3 and 4. -/
theorem single_hanging_vertex_baselist_witness :
    ∃ nd, constrained_vertex_data sampleSpace sampleHangingNdata 0 1 6 sampleEdgeInfo 0 =
        some nd ∧
      nd.ncomponents = 2 + 2 ∧ nd.baselist.length = 2 + 2 ∧
      nd.baselist.Perm
        ({ dof := (sampleHangingNdata 0).dof, coef := 1 / 2 } ::
          { dof := (sampleHangingNdata 1).dof, coef := 1 / 2 } ::
          (List.range 2).map fun (k : Nat) =>
            { dof := (sampleHangingNdata sampleEdgeInfo.node).dof + (k : Int)
              coef := sampleSpace.shapeset.get_fn_value
                (sampleSpace.shapeset.get_edge_index 0 sampleEdgeInfo.ori ((k : Int) + 2) 0)
                0 (-1) 0 0 }) :=
  single_hanging_vertex_baselist sampleSpace sampleHangingNdata 0 1 6 sampleEdgeInfo 0 2
    rfl rfl (by decide) (by decide) (by decide) rfl (by decide) (by decide) rfl rfl

/-- The witness of C5 on the first-order triangle. -/
theorem assign_dofs_partition_witness :
    (∀ k, ((0 : Int) ≤ k ∧ k < (assign_dofs_passes sampleSpace sampleState).next_dof) ↔
        ∃ o, Owns sampleSpace (assign_dofs_passes sampleSpace sampleState)
          (sampleSpace.mesh.active.map (·.id)) o k) ∧
      (∀ o o' k, Owns sampleSpace (assign_dofs_passes sampleSpace sampleState)
          (sampleSpace.mesh.active.map (·.id)) o k →
        Owns sampleSpace (assign_dofs_passes sampleSpace sampleState)
          (sampleSpace.mesh.active.map (·.id)) o' k → o = o') ∧
      (assign_dofs_passes sampleSpace sampleState).next_dof - 0 =
        (assign_dofs_passes sampleSpace sampleState).vertex_functions_count +
          (assign_dofs_passes sampleSpace sampleState).edge_functions_count +
          (assign_dofs_passes sampleSpace sampleState).bubble_functions_count :=
  assign_dofs_partition sampleSpace sampleState 0 sampleSpace_wellFormed
    (sampleSpace_edgeOrders sampleState) (by decide) rfl (fun _ => rfl)

/-- C7. A visit of `assign_vertex_dofs` to a vertex that is not hanging and
whose dof is unassigned sets `n` to 1 and either marks the vertex as
constrained without touching `next_dof` (when `n` was 0) or gives it the dof
`next_dof` and adds one to `next_dof` and to the vertex count; any other visit
changes nothing, and no visit touches another node. Over the whole pass a
hanging vertex and a node whose dof is not the unassigned marker keep their
node data. -/
theorem assign_vertex_dofs_visit_spec (sp : Space) (e : Element) (st : SpaceState) (i : Nat) :
    ((sp.mesh.node (e.vn i)).is_constrained_vertex = false ∧
        (st.ndata (e.vn i)).dof = sp.H2D_UNASSIGNED_DOF →
      ((assign_vertex_dofs_visit sp e st i).ndata (e.vn i)).n = 1 ∧
      ((st.ndata (e.vn i)).n = 0 →
        ((assign_vertex_dofs_visit sp e st i).ndata (e.vn i)).dof = sp.H2D_CONSTRAINED_DOF ∧
        (assign_vertex_dofs_visit sp e st i).next_dof = st.next_dof ∧
        (assign_vertex_dofs_visit sp e st i).vertex_functions_count =
          st.vertex_functions_count) ∧
      ((st.ndata (e.vn i)).n ≠ 0 →
        ((assign_vertex_dofs_visit sp e st i).ndata (e.vn i)).dof = st.next_dof ∧
        (assign_vertex_dofs_visit sp e st i).next_dof = st.next_dof + 1 ∧
        (assign_vertex_dofs_visit sp e st i).vertex_functions_count =
          st.vertex_functions_count + 1)) ∧
    ((sp.mesh.node (e.vn i)).is_constrained_vertex = true ∨
        (st.ndata (e.vn i)).dof ≠ sp.H2D_UNASSIGNED_DOF →
      assign_vertex_dofs_visit sp e st i = st) ∧
    (∀ id, id ≠ e.vn i → (assign_vertex_dofs_visit sp e st i).ndata id = st.ndata id) ∧
    (∀ id, (sp.mesh.node id).is_constrained_vertex = true ∨
        (st.ndata id).dof ≠ sp.H2D_UNASSIGNED_DOF →
      (assign_vertex_dofs sp st).ndata id = st.ndata id) := by
  refine ⟨?_, ?_, ?_, ?_⟩
  · rintro ⟨hc, hd⟩
    unfold assign_vertex_dofs_visit
    by_cases hn : (st.ndata (e.vn i)).n = 0
    · simp [hc, hd, hn]
    · simp [hc, hd, hn]
  · intro h
    unfold assign_vertex_dofs_visit
    rcases h with h | h
    · simp [h]
    · simp [h]
  · intro id hid
    exact assign_vertex_dofs_visit_other sp e st i id hid
  · intro id h
    rcases h with h | h
    · exact assign_vertex_dofs_hanging sp st id h
    · exact assign_vertex_dofs_stable sp st id h

/-- The witness of C7: the first visit on the sample triangle assigns dof 0
to vertex 0. -/
theorem assign_vertex_dofs_visit_spec_witness :
    ((sampleSpace.mesh.node (sampleTriangle.vn 0)).is_constrained_vertex = false ∧
      (sampleState.ndata (sampleTriangle.vn 0)).dof = sampleSpace.H2D_UNASSIGNED_DOF) ∧
    (sampleState.ndata (sampleTriangle.vn 0)).n ≠ 0 ∧
    ((assign_vertex_dofs_visit sampleSpace sampleTriangle sampleState 0).ndata
        (sampleTriangle.vn 0)).n = 1 ∧
    ((assign_vertex_dofs_visit sampleSpace sampleTriangle sampleState 0).ndata
        (sampleTriangle.vn 0)).dof = sampleState.next_dof ∧
    (assign_vertex_dofs_visit sampleSpace sampleTriangle sampleState 0).next_dof =
      sampleState.next_dof + 1 ∧
    (assign_vertex_dofs_visit sampleSpace sampleTriangle sampleState 0).vertex_functions_count =
      sampleState.vertex_functions_count + 1 :=
  have h := (assign_vertex_dofs_visit_spec sampleSpace sampleTriangle sampleState 0).1
    ⟨rfl, rfl⟩
  ⟨⟨rfl, rfl⟩, by decide, h.1, h.2.2 (by decide)⟩

theorem assign_vertex_dofs_visit_skip (sp : Space) (e : Element) (st : SpaceState) (i : Nat)
    (h : (sp.mesh.node (e.vn i)).is_constrained_vertex = true ∨
      (st.ndata (e.vn i)).dof ≠ sp.H2D_UNASSIGNED_DOF) :
    assign_vertex_dofs_visit sp e st i = st := by
  unfold assign_vertex_dofs_visit
  rcases h with h | h <;> simp [h]

theorem assign_vertex_dofs_visit_dof (sp : Space) (e : Element) (st : SpaceState) (i : Nat)
    (hc : (sp.mesh.node (e.vn i)).is_constrained_vertex = false)
    (hd : (st.ndata (e.vn i)).dof = sp.H2D_UNASSIGNED_DOF) :
    ((assign_vertex_dofs_visit sp e st i).ndata (e.vn i)).dof = sp.H2D_CONSTRAINED_DOF ∨
      ((assign_vertex_dofs_visit sp e st i).ndata (e.vn i)).dof = st.next_dof := by
  unfold assign_vertex_dofs_visit
  by_cases hn : (st.ndata (e.vn i)).n = 0
  · left; simp [hc, hd, hn]
  · right; simp [hc, hd, hn]

theorem assign_edge_dofs_visit_skip (sp : Space) (e : Element) (st : SpaceState) (i : Nat)
    (h : (st.ndata (e.en i)).dof ≠ sp.H2D_UNASSIGNED_DOF) :
    assign_edge_dofs_visit sp e st i = st := by
  unfold assign_edge_dofs_visit
  simp [h]

theorem assign_edge_dofs_visit_ineligible (sp : Space) (e : Element) (st : SpaceState) (i : Nat)
    (hd : (st.ndata (e.en i)).dof = sp.H2D_UNASSIGNED_DOF)
    (hel : edge_eligible sp (e.en i) = false) :
    assign_edge_dofs_visit sp e st i =
      { st with
        ndata := Function.update st.ndata (e.en i) { st.ndata (e.en i) with n := -1 } } := by
  unfold assign_edge_dofs_visit
  simp [hd, hel]

theorem assign_edge_dofs_visit_dof (sp : Space) (e : Element) (st : SpaceState) (i : Nat)
    (hd : (st.ndata (e.en i)).dof = sp.H2D_UNASSIGNED_DOF)
    (hel : edge_eligible sp (e.en i) = true) :
    ((assign_edge_dofs_visit sp e st i).ndata (e.en i)).dof = sp.H2D_CONSTRAINED_DOF ∨
      ((assign_edge_dofs_visit sp e st i).ndata (e.en i)).dof = st.next_dof := by
  unfold assign_edge_dofs_visit
  by_cases hes : edge_essential sp (e.en i) = true
  · left; simp [hd, hel, hes]
  · right; simp [hd, hel, hes]

/-- After the vertex pass a vertex of an active element of positive order
that is not hanging carries an assigned dof or the constrained marker. -/
theorem assign_vertex_dofs_visited (sp : Space) (st : SpaceState) (hwf : WellFormed sp)
    (h0 : 0 ≤ st.next_dof) (e : Element) (he : e ∈ sp.mesh.active)
    (ho : 0 < get_element_order st e.id) (i : Nat) (hi : i < e.nvert)
    (hc : (sp.mesh.node (e.vn i)).is_constrained_vertex = false) :
    ((assign_vertex_dofs sp st).ndata (e.vn i)).dof ≠ sp.H2D_UNASSIGNED_DOF := by
  have hu := hwf.unassigned_neg
  have hne := hwf.sentinels_ne
  rw [assign_vertex_dofs_flat]
  refine foldl_establish (fun t (p : Element × Nat) => assign_vertex_dofs_visit sp p.1 t p.2)
    (fun s : SpaceState => 0 ≤ s.next_dof)
    (fun s : SpaceState => (s.ndata (e.vn i)).dof ≠ sp.H2D_UNASSIGNED_DOF)
    _ (e, i) ((mem_visit_list _ _ (e, i)).2 ⟨he, ho, hi⟩) ?_ ?_ ?_ _ h0
  · intro s p _ hs
    exact le_trans hs (assign_vertex_dofs_visit_next_dof sp p.1 s p.2)
  · intro s hs
    show ((assign_vertex_dofs_visit sp e s i).ndata (e.vn i)).dof ≠ _
    by_cases hd : (s.ndata (e.vn i)).dof = sp.H2D_UNASSIGNED_DOF
    · rcases assign_vertex_dofs_visit_dof sp e s i hc hd with h1 | h1
      · rw [h1]; exact fun h => hne h.symm
      · rw [h1]; omega
    · rw [assign_vertex_dofs_visit_skip sp e s i (Or.inr hd)]
      exact hd
  · intro s p _ _ hq
    show ((assign_vertex_dofs_visit sp p.1 s p.2).ndata (e.vn i)).dof ≠ _
    rw [assign_vertex_dofs_visit_stable sp p.1 s p.2 (e.vn i) hq]
    exact hq

/-- After the edge pass an edge of an active element of positive order
carries an assigned dof or the constrained marker, or it is not eligible and
has `n = -1`. -/
theorem assign_edge_dofs_visited (sp : Space) (st : SpaceState) (hwf : WellFormed sp)
    (hord : EdgeOrdersPositive sp st) (h0 : 0 ≤ st.next_dof) (e : Element)
    (he : e ∈ sp.mesh.active) (ho : 0 < get_element_order st e.id) (i : Nat)
    (hi : i < e.nvert) :
    ((assign_edge_dofs sp st).ndata (e.en i)).dof ≠ sp.H2D_UNASSIGNED_DOF ∨
      (edge_eligible sp (e.en i) = false ∧ ((assign_edge_dofs sp st).ndata (e.en i)).n = -1) := by
  have hu := hwf.unassigned_neg
  have hne := hwf.sentinels_ne
  rw [assign_edge_dofs_flat]
  refine foldl_establish (fun t (p : Element × Nat) => assign_edge_dofs_visit sp p.1 t p.2)
    (fun s : SpaceState => 0 ≤ s.next_dof)
    (fun s : SpaceState => (s.ndata (e.en i)).dof ≠ sp.H2D_UNASSIGNED_DOF ∨
      (edge_eligible sp (e.en i) = false ∧ (s.ndata (e.en i)).n = -1))
    _ (e, i) ((mem_visit_list _ _ (e, i)).2 ⟨he, ho, hi⟩) ?_ ?_ ?_ _ h0
  · intro s p hp hs
    obtain ⟨he', ho', hi'⟩ := (mem_visit_list _ _ p).1 hp
    exact le_trans hs (assign_edge_dofs_visit_next_dof sp p.1 s p.2 (hord p.1 he' ho' p.2 hi'))
  · intro s hs
    show ((assign_edge_dofs_visit sp e s i).ndata (e.en i)).dof ≠ _ ∨
      (_ ∧ ((assign_edge_dofs_visit sp e s i).ndata (e.en i)).n = -1)
    by_cases hd : (s.ndata (e.en i)).dof = sp.H2D_UNASSIGNED_DOF
    · by_cases hel : edge_eligible sp (e.en i) = true
      · left
        rcases assign_edge_dofs_visit_dof sp e s i hd hel with h1 | h1
        · rw [h1]; exact fun h => hne h.symm
        · rw [h1]; omega
      · simp only [Bool.not_eq_true] at hel
        right
        rw [assign_edge_dofs_visit_ineligible sp e s i hd hel]
        exact ⟨hel, by simp⟩
    · left
      rw [assign_edge_dofs_visit_skip sp e s i hd]
      exact hd
  · intro s p _ _ hq
    show ((assign_edge_dofs_visit sp p.1 s p.2).ndata (e.en i)).dof ≠ _ ∨
      (_ ∧ ((assign_edge_dofs_visit sp p.1 s p.2).ndata (e.en i)).n = -1)
    rcases hq with hq | ⟨hel, hn⟩
    · left
      rw [assign_edge_dofs_visit_stable sp p.1 s p.2 (e.en i) hq]
      exact hq
    · by_cases hid : e.en i = p.1.en p.2
      · rcases assign_edge_dofs_visit_cases sp p.1 s p.2 with
          h1 | ⟨_, _, h1⟩ | ⟨_, hel', _⟩ | ⟨_, hel', _⟩
        · rw [h1]; exact Or.inr ⟨hel, hn⟩
        · right
          rw [h1, hid]
          exact ⟨hid ▸ hel, by simp⟩
        · rw [← hid, hel] at hel'; cases hel'
        · rw [← hid, hel] at hel'; cases hel'
      · right
        rw [assign_edge_dofs_visit_other sp p.1 s p.2 (e.en i) hid]
        exact ⟨hel, hn⟩

/-- C6. A visit of `assign_edge_dofs` to an edge node whose dof is still
unassigned: the edge is eligible iff its reference count exceeds 1, or it is
a boundary edge, or `peek_vertex_node(p1, p2)` finds a node. An eligible edge
gets `n = edge order - 1`; it is marked constrained, `next_dof` unchanged,
when it is a boundary edge with an essential condition for its marker, and
otherwise gets `dof = next_dof` while `next_dof` advances by
`edge order - 1`. An edge that is not eligible gets `n = -1`, with its dof
and `next_dof` unchanged. No other node is touched. -/
theorem assign_edge_dofs_visit_spec (sp : Space) (e : Element) (st : SpaceState) (i : Nat)
    (hd : (st.ndata (e.en i)).dof = sp.H2D_UNASSIGNED_DOF) :
    (edge_eligible sp (e.en i) = true ↔
      (1 < (sp.mesh.node (e.en i)).ref ∨ (sp.mesh.node (e.en i)).bnd = true ∨
        ∃ v, sp.mesh.peek_vertex_node (sp.mesh.node (e.en i)).p1 (sp.mesh.node (e.en i)).p2 =
          some v)) ∧
    (edge_essential sp (e.en i) = true ↔
      ((sp.mesh.node (e.en i)).bnd = true ∧
        ∃ bcs, sp.essential_bcs = some bcs ∧
          bcs (sp.mesh.get_user_marker (sp.mesh.node (e.en i)).marker) = true)) ∧
    (edge_eligible sp (e.en i) = true → edge_essential sp (e.en i) = true →
      ((assign_edge_dofs_visit sp e st i).ndata (e.en i)).n =
          sp.get_edge_order_internal (e.en i) - 1 ∧
        ((assign_edge_dofs_visit sp e st i).ndata (e.en i)).dof = sp.H2D_CONSTRAINED_DOF ∧
        (assign_edge_dofs_visit sp e st i).next_dof = st.next_dof ∧
        (assign_edge_dofs_visit sp e st i).edge_functions_count = st.edge_functions_count) ∧
    (edge_eligible sp (e.en i) = true → edge_essential sp (e.en i) = false →
      ((assign_edge_dofs_visit sp e st i).ndata (e.en i)).n =
          sp.get_edge_order_internal (e.en i) - 1 ∧
        ((assign_edge_dofs_visit sp e st i).ndata (e.en i)).dof = st.next_dof ∧
        (assign_edge_dofs_visit sp e st i).next_dof =
          st.next_dof + (sp.get_edge_order_internal (e.en i) - 1) ∧
        (assign_edge_dofs_visit sp e st i).edge_functions_count =
          st.edge_functions_count + (sp.get_edge_order_internal (e.en i) - 1)) ∧
    (edge_eligible sp (e.en i) = false →
      ((assign_edge_dofs_visit sp e st i).ndata (e.en i)).n = -1 ∧
        ((assign_edge_dofs_visit sp e st i).ndata (e.en i)).dof = (st.ndata (e.en i)).dof ∧
        (assign_edge_dofs_visit sp e st i).next_dof = st.next_dof ∧
        (assign_edge_dofs_visit sp e st i).edge_functions_count = st.edge_functions_count) ∧
    (∀ id, id ≠ e.en i → (assign_edge_dofs_visit sp e st i).ndata id = st.ndata id) := by
  refine ⟨?_, ?_, ?_, ?_, ?_, ?_⟩
  · simp [edge_eligible, Option.isSome_iff_exists, or_assoc]
  · unfold edge_essential
    cases hb : sp.essential_bcs with
    | none => simp
    | some bcs => simp
  · intro hel hes
    unfold assign_edge_dofs_visit
    simp [hd, hel, hes]
  · intro hel hes
    unfold assign_edge_dofs_visit
    simp [hd, hel, hes]
  · intro hel
    unfold assign_edge_dofs_visit
    simp [hd, hel]
  · intro id hid
    exact assign_edge_dofs_visit_other sp e st i id hid

/-- The witness of C6: the first edge visit on the sample triangle gives the
boundary edge 3 the (empty) block at dof 0. -/
theorem assign_edge_dofs_visit_spec_witness :
    (sampleState.ndata (sampleTriangle.en 0)).dof = sampleSpace.H2D_UNASSIGNED_DOF ∧
    edge_eligible sampleSpace (sampleTriangle.en 0) = true ∧
    edge_essential sampleSpace (sampleTriangle.en 0) = false ∧
    ((assign_edge_dofs_visit sampleSpace sampleTriangle sampleState 0).ndata
        (sampleTriangle.en 0)).n = sampleSpace.get_edge_order_internal (sampleTriangle.en 0) - 1 ∧
    ((assign_edge_dofs_visit sampleSpace sampleTriangle sampleState 0).ndata
        (sampleTriangle.en 0)).dof = sampleState.next_dof ∧
    (assign_edge_dofs_visit sampleSpace sampleTriangle sampleState 0).next_dof =
      sampleState.next_dof + (sampleSpace.get_edge_order_internal (sampleTriangle.en 0) - 1) ∧
    (assign_edge_dofs_visit sampleSpace sampleTriangle sampleState 0).edge_functions_count =
      sampleState.edge_functions_count +
        (sampleSpace.get_edge_order_internal (sampleTriangle.en 0) - 1) :=
  ⟨rfl, by decide, by decide,
    (assign_edge_dofs_visit_spec sampleSpace sampleTriangle sampleState 0 rfl).2.2.2.1
      (by decide) (by decide)⟩

/-- C8, as stated, fails: on the first-order triangle the visit of edge 3
after the vertex pass assigns the edge its dof, and `next_dof` stays 3. -/
theorem next_dof_strict_counterexample :
    ((assign_vertex_dofs sampleSpace sampleState).ndata (sampleTriangle.en 0)).dof =
        sampleSpace.H2D_UNASSIGNED_DOF ∧
      ((assign_edge_dofs_visit sampleSpace sampleTriangle
          (assign_vertex_dofs sampleSpace sampleState) 0).ndata (sampleTriangle.en 0)).dof =
        (assign_vertex_dofs sampleSpace sampleState).next_dof ∧
      ¬ (assign_vertex_dofs sampleSpace sampleState).next_dof <
        (assign_edge_dofs_visit sampleSpace sampleTriangle
          (assign_vertex_dofs sampleSpace sampleState) 0).next_dof := by
  decide

/-- C8, amended. `next_dof` never decreases: a vertex visit leaves it or adds
one (one when it assigns a dof), an edge visit leaves it or adds
`edge order - 1` (that when it assigns a dof), which is zero for a first-order
edge, an element of the bubble pass adds its bubble count, which is not
negative; so each pass ends with a `next_dof` not below the one it started
with. After the three passes from a state without
assigned dofs, `next_dof` lies strictly above every index that a vertex, an
edge or a bubble function owns. -/
theorem next_dof_monotone (sp : Space) (st : SpaceState) (hwf : WellFormed sp)
    (hord : EdgeOrdersPositive sp st) (h0 : 0 ≤ st.next_dof)
    (hun : ∀ id, (st.ndata id).dof = sp.H2D_UNASSIGNED_DOF) :
    (∀ e s i, s.next_dof ≤ (assign_vertex_dofs_visit sp e s i).next_dof ∧
      ((assign_vertex_dofs_visit sp e s i).next_dof = s.next_dof ∨
        (assign_vertex_dofs_visit sp e s i).next_dof = s.next_dof + 1) ∧
      ((sp.mesh.node (e.vn i)).is_constrained_vertex = false →
        (s.ndata (e.vn i)).dof = sp.H2D_UNASSIGNED_DOF → (s.ndata (e.vn i)).n ≠ 0 →
        (assign_vertex_dofs_visit sp e s i).next_dof = s.next_dof + 1)) ∧
    (∀ e s i, 1 ≤ sp.get_edge_order_internal (e.en i) →
      s.next_dof ≤ (assign_edge_dofs_visit sp e s i).next_dof ∧
      ((assign_edge_dofs_visit sp e s i).next_dof = s.next_dof ∨
        (assign_edge_dofs_visit sp e s i).next_dof =
          s.next_dof + (sp.get_edge_order_internal (e.en i) - 1)) ∧
      ((s.ndata (e.en i)).dof = sp.H2D_UNASSIGNED_DOF → edge_eligible sp (e.en i) = true →
        edge_essential sp (e.en i) = false →
        (assign_edge_dofs_visit sp e s i).next_dof =
          s.next_dof + (sp.get_edge_order_internal (e.en i) - 1))) ∧
    (∀ e s, s.next_dof ≤ (assign_bubble_dofs_element sp s e).next_dof ∧
      0 ≤ sp.shapeset.get_num_bubbles (s.edata e.id).order e.mode ∧
      (assign_bubble_dofs_element sp s e).next_dof =
        s.next_dof + sp.shapeset.get_num_bubbles (s.edata e.id).order e.mode) ∧
    st.next_dof ≤ (assign_vertex_dofs sp st).next_dof ∧
    (assign_vertex_dofs sp st).next_dof ≤
      (assign_edge_dofs sp (assign_vertex_dofs sp st)).next_dof ∧
    (assign_edge_dofs sp (assign_vertex_dofs sp st)).next_dof ≤
      (assign_dofs_passes sp st).next_dof ∧
    (∀ o k, Owns sp (assign_dofs_passes sp st) (sp.mesh.active.map (·.id)) o k →
      k < (assign_dofs_passes sp st).next_dof) := by
  refine ⟨?_, ?_, ?_, ?_, ?_, ?_, ?_⟩
  · intro e s i
    refine ⟨assign_vertex_dofs_visit_next_dof sp e s i, ?_, ?_⟩
    · rcases assign_vertex_dofs_visit_cases sp e s i with h | ⟨_, _, _, h⟩ | ⟨_, _, _, h⟩ <;>
        rw [h]
      · exact Or.inl rfl
      · exact Or.inl rfl
      · exact Or.inr rfl
    · intro hc hd hn
      unfold assign_vertex_dofs_visit
      simp [hc, hd, hn]
  · intro e s i ho
    refine ⟨assign_edge_dofs_visit_next_dof sp e s i ho, ?_, ?_⟩
    · rcases assign_edge_dofs_visit_cases sp e s i with
        h | ⟨_, _, h⟩ | ⟨_, _, _, h⟩ | ⟨_, _, _, h⟩ <;> rw [h]
      · exact Or.inl rfl
      · exact Or.inl rfl
      · exact Or.inl rfl
      · exact Or.inr rfl
    · intro hd hel hes
      unfold assign_edge_dofs_visit
      simp [hd, hel, hes]
  · intro e s
    have := hwf.bubbles_nonneg (s.edata e.id).order e.mode
    refine ⟨?_, this, ?_⟩
    · simp only [assign_bubble_dofs_element]
      omega
    · simp only [assign_bubble_dofs_element]
  · exact assign_vertex_dofs_next_dof sp st
  · exact assign_edge_dofs_next_dof sp _
      (edgeOrdersPositive_of_edata sp st _ (assign_vertex_dofs_edata sp st) hord)
  · exact assign_bubble_dofs_next_dof sp _ hwf
  · intro o k hk
    exact ((assign_dofs_passes_inv sp st hwf hord h0 hun).part.bound o k hk).2

/-- The witness of the amended C8 on the first-order triangle. -/
theorem next_dof_monotone_witness :
    sampleState.next_dof ≤ (assign_vertex_dofs sampleSpace sampleState).next_dof ∧
    (assign_vertex_dofs sampleSpace sampleState).next_dof ≤
      (assign_edge_dofs sampleSpace (assign_vertex_dofs sampleSpace sampleState)).next_dof ∧
    (assign_edge_dofs sampleSpace (assign_vertex_dofs sampleSpace sampleState)).next_dof ≤
      (assign_dofs_passes sampleSpace sampleState).next_dof ∧
    (∀ o k, Owns sampleSpace (assign_dofs_passes sampleSpace sampleState)
        (sampleSpace.mesh.active.map (·.id)) o k →
      k < (assign_dofs_passes sampleSpace sampleState).next_dof) :=
  (next_dof_monotone sampleSpace sampleState sampleSpace_wellFormed
    (sampleSpace_edgeOrders sampleState) (by decide) (fun _ => rfl)).2.2.2

theorem assign_bubble_dofs_order (sp : Space) (st : SpaceState) (id : Nat) :
    ((assign_bubble_dofs sp st).edata id).order = (st.edata id).order := by
  unfold assign_bubble_dofs
  refine foldl_preserves (fun s : SpaceState => (s.edata id).order = (st.edata id).order)
    _ _ ?_ _ rfl
  intro s e _ hs
  rw [← hs]
  simp only [assign_bubble_dofs_element]
  by_cases h : id = e.id
  · subst h; simp
  · rw [Function.update_noteq h]

theorem assign_dofs_passes_order (sp : Space) (st : SpaceState) (id : Nat) :
    get_element_order (assign_dofs_passes sp st) id = get_element_order st id := by
  unfold get_element_order assign_dofs_passes
  rw [assign_bubble_dofs_order, assign_edge_dofs_edata, assign_vertex_dofs_edata]

/-- After the three passes, a vertex that is not hanging and an edge that is
eligible or has `n` different from `-1`, of an active element of positive
order, do not carry the unassigned marker. -/
theorem assign_dofs_passes_visited (sp : Space) (st : SpaceState) (hwf : WellFormed sp)
    (hord : EdgeOrdersPositive sp st) (h0 : 0 ≤ st.next_dof) (e : Element)
    (he : e ∈ sp.mesh.active) (ho : 0 < get_element_order st e.id) (i : Nat)
    (hi : i < e.nvert) :
    ((sp.mesh.node (e.vn i)).is_constrained_vertex = false →
      ((assign_dofs_passes sp st).ndata (e.vn i)).dof ≠ sp.H2D_UNASSIGNED_DOF) ∧
    (((assign_dofs_passes sp st).ndata (e.en i)).dof ≠ sp.H2D_UNASSIGNED_DOF ∨
      (edge_eligible sp (e.en i) = false ∧ ((assign_dofs_passes sp st).ndata (e.en i)).n = -1)) := by
  have hnd : (assign_dofs_passes sp st).ndata =
      (assign_edge_dofs sp (assign_vertex_dofs sp st)).ndata :=
    (assign_bubble_dofs_counts sp _).1
  rw [hnd]
  constructor
  · intro hc
    have h1 := assign_vertex_dofs_visited sp st hwf h0 e he ho i hi hc
    rw [assign_edge_dofs_stable sp _ (e.vn i) h1]
    exact h1
  · exact assign_edge_dofs_visited sp _ hwf
      (edgeOrdersPositive_of_edata sp st _ (assign_vertex_dofs_edata sp st) hord)
      (le_trans h0 (assign_vertex_dofs_next_dof sp st)) e he
      (by simpa [get_element_order, assign_vertex_dofs_edata] using ho) i hi

/-- C9, as stated, fails: after the three passes on the first-order triangle
the edge node 3 is not constrained (`n = 0`), and its dof 3 is neither below
`next_dof = 3` nor the constrained marker. -/
theorem edge_dof_range_counterexample :
    sampleTriangle ∈ sampleSpace.mesh.active ∧
      0 < get_element_order sampleState sampleTriangle.id ∧
      ((assign_dofs_passes sampleSpace sampleState).ndata (sampleTriangle.en 0)).n ≠ -1 ∧
      ((assign_dofs_passes sampleSpace sampleState).ndata (sampleTriangle.en 0)).dof ≠
        sampleSpace.H2D_CONSTRAINED_DOF ∧
      ¬ (0 ≤ ((assign_dofs_passes sampleSpace sampleState).ndata (sampleTriangle.en 0)).dof ∧
        ((assign_dofs_passes sampleSpace sampleState).ndata (sampleTriangle.en 0)).dof <
          (assign_dofs_passes sampleSpace sampleState).next_dof) := by
  refine ⟨List.mem_singleton.2 rfl, by decide, by decide, by decide, by decide⟩

/-- C9, amended. After the three passes from a state without assigned dofs
and with `next_dof >= 0`, a vertex that is not hanging, of an active element
of positive order, has the constrained marker or a dof in `[0, next_dof)`;
an edge of such an element with `n` different from `-1` has the constrained
marker or a block `[dof, dof + n)` with `0 <= dof`, `0 <= n` and
`dof + n <= next_dof` (so its dof is at most `next_dof`, and below it when
the edge has a function). -/
theorem assign_dofs_node_range (sp : Space) (st : SpaceState) (hwf : WellFormed sp)
    (hord : EdgeOrdersPositive sp st) (h0 : 0 ≤ st.next_dof)
    (hun : ∀ id, (st.ndata id).dof = sp.H2D_UNASSIGNED_DOF) (e : Element)
    (he : e ∈ sp.mesh.active) (ho : 0 < get_element_order st e.id) (i : Nat)
    (hi : i < e.nvert) :
    ((sp.mesh.node (e.vn i)).is_constrained_vertex = false →
      ((assign_dofs_passes sp st).ndata (e.vn i)).dof = sp.H2D_CONSTRAINED_DOF ∨
      (0 ≤ ((assign_dofs_passes sp st).ndata (e.vn i)).dof ∧
        ((assign_dofs_passes sp st).ndata (e.vn i)).dof < (assign_dofs_passes sp st).next_dof)) ∧
    (((assign_dofs_passes sp st).ndata (e.en i)).n ≠ -1 →
      ((assign_dofs_passes sp st).ndata (e.en i)).dof = sp.H2D_CONSTRAINED_DOF ∨
      (0 ≤ ((assign_dofs_passes sp st).ndata (e.en i)).dof ∧
        0 ≤ ((assign_dofs_passes sp st).ndata (e.en i)).n ∧
        ((assign_dofs_passes sp st).ndata (e.en i)).dof +
            ((assign_dofs_passes sp st).ndata (e.en i)).n ≤
          (assign_dofs_passes sp st).next_dof)) := by
  have hinv := assign_dofs_passes_inv sp st hwf hord h0 hun
  obtain ⟨hv, hedge⟩ := assign_dofs_passes_visited sp st hwf hord h0 e he ho i hi
  constructor
  · intro hc
    have h1 := hv hc
    by_cases hneg : ((assign_dofs_passes sp st).ndata (e.vn i)).dof < 0
    · rcases hinv.sentinel _ hneg with h | h
      · exact absurd h h1
      · exact Or.inl h
    · right
      have hown : Owns sp (assign_dofs_passes sp st) (sp.mesh.active.map (·.id))
          (DofOwner.vertex (e.vn i)) ((assign_dofs_passes sp st).ndata (e.vn i)).dof :=
        ⟨hwf.vertex_type e he i hi, not_lt.1 hneg, rfl⟩
      exact ⟨not_lt.1 hneg, (hinv.part.bound _ _ hown).2⟩
  · intro hn
    have h1 : ((assign_dofs_passes sp st).ndata (e.en i)).dof ≠ sp.H2D_UNASSIGNED_DOF := by
      rcases hedge with h | ⟨_, h⟩
      · exact h
      · exact absurd h hn
    by_cases hneg : ((assign_dofs_passes sp st).ndata (e.en i)).dof < 0
    · rcases hinv.sentinel _ hneg with h | h
      · exact absurd h h1
      · exact Or.inl h
    · right
      have := hinv.edge_block (e.en i) (hwf.edge_type e he i hi) (not_lt.1 hneg)
      exact ⟨not_lt.1 hneg, this.1, this.2.2⟩

/-- The witness of the amended C9 on the first-order triangle. -/
theorem assign_dofs_node_range_witness :
    ((sampleSpace.mesh.node (sampleTriangle.vn 0)).is_constrained_vertex = false →
      ((assign_dofs_passes sampleSpace sampleState).ndata (sampleTriangle.vn 0)).dof =
          sampleSpace.H2D_CONSTRAINED_DOF ∨
      (0 ≤ ((assign_dofs_passes sampleSpace sampleState).ndata (sampleTriangle.vn 0)).dof ∧
        ((assign_dofs_passes sampleSpace sampleState).ndata (sampleTriangle.vn 0)).dof <
          (assign_dofs_passes sampleSpace sampleState).next_dof)) ∧
    (((assign_dofs_passes sampleSpace sampleState).ndata (sampleTriangle.en 0)).n ≠ -1 →
      ((assign_dofs_passes sampleSpace sampleState).ndata (sampleTriangle.en 0)).dof =
          sampleSpace.H2D_CONSTRAINED_DOF ∨
      (0 ≤ ((assign_dofs_passes sampleSpace sampleState).ndata (sampleTriangle.en 0)).dof ∧
        0 ≤ ((assign_dofs_passes sampleSpace sampleState).ndata (sampleTriangle.en 0)).n ∧
        ((assign_dofs_passes sampleSpace sampleState).ndata (sampleTriangle.en 0)).dof +
            ((assign_dofs_passes sampleSpace sampleState).ndata (sampleTriangle.en 0)).n ≤
          (assign_dofs_passes sampleSpace sampleState).next_dof)) :=
  assign_dofs_node_range sampleSpace sampleState sampleSpace_wellFormed
    (sampleSpace_edgeOrders sampleState) (by decide) (fun _ => rfl) sampleTriangle
    (List.mem_singleton.2 rfl) (by decide) 0 (by decide)

/-- C10. Running the vertex and the edge pass again after a full assignment,
without resetting anything: the node data stay as they are, so every node
with an assigned dof or the constrained marker keeps its dof and its `n`, and
`next_dof` is unchanged. -/
theorem assign_dofs_rerun (sp : Space) (st : SpaceState) (hwf : WellFormed sp)
    (hord : EdgeOrdersPositive sp st) (h0 : 0 ≤ st.next_dof) :
    (∀ id, (0 ≤ ((assign_dofs_passes sp st).ndata id).dof ∨
        ((assign_dofs_passes sp st).ndata id).dof = sp.H2D_CONSTRAINED_DOF) →
      ((assign_edge_dofs sp (assign_vertex_dofs sp (assign_dofs_passes sp st))).ndata id).dof =
          ((assign_dofs_passes sp st).ndata id).dof ∧
        ((assign_edge_dofs sp (assign_vertex_dofs sp (assign_dofs_passes sp st))).ndata id).n =
          ((assign_dofs_passes sp st).ndata id).n) ∧
    (assign_edge_dofs sp (assign_vertex_dofs sp (assign_dofs_passes sp st))).ndata =
      (assign_dofs_passes sp st).ndata ∧
    (assign_vertex_dofs sp (assign_dofs_passes sp st)).next_dof =
      (assign_dofs_passes sp st).next_dof ∧
    (assign_edge_dofs sp (assign_vertex_dofs sp (assign_dofs_passes sp st))).next_dof =
      (assign_dofs_passes sp st).next_dof := by
  set st1 := assign_dofs_passes sp st with hst1
  have hvis : ∀ p ∈ visit_list st1.edata sp.mesh.active,
      ((sp.mesh.node (p.1.vn p.2)).is_constrained_vertex = false →
        (st1.ndata (p.1.vn p.2)).dof ≠ sp.H2D_UNASSIGNED_DOF) ∧
      ((st1.ndata (p.1.en p.2)).dof ≠ sp.H2D_UNASSIGNED_DOF ∨
        (edge_eligible sp (p.1.en p.2) = false ∧ (st1.ndata (p.1.en p.2)).n = -1)) := by
    intro p hp
    obtain ⟨he, ho, hi⟩ := (mem_visit_list _ _ p).1 hp
    have ho' : 0 < get_element_order st p.1.id := by
      rw [← assign_dofs_passes_order sp st]; exact ho
    exact assign_dofs_passes_visited sp st hwf hord h0 p.1 he ho' p.2 hi
  have hv : assign_vertex_dofs sp st1 = { st1 with vertex_functions_count := 0 } := by
    rw [assign_vertex_dofs_flat]
    refine foldl_preserves
      (fun s : SpaceState => s = { st1 with vertex_functions_count := 0 }) _ _ ?_ _ rfl
    intro s p hp hs
    rw [hs]
    apply assign_vertex_dofs_visit_skip
    by_cases hc : (sp.mesh.node (p.1.vn p.2)).is_constrained_vertex = true
    · exact Or.inl hc
    · exact Or.inr ((hvis p hp).1 (by simpa using hc))
  have hedge : assign_edge_dofs sp { st1 with vertex_functions_count := 0 } =
      { st1 with vertex_functions_count := 0, edge_functions_count := 0 } := by
    rw [assign_edge_dofs_flat]
    refine foldl_preserves
      (fun s : SpaceState =>
        s = { st1 with vertex_functions_count := 0, edge_functions_count := 0 }) _ _ ?_ _ rfl
    intro s p hp hs
    rw [hs]
    rcases (hvis p hp).2 with h | ⟨hel, hn⟩
    · exact assign_edge_dofs_visit_skip sp p.1
        { st1 with vertex_functions_count := 0, edge_functions_count := 0 } p.2 h
    · by_cases hd : (st1.ndata (p.1.en p.2)).dof = sp.H2D_UNASSIGNED_DOF
      · rw [assign_edge_dofs_visit_ineligible sp p.1
          { st1 with vertex_functions_count := 0, edge_functions_count := 0 } p.2 hd hel]
        have hnd : ({ st1.ndata (p.1.en p.2) with n := -1 } : NodeData) =
            st1.ndata (p.1.en p.2) := by
          rw [← hn]
        simp only [hnd, Function.update_eq_self]
      · exact assign_edge_dofs_visit_skip sp p.1
          { st1 with vertex_functions_count := 0, edge_functions_count := 0 } p.2 hd
  rw [hv, hedge]
  exact ⟨fun _ _ => ⟨rfl, rfl⟩, rfl, rfl, rfl⟩

/-- The witness of C10 on the first-order triangle. -/
theorem assign_dofs_rerun_witness :
    (assign_edge_dofs sampleSpace
        (assign_vertex_dofs sampleSpace (assign_dofs_passes sampleSpace sampleState))).ndata =
      (assign_dofs_passes sampleSpace sampleState).ndata ∧
    (assign_vertex_dofs sampleSpace (assign_dofs_passes sampleSpace sampleState)).next_dof =
      (assign_dofs_passes sampleSpace sampleState).next_dof ∧
    (assign_edge_dofs sampleSpace
        (assign_vertex_dofs sampleSpace (assign_dofs_passes sampleSpace sampleState))).next_dof =
      (assign_dofs_passes sampleSpace sampleState).next_dof :=
  (assign_dofs_rerun sampleSpace sampleState sampleSpace_wellFormed
    (sampleSpace_edgeOrders sampleState) (by decide)).2

/-! ### Assembly lists -/

theorem foldl_add_nonzero (index : Int) (l : List BaseComponent) :
    ∀ al : List Triplet,
      l.foldl (fun al b => if b.coef ≠ 0 then add_triplet al index b.dof b.coef else al) al =
        al ++ (l.filter (fun b => decide (b.coef ≠ 0))).map
          (fun b => { idx := index, dof := b.dof, coef := b.coef }) := by
  induction l with
  | nil => intro al; simp
  | cons b l ih =>
    intro al
    rw [List.foldl_cons, ih]
    by_cases h : b.coef = 0
    · simp [h]
    · simp [h, add_triplet]

theorem foldl_add_triplet (f : Nat → Triplet) (l : List Nat) :
    ∀ al : List Triplet,
      l.foldl (fun al j => add_triplet al (f j).idx (f j).dof (f j).coef) al = al ++ l.map f := by
  induction l with
  | nil => intro al; simp
  | cons j l ih =>
    intro al
    rw [List.foldl_cons, ih]
    simp [add_triplet]

theorem foldlM_add_proj (proj : List ℚ) (idx : Nat → Int) (l : List Nat)
    (h : ∀ j ∈ l, j + 2 < proj.length) :
    ∀ al : List Triplet,
      l.foldlM
        (fun al (j : Nat) =>
          match proj.get? (j + 2) with
          | some c => some (add_triplet al (idx j) (-1) c)
          | none => none) al =
        some (al ++ l.map (fun j => { idx := idx j, dof := -1, coef := proj.getD (j + 2) 0 })) := by
  induction l with
  | nil => intro al; simp
  | cons j l ih =>
    intro al
    have hj : j + 2 < proj.length := h j (List.mem_cons_self _ _)
    have hg : proj.get? (j + 2) = some (proj.getD (j + 2) 0) := by
      rw [List.getD_eq_getElem?_getD, List.get?_eq_getElem?, List.getElem?_eq_getElem hj]
      rfl
    rw [List.foldlM_cons, hg]
    simp only [Option.some_bind, Option.bind_eq_bind]
    rw [ih (fun x hx => h x (List.mem_cons_of_mem _ hx))]
    simp [add_triplet]

/-- C12. `get_vertex_assembly_list` appends for an unconstrained vertex the
one triplet `(index, dof, c)` with `c = 1` for a free dof and `c` the stored
`vertex_bc_coef` otherwise; for a hanging vertex it appends, in baselist
order, one triplet `(index, dof_j, coef_j)` per baselist entry with nonzero
coefficient, and none for an entry with coefficient zero. -/
theorem get_vertex_assembly_list_spec (sp : Space) (ndata : Nat → NodeData) (e : Element)
    (iv : Nat) (al : List Triplet) :
    ((sp.mesh.node (e.vn iv)).is_constrained_vertex = false →
      (0 ≤ (ndata (e.vn iv)).dof →
        get_vertex_assembly_list sp ndata e iv al =
          some (al ++ [{ idx := sp.shapeset.get_vertex_index iv e.mode,
                         dof := (ndata (e.vn iv)).dof, coef := 1 }])) ∧
      (∀ c, (ndata (e.vn iv)).dof < 0 → (ndata (e.vn iv)).vertex_bc_coef = some c →
        get_vertex_assembly_list sp ndata e iv al =
          some (al ++ [{ idx := sp.shapeset.get_vertex_index iv e.mode,
                         dof := (ndata (e.vn iv)).dof, coef := c }]))) ∧
    ((sp.mesh.node (e.vn iv)).is_constrained_vertex = true →
      (ndata (e.vn iv)).ncomponents ≤ (ndata (e.vn iv)).baselist.length →
      get_vertex_assembly_list sp ndata e iv al =
        some (al ++
          (((ndata (e.vn iv)).baselist.take (ndata (e.vn iv)).ncomponents).filter
            (fun b => decide (b.coef ≠ 0))).map
            (fun b => { idx := sp.shapeset.get_vertex_index iv e.mode,
                        dof := b.dof, coef := b.coef }))) := by
  refine ⟨fun hc => ⟨?_, ?_⟩, ?_⟩
  · intro hd
    simp [get_vertex_assembly_list, hc, hd, add_triplet]
  · intro c hd hv
    simp [get_vertex_assembly_list, hc, not_le.2 hd, hv, add_triplet]
  · intro hc hl
    unfold get_vertex_assembly_list
    simp only [hc, Bool.not_true, Bool.false_eq_true, if_false, hl, if_true]
    rw [foldl_add_nonzero]

/-- The witness of C12: the free vertex 0, the vertex 1 fixed by a boundary
condition, and the hanging vertex 2, whose zero coefficient is left out. -/
theorem get_vertex_assembly_list_spec_witness :
    get_vertex_assembly_list sampleAsmSpace sampleAsmNdata sampleTriangle 0 [] =
        some [{ idx := 0, dof := 0, coef := 1 }] ∧
      get_vertex_assembly_list sampleAsmSpace sampleAsmNdata sampleTriangle 1 [] =
        some [{ idx := 1, dof := -1, coef := 7 / 2 }] ∧
      get_vertex_assembly_list sampleAsmSpace sampleAsmNdata sampleTriangle 2 [] =
        some [{ idx := 2, dof := 0, coef := 1 / 2 }, { idx := 2, dof := 9, coef := 1 / 4 }] :=
  have h := get_vertex_assembly_list_spec sampleAsmSpace sampleAsmNdata sampleTriangle
  ⟨by simpa [sampleAsmNdata, sampleTriangle, sampleAsmSpace, sampleSpace, sampleShapeset]
      using ((h 0 []).1 rfl).1 (by decide),
    by simpa [sampleAsmNdata, sampleTriangle, sampleAsmSpace, sampleSpace, sampleShapeset]
      using ((h 1 []).1 rfl).2 (7 / 2) (by decide) rfl,
    by simpa [sampleAsmNdata, sampleTriangle, sampleAsmSpace, sampleSpace, sampleShapeset]
      using (h 2 []).2 rfl (by decide)⟩

/-- C13. For an unconstrained edge node (`n >= 0`),
`get_boundary_assembly_list_internal` appends `n` triplets. With a free dof
the `j`-th one is `(get_edge_index(surf_num, ori, j + 2), dof + j, 1)`, where
`ori = 0` iff the id of the first vertex of the edge is below the id of the
next one; an element that runs through the same edge node between the same
two vertices in the opposite direction gets the other flag and the same dofs.
With a dof fixed by a boundary condition the `j`-th triplet is
`(get_edge_index(surf_num, 0, j + 2), -1, edge_bc_proj[j + 2])`. -/
theorem get_boundary_assembly_list_unconstrained (sp : Space) (ndata : Nat → NodeData)
    (e : Element) (surf_num : Nat) (al : List Triplet)
    (hn : 0 ≤ (ndata (e.en surf_num)).n) :
    (0 ≤ (ndata (e.en surf_num)).dof →
      get_boundary_assembly_list_internal sp ndata e surf_num al =
        some (al ++ (List.range (ndata (e.en surf_num)).n.toNat).map fun (j : Nat) =>
          { idx := sp.shapeset.get_edge_index surf_num (edge_orientation e surf_num)
              ((j : Int) + 2) e.mode
            dof := (ndata (e.en surf_num)).dof + (j : Int)
            coef := 1 })) ∧
    (edge_orientation e surf_num = 0 ↔ e.vn surf_num < e.vn (next_vert e surf_num)) ∧
    (edge_orientation e surf_num = 0 ∨ edge_orientation e surf_num = 1) ∧
    (∀ (e' : Element) (s' : Nat) (l l' : List Triplet), e'.en s' = e.en surf_num →
      e'.vn s' = e.vn (next_vert e surf_num) → e'.vn (next_vert e' s') = e.vn surf_num →
      e.vn surf_num ≠ e.vn (next_vert e surf_num) →
      edge_orientation e surf_num + edge_orientation e' s' = 1 ∧
      (0 ≤ (ndata (e.en surf_num)).dof →
        get_boundary_assembly_list_internal sp ndata e surf_num [] = some l →
        get_boundary_assembly_list_internal sp ndata e' s' [] = some l' →
        l.map (·.dof) = l'.map (·.dof))) ∧
    ((ndata (e.en surf_num)).dof < 0 →
      (ndata (e.en surf_num)).n.toNat + 2 ≤ (ndata (e.en surf_num)).edge_bc_proj.length →
      get_boundary_assembly_list_internal sp ndata e surf_num al =
        some (al ++ (List.range (ndata (e.en surf_num)).n.toNat).map fun (j : Nat) =>
          { idx := sp.shapeset.get_edge_index surf_num 0 ((j : Int) + 2) e.mode
            dof := -1
            coef := (ndata (e.en surf_num)).edge_bc_proj.getD (j + 2) 0 })) := by
  have hfree : ∀ (e : Element) (s : Nat) (al : List Triplet), 0 ≤ (ndata (e.en s)).n →
      0 ≤ (ndata (e.en s)).dof →
      get_boundary_assembly_list_internal sp ndata e s al =
        some (al ++ (List.range (ndata (e.en s)).n.toNat).map fun (j : Nat) =>
          { idx := sp.shapeset.get_edge_index s (edge_orientation e s) ((j : Int) + 2) e.mode
            dof := (ndata (e.en s)).dof + (j : Int)
            coef := 1 }) := by
    intro e s al hn hd
    unfold get_boundary_assembly_list_internal
    simp only [hn, hd, if_true]
    exact congrArg some (foldl_add_triplet
      (fun j => { idx := sp.shapeset.get_edge_index s (edge_orientation e s) ((j : Int) + 2)
                    e.mode
                  dof := (ndata (e.en s)).dof + (j : Int)
                  coef := 1 }) _ al)
  refine ⟨hfree e surf_num al hn, ?_, ?_, ?_, ?_⟩
  · unfold edge_orientation
    by_cases h : e.vn surf_num < e.vn (next_vert e surf_num) <;> simp [h]
  · unfold edge_orientation
    by_cases h : e.vn surf_num < e.vn (next_vert e surf_num) <;> simp [h]
  · intro e' s' l l' hen hv0 hv1 hne
    constructor
    · unfold edge_orientation
      rw [hv0, hv1]
      by_cases h : e.vn surf_num < e.vn (next_vert e surf_num)
      · simp [h, not_lt.2 (le_of_lt h)]
      · have h' : e.vn (next_vert e surf_num) < e.vn surf_num :=
          lt_of_le_of_ne (not_lt.1 h) (Ne.symm hne)
        simp [h, h']
    · intro hd hl hl'
      rw [hfree e surf_num [] hn hd] at hl
      rw [hfree e' s' [] (by rw [hen]; exact hn) (by rw [hen]; exact hd)] at hl'
      cases hl
      cases hl'
      simp [List.map_map, Function.comp_def, hen]
  · intro hd hlen
    unfold get_boundary_assembly_list_internal
    simp only [hn, if_true, not_le.2 hd, if_false]
    exact foldlM_add_proj _ _ _ (by
      intro j hj
      have := List.mem_range.1 hj
      omega) al

/-- The witness of C13: the edge 3 with the dofs 3 and 4, seen from the
sample triangle. -/
theorem get_boundary_assembly_list_unconstrained_witness :
    0 ≤ (sampleAsmNdata (sampleTriangle.en 0)).n ∧
    0 ≤ (sampleAsmNdata (sampleTriangle.en 0)).dof ∧
    get_boundary_assembly_list_internal sampleAsmSpace sampleAsmNdata sampleTriangle 0 [] =
      some ([] ++ (List.range (sampleAsmNdata (sampleTriangle.en 0)).n.toNat).map
        fun (j : Nat) =>
          { idx := sampleAsmSpace.shapeset.get_edge_index 0 (edge_orientation sampleTriangle 0)
              ((j : Int) + 2) sampleTriangle.mode
            dof := (sampleAsmNdata (sampleTriangle.en 0)).dof + (j : Int)
            coef := 1 }) :=
  ⟨by decide, by decide,
    (get_boundary_assembly_list_unconstrained sampleAsmSpace sampleAsmNdata sampleTriangle 0 []
      (by decide)).1 (by decide)⟩

/-- C14. For every part code `part >= 0` and orientation `ori` in `{0, 1}`,
what `update_constrained_nodes` stores in a constrained edge node is decoded
by `get_boundary_assembly_list_internal` back to the same `(part, ori)`, and
the list for that edge has one triplet per edge function of the base edge
node: `(get_constrained_edge_index(surf_num, j + 2, ori, part), base.dof + j,
1)`. -/
theorem constrained_edge_roundtrip (sp : Space) (ndata : Nat → NodeData) (e : Element)
    (surf_num : Nat) (al : List Triplet) (nd0 : NodeData) (ei : EdgeInfo)
    (hpart : 0 ≤ ei.part) (hori : ei.ori = 0 ∨ ei.ori = 1)
    (hstore : ndata (e.en surf_num) = store_edge_info nd0 ei)
    (hn : (ndata (e.en surf_num)).n < 0) :
    (if (store_edge_info nd0 ei).part < 0 then (1 : Int) else 0) = ei.ori ∧
    (if (store_edge_info nd0 ei).part < 0 then flip_bits (store_edge_info nd0 ei).part
      else (store_edge_info nd0 ei).part) = ei.part ∧
    get_boundary_assembly_list_internal sp ndata e surf_num al =
      some (al ++ (List.range (ndata ei.node).n.toNat).map fun (j : Nat) =>
        { idx := sp.shapeset.get_constrained_edge_index surf_num ((j : Int) + 2) ei.ori ei.part
            e.mode
          dof := (ndata ei.node).dof + (j : Int)
          coef := 1 }) := by
  have h1 : (if (store_edge_info nd0 ei).part < 0 then (1 : Int) else 0) = ei.ori := by
    rcases hori with h | h
    · simp [store_edge_info, h, not_lt.2 hpart]
    · have : flip_bits ei.part < 0 := by unfold flip_bits; omega
      simp [store_edge_info, h, this]
  have h2 : (if (store_edge_info nd0 ei).part < 0 then flip_bits (store_edge_info nd0 ei).part
      else (store_edge_info nd0 ei).part) = ei.part := by
    rcases hori with h | h
    · simp [store_edge_info, h, not_lt.2 hpart]
    · have : flip_bits ei.part < 0 := by unfold flip_bits; omega
      have hp : (store_edge_info nd0 ei).part = flip_bits ei.part := by
        simp [store_edge_info, h]
      rw [hp, if_pos this]
      unfold flip_bits
      omega
  refine ⟨h1, h2, ?_⟩
  unfold get_boundary_assembly_list_internal
  have hb : (ndata (e.en surf_num)).base = some ei.node := by rw [hstore]; rfl
  simp only [not_le.2 hn, if_false, hb]
  rw [hstore, h1, h2]
  exact congrArg some (foldl_add_triplet
    (fun j => { idx := sp.shapeset.get_constrained_edge_index surf_num ((j : Int) + 2) ei.ori
                  ei.part e.mode
                dof := (ndata ei.node).dof + (j : Int)
                coef := 1 }) _ al)

/-- The witness of C14: the edge 5 of the sample triangle, constrained by the
edge 3 on the part 1 in reversed orientation. -/
theorem constrained_edge_roundtrip_witness :
    get_boundary_assembly_list_internal sampleAsmSpace sampleAsmNdata sampleTriangle 2 [] =
      some ([] ++ (List.range (sampleAsmNdata 3).n.toNat).map fun (j : Nat) =>
        { idx := sampleAsmSpace.shapeset.get_constrained_edge_index 2 ((j : Int) + 2) 1 1
            sampleTriangle.mode
          dof := (sampleAsmNdata 3).dof + (j : Int)
          coef := 1 }) :=
  (constrained_edge_roundtrip sampleAsmSpace sampleAsmNdata sampleTriangle 2 []
    { dof := -2, n := -1 } { node := 3, part := 1, ori := 1, lo := 0, hi := 1 }
    (by decide) (Or.inr rfl) rfl (by decide)).2.2

/-- C16. The two half-edge infos built from an edge info with interval
`[lo, hi]` and code `part`: the first has `[lo, (lo + hi) / 2]` and the code
`(part + 1) * 2`, the second `[(lo + hi) / 2, hi]` and `(part + 1) * 2 + 1`
(one more than the first), both with the node and the orientation of the
parent; without an edge info both are null. -/
theorem half_edge_infos_spec (ei : EdgeInfo) :
    (∃ h0 h1, half_edge_infos (some ei) = (some h0, some h1) ∧
      h0.lo = ei.lo ∧ h0.hi = (ei.lo + ei.hi) / 2 ∧ h0.part = (ei.part + 1) * 2 ∧
      h1.lo = (ei.lo + ei.hi) / 2 ∧ h1.hi = ei.hi ∧ h1.part = (ei.part + 1) * 2 + 1 ∧
      h1.part = h0.part + 1 ∧ h0.hi = h1.lo ∧
      h0.node = ei.node ∧ h1.node = ei.node ∧ h0.ori = ei.ori ∧ h1.ori = ei.ori) ∧
    half_edge_infos none = (none, none) :=
  ⟨⟨_, _, rfl, rfl, rfl, rfl, rfl, rfl, rfl, rfl, rfl, rfl, rfl, rfl, rfl⟩, rfl⟩

/-- C18. `H1Space::init` with `assign_dofs_init = true` throws iff
`p_init < 1`; when it throws, neither `set_uniform_order_internal` nor
`assign_dofs` was called; for `p_init >= 1` it calls
`set_uniform_order_internal(p_init, HERMES_ANY_INT)` and then `assign_dofs`,
as its last two calls. -/
theorem init_exception_iff (shapeset_null : Bool) (p_init any_int : Int) :
    ((init shapeset_null p_init true any_int).exception.isSome = true ↔ p_init < 1) ∧
    ((init shapeset_null p_init true any_int).exception.isSome = true →
      InitCall.assign_dofs ∉ (init shapeset_null p_init true any_int).calls ∧
      ∀ o m, InitCall.set_uniform_order_internal o m ∉
        (init shapeset_null p_init true any_int).calls) ∧
    (1 ≤ p_init →
      (init shapeset_null p_init true any_int).exception = none ∧
      ∃ pre, (init shapeset_null p_init true any_int).calls =
          pre ++ [InitCall.set_uniform_order_internal p_init any_int, InitCall.assign_dofs] ∧
        InitCall.assign_dofs ∉ pre ∧ ∀ o m, InitCall.set_uniform_order_internal o m ∉ pre) := by
  by_cases hp : p_init < 1
  · refine ⟨by simp [init, hp], ?_, fun h => absurd hp (not_lt.2 h)⟩
    intro _
    cases shapeset_null <;> simp [init, hp]
  · refine ⟨by simp [init, hp], by simp [init, hp], fun _ => ?_⟩
    refine ⟨by simp [init, hp], ?_⟩
    cases shapeset_null
    · exact ⟨[InitCall.precalculate_projection_matrix], by simp [init, hp], by simp, by simp⟩
    · exact ⟨[InitCall.new_H1Shapeset, InitCall.precalculate_projection_matrix],
        by simp [init, hp], by simp, by simp⟩

/-- The witness of C18: `p_init = 0` throws before any order is set, and
`p_init = 2` sets the order and assigns the dofs. -/
theorem init_exception_iff_witness :
    (init true 0 true (-1234)).exception.isSome = true ∧
    InitCall.assign_dofs ∉ (init true 0 true (-1234)).calls ∧
    (init true 2 true (-1234)).exception = none ∧
    ∃ pre, (init true 2 true (-1234)).calls =
        pre ++ [InitCall.set_uniform_order_internal 2 (-1234), InitCall.assign_dofs] ∧
      InitCall.assign_dofs ∉ pre ∧ ∀ o m, InitCall.set_uniform_order_internal o m ∉ pre :=
  ⟨by decide, ((init_exception_iff true 0 (-1234)).2.1 (by decide)).1,
    (init_exception_iff true 2 (-1234)).2.2 (by decide)⟩

theorem prepare_sparse_structure_same (b : SelectiveAssembler) (seqs : List Int)
    (h1 : b.spaces_size = seqs.length) (h2 : b.sp_seq = seqs) :
    prepare_sparse_structure b seqs = { b with matrix_structure_reusable := true } := by
  unfold prepare_sparse_structure
  simp [h1, h2]

theorem prepare_sparse_structure_differ (b : SelectiveAssembler) (seqs : List Int)
    (h : b.spaces_size ≠ seqs.length ∨ b.sp_seq ≠ seqs) :
    prepare_sparse_structure b seqs =
      { spaces_size := seqs.length
        sp_seq := seqs
        matrix_structure_reusable := false
        enumerations := b.enumerations + 1 } := by
  unfold prepare_sparse_structure
  rw [if_pos h]

theorem prepare_sparse_structure_snapshot (a : SelectiveAssembler) (seqs : List Int) :
    (prepare_sparse_structure a seqs).spaces_size = seqs.length ∧
      (prepare_sparse_structure a seqs).sp_seq = seqs := by
  by_cases h : a.spaces_size ≠ seqs.length ∨ a.sp_seq ≠ seqs
  · rw [prepare_sparse_structure_differ a seqs h]
    exact ⟨rfl, rfl⟩
  · simp only [not_or, not_not] at h
    rw [prepare_sparse_structure_same a seqs h.1 h.2]
    exact ⟨h.1, h.2⟩

/-- C20. Two consecutive `prepare_sparse_structure` calls with the same
sequence numbers: the second declares the structure reusable and does not
enumerate the pattern again. A call whose space count or one of whose
sequence numbers differs from the snapshot rebuilds the structure and
refreshes the snapshot to the new values. -/
theorem prepare_sparse_structure_reuse (a : SelectiveAssembler) (seqs seqs' : List Int) :
    (prepare_sparse_structure (prepare_sparse_structure a seqs) seqs).matrix_structure_reusable =
        true ∧
      (prepare_sparse_structure (prepare_sparse_structure a seqs) seqs).enumerations =
        (prepare_sparse_structure a seqs).enumerations ∧
      (prepare_sparse_structure (prepare_sparse_structure a seqs) seqs).sp_seq = seqs ∧
      (prepare_sparse_structure (prepare_sparse_structure a seqs) seqs).spaces_size =
        seqs.length ∧
      ((seqs'.length ≠ seqs.length ∨ ∃ i, seqs'.get? i ≠ seqs.get? i) →
        (prepare_sparse_structure (prepare_sparse_structure a seqs) seqs').enumerations =
            (prepare_sparse_structure a seqs).enumerations + 1 ∧
          (prepare_sparse_structure (prepare_sparse_structure a seqs) seqs').sp_seq = seqs' ∧
          (prepare_sparse_structure (prepare_sparse_structure a seqs) seqs').spaces_size =
            seqs'.length ∧
          (prepare_sparse_structure (prepare_sparse_structure a seqs)
            seqs').matrix_structure_reusable = false) := by
  obtain ⟨h1, h2⟩ := prepare_sparse_structure_snapshot a seqs
  rw [prepare_sparse_structure_same _ seqs h1 h2]
  refine ⟨rfl, rfl, h2, h1, ?_⟩
  intro hd
  have hne : (prepare_sparse_structure a seqs).spaces_size ≠ seqs'.length ∨
      (prepare_sparse_structure a seqs).sp_seq ≠ seqs' := by
    rw [h1, h2]
    rcases hd with hd | ⟨i, hi⟩
    · exact Or.inl (Ne.symm hd)
    · exact Or.inr (fun h => hi (by rw [h]))
  rw [prepare_sparse_structure_differ _ seqs' hne]
  exact ⟨rfl, rfl, rfl, rfl⟩

/-- The witness of C20: after a call with the sequence numbers 3, 5 the same
call reuses the structure, and a call with 3, 6 rebuilds it. -/
theorem prepare_sparse_structure_reuse_witness :
    (∃ i, ([3, 6] : List Int).get? i ≠ ([3, 5] : List Int).get? i) ∧
    (prepare_sparse_structure (prepare_sparse_structure ⟨0, [], false, 0⟩ [3, 5])
        [3, 6]).enumerations =
      (prepare_sparse_structure ⟨0, [], false, 0⟩ [3, 5]).enumerations + 1 :=
  ⟨⟨1, by decide⟩,
    ((prepare_sparse_structure_reuse ⟨0, [], false, 0⟩ [3, 5] [3, 6]).2.2.2.2
      (Or.inr ⟨1, by decide⟩)).1⟩

/-! ### Boundary projection -/

theorem bc_projection_rhs_const (sp : Space) (env : ProjectionEnv) (lo hi v : ℚ) (i : Nat) :
    bc_projection_rhs sp env lo hi (EssentialBoundaryCondition.const v) v v i = 0 := by
  unfold bc_projection_rhs
  have h : ∀ (l : List (ℚ × ℚ)) (acc : ℚ), acc = 0 →
      l.foldl
        (fun acc p =>
          let t := (p.1 + 1) * (1 / 2)
          let s := 1 - t
          let l := v * s + v * t
          acc + p.2 *
            sp.shapeset.get_fn_value (sp.shapeset.get_edge_index 0 0 ((i : Int) + 2) env.mode)
              p.1 (-1) 0 env.mode *
            (bc_value env (EssentialBoundaryCondition.const v) (lo * s + hi * t) - l)) acc = 0 := by
    intro l
    induction l with
    | nil => intro acc h; exact h
    | cons p l ih =>
      intro acc h
      rw [List.foldl_cons]
      apply ih
      simp only [bc_value, h]
      ring
  exact h env.pt 0 rfl

/-- C17. For a constant essential boundary condition with value `v` and an
order of at least one, `get_bc_projection` starts with `proj[0] = proj[1] =
v`; for order one the result is `[v, v]`; for a higher order every integrated
right-hand side is zero, since `v - (v * s + v * t) = 0` for `s + t = 1`, so
that a solver which maps the zero right-hand side to the zero solution gives
`order + 1` coefficients, all zero after the first two. -/
theorem get_bc_projection_const (sp : Space) (env : ProjectionEnv) (lo hi v : ℚ) (order : Int)
    (horder : 1 ≤ order) :
    (get_bc_projection sp env lo hi order (EssentialBoundaryCondition.const v)).take 2 =
        [v, v] ∧
      (order = 1 →
        get_bc_projection sp env lo hi order (EssentialBoundaryCondition.const v) = [v, v]) ∧
      (∀ i, bc_projection_rhs sp env lo hi (EssentialBoundaryCondition.const v) v v i = 0) ∧
      (env.cholsl (order - 1).toNat (List.replicate (order - 1).toNat 0) =
          List.replicate (order - 1).toNat 0 →
        get_bc_projection sp env lo hi order (EssentialBoundaryCondition.const v) =
            [v, v] ++ List.replicate (order - 1).toNat 0 ∧
          ((get_bc_projection sp env lo hi order
            (EssentialBoundaryCondition.const v)).length : Int) = order + 1) := by
  have hrhs : (List.range (order - 1).toNat).map
      (bc_projection_rhs sp env lo hi (EssentialBoundaryCondition.const v) v v) =
      List.replicate (order - 1).toNat 0 := by
    apply List.ext_getElem
    · simp
    · intro n h1 h2
      simp [bc_projection_rhs_const]
  refine ⟨?_, ?_, bc_projection_rhs_const sp env lo hi v, ?_⟩
  · unfold get_bc_projection
    by_cases h : 1 < order <;> simp [h, bc_value]
  · intro h
    simp [get_bc_projection, h, bc_value]
  · intro hs
    have hres : get_bc_projection sp env lo hi order (EssentialBoundaryCondition.const v) =
        [v, v] ++ List.replicate (order - 1).toNat 0 := by
      unfold get_bc_projection
      by_cases h : 1 < order
      · simp only [h, if_true, bc_value, hrhs, hs]
      · have : order = 1 := by omega
        simp [this, bc_value]
    refine ⟨hres, ?_⟩
    rw [hres]
    simp only [List.length_append, List.length_cons, List.length_nil, List.length_replicate]
    omega

/-- The witness of C17: the constant value 5 projected with order 3. -/
theorem get_bc_projection_const_witness :
    (1 : Int) ≤ 3 ∧
    sampleProjectionEnv.cholsl ((3 : Int) - 1).toNat (List.replicate ((3 : Int) - 1).toNat 0) =
      List.replicate ((3 : Int) - 1).toNat 0 ∧
    get_bc_projection sampleSpace sampleProjectionEnv 0 1 3
        (EssentialBoundaryCondition.const 5) =
      [5, 5] ++ List.replicate ((3 : Int) - 1).toNat 0 :=
  ⟨by decide, by simp [sampleProjectionEnv],
    ((get_bc_projection_const sampleSpace sampleProjectionEnv 0 1 5 3 (by decide)).2.2.2
      (by simp [sampleProjectionEnv])).1⟩

/-! ### The completed baselist of a hanging vertex -/

theorem write_cells_overwrite (xs : List BaseComponent) :
    ∀ (pre mid post : List (Option BaseComponent)), mid.length = xs.length →
      write_cells (pre ++ mid ++ post) pre.length xs = some (pre ++ xs.map some ++ post) := by
  induction xs with
  | nil =>
    intro pre mid post h
    have : mid = [] := List.length_eq_zero.1 h
    simp [write_cells, this]
  | cons x xs ih =>
    intro pre mid post h
    cases mid with
    | nil => simp at h
    | cons m mid =>
      have hlt : pre.length < (pre ++ m :: mid ++ post).length := by simp
      rw [write_cells, if_pos hlt]
      have hset : (pre ++ m :: mid ++ post).set pre.length (some x) =
          (pre ++ [some x]) ++ mid ++ post := by
        simp [List.set_append]
      rw [hset]
      have := ih (pre ++ [some x]) mid post (by simpa using h)
      simp only [List.length_append, List.length_singleton] at this
      rw [this]
      simp

theorem strictAsc_of_map_dof (l l' : List BaseComponent)
    (h : l.map (·.dof) = l'.map (·.dof)) (hl : StrictAsc l) : StrictAsc l' := by
  unfold StrictAsc at *
  rw [← h]; exact hl

theorem strictAsc_append (l1 l2 : List BaseComponent) :
    StrictAsc (l1 ++ l2) ↔
      StrictAsc l1 ∧ StrictAsc l2 ∧ ∀ a ∈ l1, ∀ b ∈ l2, a.dof < b.dof := by
  unfold StrictAsc
  rw [List.map_append, List.pairwise_append]
  simp

/-- In a strictly ascending list of dofs not below `e` that contains
`e, ..., e + n - 1`, these are the first `n` entries. -/
theorem take_consecutive (n : Nat) :
    ∀ (post : List BaseComponent) (e : Int), StrictAsc post → (∀ x ∈ post, e ≤ x.dof) →
      (∀ k ∈ List.range n, e + (k : Int) ∈ post.map (·.dof)) →
      n ≤ post.length ∧
        (post.take n).map (·.dof) = (List.range n).map (fun (k : Nat) => e + (k : Int)) := by
  induction n with
  | zero => intro post e _ _ _; simp
  | succ n ih =>
    intro post e hs hge hall
    have he : e + ((0 : Nat) : Int) ∈ post.map (·.dof) := hall 0 (List.mem_range.2 (by omega))
    cases post with
    | nil => simp at he
    | cons x post =>
      rw [strictAsc_cons] at hs
      have hx : x.dof = e := by
        have h1 := hge x (List.mem_cons_self _ _)
        simp only [Nat.cast_zero, add_zero, List.map_cons, List.mem_cons, List.mem_map] at he
        rcases he with h | ⟨y, hy, hye⟩
        · exact h.symm
        · have := hs.1 y hy
          omega
      obtain ⟨p1, p2⟩ := ih post (e + 1) hs.2
        (fun y hy => by have := hs.1 y hy; omega)
        (fun k hk => by
          have h1 := hall (k + 1) (List.mem_range.2 (by have := List.mem_range.1 hk; omega))
          simp only [List.map_cons, List.mem_cons] at h1
          rcases h1 with h | h
          · push_cast at h; omega
          · push_cast at h
            rw [show e + 1 + (k : Int) = e + ((k : Int) + 1) by ring]
            exact h)
      refine ⟨by simp; omega, ?_⟩
      rw [List.take_succ_cons, List.map_cons, p2, List.range_succ_eq_map, List.map_cons,
        List.map_map, hx]
      simp only [Nat.cast_zero, add_zero, List.cons.injEq, true_and]
      apply List.map_congr_left
      intro k _
      simp only [Function.comp, Nat.succ_eq_add_one]
      push_cast
      ring

theorem takeWhile_dof_lt (e : Int) (cs : List BaseComponent) :
    ∀ a ∈ cs.takeWhile (fun x => decide (x.dof < e)), a.dof < e := by
  intro a ha
  simpa using List.mem_takeWhile_imp ha

theorem dropWhile_dof_ge (e : Int) (cs : List BaseComponent) (hs : StrictAsc cs) :
    ∀ b ∈ cs.dropWhile (fun x => decide (x.dof < e)), e ≤ b.dof := by
  induction cs with
  | nil => intro b hb; simp at hb
  | cons x cs ih =>
    rw [strictAsc_cons] at hs
    intro b hb
    by_cases hx : x.dof < e
    · rw [List.dropWhile_cons_of_pos (by simpa using hx)] at hb
      exact ih hs.2 b hb
    · rw [List.dropWhile_cons_of_neg (by simpa using hx)] at hb
      rcases List.mem_cons.1 hb with rfl | hb
      · exact not_lt.1 hx
      · have := hs.1 b hb
        omega

theorem edge_coefs_dofs (sp : Space) (ndata : Nat → NodeData) (ei : EdgeInfo) (mode : Nat) :
    (edge_coefs sp ndata ei mode).map (·.dof) =
      (List.range (ndata ei.node).n.toNat).map
        (fun (k : Nat) => (ndata ei.node).dof + (k : Int)) := by
  simp [edge_coefs, List.map_map, Function.comp_def]

theorem written_merge_baselists (ndata : Nat → NodeData) (l1 l2 : List BaseComponent)
    (edge edge_dofs0 : Option Nat) (h1 : StrictAsc l1) (h2 : StrictAsc l2) :
    written (merge_baselists ndata l1 l2 edge edge_dofs0).baselist = mergeSpec l1 l2 := by
  rw [merge_baselists_eq_spec ndata l1 l2 edge edge_dofs0 h1 h2, written_merge_finish,
    written_foldl_emit]
  rfl

/-- The cells, the slot position and the count that `merge_baselists` returns
for a constraining edge node, in terms of the merged components. -/
theorem merge_baselists_cells (ndata : Nat → NodeData) (l1 l2 : List BaseComponent) (en : Nat)
    (edge_dofs0 : Option Nat) (h1 : StrictAsc l1) (h2 : StrictAsc l2) :
    (merge_baselists ndata l1 l2 (some en) edge_dofs0).baselist =
        ((mergeSpec l1 l2).takeWhile (fun x => x.dof < (ndata en).dof)).map some ++
          (if (((mergeSpec l1 l2).dropWhile (fun x => x.dof < (ndata en).dof)).head?).map
              (·.dof) = some (ndata en).dof then []
           else List.replicate (ndata en).n.toNat none) ++
          ((mergeSpec l1 l2).dropWhile (fun x => x.dof < (ndata en).dof)).map some ∧
      (merge_baselists ndata l1 l2 (some en) edge_dofs0).edge_dofs =
        some ((mergeSpec l1 l2).takeWhile (fun x => x.dof < (ndata en).dof)).length ∧
      (merge_baselists ndata l1 l2 (some en) edge_dofs0).ncomponents =
        (merge_baselists ndata l1 l2 (some en) edge_dofs0).baselist.length := by
  obtain ⟨m1, m2⟩ := merge_finish_foldl_emit ndata en (mergeSpec l1 l2)
    { result := [], last := none, edge := some en, edge_dofs := edge_dofs0 } rfl
  rw [merge_baselists_eq_spec ndata l1 l2 (some en) edge_dofs0 h1 h2]
  simp only [List.nil_append, List.length_nil, Nat.zero_add] at m1 m2
  refine ⟨m1, m2, ?_⟩
  simp [merge_finish]

/-- Filling the edge slots of a merge of two strictly ascending baselists,
each of which holds all or none of the edge dofs: the filled list is strictly
ascending, as long as the merged array; with the edge dofs present nothing
was reserved and the dofs are those of the merge, and otherwise `n` slots
were reserved. -/
theorem fill_edge_slots (sp : Space) (ndata : Nat → NodeData) (ei : EdgeInfo) (mode : Nat)
    (l0 l1 : List BaseComponent) (hs0 : StrictAsc l0) (hs1 : StrictAsc l1)
    (hn : 0 ≤ (ndata ei.node).n)
    (ha0 : AllOrNone (ndata ei.node).dof (ndata ei.node).n l0)
    (ha1 : AllOrNone (ndata ei.node).dof (ndata ei.node).n l1) :
    ∃ bl,
      (write_cells (merge_baselists ndata l0 l1 (some ei.node) none).baselist
          ((mergeSpec l0 l1).takeWhile (fun x => x.dof < (ndata ei.node).dof)).length
          (edge_coefs sp ndata ei mode)).bind allWritten = some bl ∧
      StrictAsc bl ∧
      bl.length = (merge_baselists ndata l0 l1 (some ei.node) none).baselist.length ∧
      ((∃ x ∈ mergeSpec l0 l1, x.dof = (ndata ei.node).dof) →
        (merge_baselists ndata l0 l1 (some ei.node) none).baselist.length =
            (mergeSpec l0 l1).length ∧
          bl.map (·.dof) = (mergeSpec l0 l1).map (·.dof)) ∧
      ((∀ x ∈ mergeSpec l0 l1, x.dof ≠ (ndata ei.node).dof) →
        (merge_baselists ndata l0 l1 (some ei.node) none).baselist.length =
          (mergeSpec l0 l1).length + (ndata ei.node).n.toNat) := by
  obtain ⟨p1, p2, _⟩ := mergeSpec_props _ l0 l1 rfl hs0 hs1
  obtain ⟨c1, _, _⟩ := merge_baselists_cells ndata l0 l1 ei.node none hs0 hs1
  set cs := mergeSpec l0 l1 with hcs
  set e := (ndata ei.node).dof with he
  set nn := (ndata ei.node).n.toNat with hnn
  set xs := edge_coefs sp ndata ei mode with hxs
  set pre := cs.takeWhile (fun x => x.dof < e) with hpre
  set post := cs.dropWhile (fun x => x.dof < e) with hpost
  have hpp : pre ++ post = cs := List.takeWhile_append_dropWhile _ _
  have hxl : xs.length = nn := edge_coefs_length sp ndata ei mode
  have hxd : xs.map (·.dof) = (List.range nn).map (fun (k : Nat) => e + (k : Int)) :=
    edge_coefs_dofs sp ndata ei mode
  have hprelt : ∀ a ∈ pre, a.dof < e := takeWhile_dof_lt e cs
  have hpostge : ∀ b ∈ post, e ≤ b.dof := dropWhile_dof_ge e cs p1
  have hsplit := (strictAsc_append pre post).1 (by rw [hpp]; exact p1)
  have hnn' : ((nn : Nat) : Int) = (ndata ei.node).n := Int.toNat_of_nonneg hn
  -- a dof of the merge comes from one of the two lists
  have hfrom : ∀ x ∈ cs, ∃ l, (l = l0 ∨ l = l1) ∧ x.dof ∈ l.map (·.dof) ∧
      AllOrNone e (ndata ei.node).n l := by
    intro x hx
    rcases (p2 x.dof).1 (List.mem_map.2 ⟨x, hx, rfl⟩) with h | h
    · exact ⟨l0, Or.inl rfl, h, ha0⟩
    · exact ⟨l1, Or.inr rfl, h, ha1⟩
  have hsub : ∀ l, (l = l0 ∨ l = l1) → ∀ d ∈ l.map (·.dof), d ∈ cs.map (·.dof) := by
    intro l hl d hd
    rcases hl with rfl | rfl
    · exact (p2 d).2 (Or.inl hd)
    · exact (p2 d).2 (Or.inr hd)
  by_cases hhead : (post.head?).map (·.dof) = some e
  · -- the edge dofs are in the list already
    rw [if_pos hhead] at c1
    have hex : ∃ x ∈ cs, x.dof = e := by
      cases hp : post with
      | nil => rw [hp] at hhead; simp at hhead
      | cons x post' =>
        rw [hp] at hhead
        simp only [List.head?_cons, Option.map_some', Option.some.injEq] at hhead
        exact ⟨x, by rw [← hpp, hp]; simp, hhead⟩
    have hallpost : ∀ k ∈ List.range nn, e + (k : Int) ∈ post.map (·.dof) := by
      intro k hk
      have hk' := List.mem_range.1 hk
      obtain ⟨x, hx, hxe⟩ := hex
      obtain ⟨l, hl, hxl', hal⟩ := hfrom x hx
      have hin : e + (k : Int) ∈ cs.map (·.dof) := by
        rcases hal with hall | hnone
        · exact hsub l hl _ (hall k hk)
        · obtain ⟨y, hy, hye⟩ := List.mem_map.1 hxl'
          have := hnone y hy
          have hye' : y.dof = x.dof := hye
          omega
      rw [← hpp, List.map_append, List.mem_append] at hin
      rcases hin with hin | hin
      · obtain ⟨y, hy, hye⟩ := List.mem_map.1 hin
        have := hprelt y hy
        have hye' : y.dof = e + (k : Int) := hye
        omega
      · exact hin
    obtain ⟨t1, t2⟩ := take_consecutive nn post e hsplit.2.1 hpostge hallpost
    have hcells : (merge_baselists ndata l0 l1 (some ei.node) none).baselist =
        pre.map some ++ (post.take nn).map some ++ (post.drop nn).map some := by
      simp only [c1, List.append_nil, List.append_assoc, ← List.map_append,
        List.take_append_drop]
    have hw := write_cells_overwrite xs (pre.map some) ((post.take nn).map some)
      ((post.drop nn).map some) (by simp [hxl, t1])
    rw [List.length_map] at hw
    refine ⟨pre ++ xs ++ post.drop nn, ?_, ?_, ?_, ?_, ?_⟩
    · rw [hcells, hw, Option.some_bind, ← List.map_append, ← List.map_append,
        allWritten_map_some]
    · have hd : cs.map (·.dof) = (pre ++ xs ++ post.drop nn).map (·.dof) := by
        rw [List.map_append, List.map_append, hxd, ← t2, ← List.map_append, ← List.map_append,
          List.append_assoc, List.take_append_drop, hpp]
      exact strictAsc_of_map_dof cs _ hd p1
    · rw [hcells]
      simp [hxl, t1]
    · intro _
      constructor
      · rw [c1, List.append_nil, ← List.map_append, hpp, List.length_map]
      · rw [List.map_append, List.map_append, hxd, ← t2, ← List.map_append, ← List.map_append,
          List.append_assoc, List.take_append_drop, hpp]
    · intro hno
      obtain ⟨x, hx, hxe⟩ := hex
      exact absurd hxe (hno x hx)
  · -- the slots were reserved
    rw [if_neg hhead] at c1
    have hno : ∀ x ∈ cs, x.dof ≠ e := by
      intro x hx hxe
      rw [← hpp, List.mem_append] at hx
      rcases hx with hx | hx
      · have := hprelt x hx
        omega
      · cases hp : post with
        | nil => rw [hp] at hx; cases hx
        | cons y post' =>
          apply hhead
          rw [hp]
          simp only [List.head?_cons, Option.map_some', Option.some.injEq]
          have hy := hpostge y (by rw [hp]; simp)
          rw [hp] at hx
          rcases List.mem_cons.1 hx with rfl | hx
          · exact hxe
          · have hs := (strictAsc_cons y post').1 (by rw [← hp]; exact hsplit.2.1)
            have := hs.1 x hx
            omega
    have hpostge' : 0 < nn → ∀ b ∈ post, e + (nn : Int) ≤ b.dof := by
      intro hpos b hb
      have hbcs : b ∈ cs := by rw [← hpp]; exact List.mem_append_right _ hb
      obtain ⟨l, hl, hbl, hal⟩ := hfrom b hbcs
      rcases hal with hall | hnone
      · exfalso
        have h0 := hsub l hl _ (hall 0 (List.mem_range.2 hpos))
        obtain ⟨y, hy, hye⟩ := List.mem_map.1 h0
        simp only [Nat.cast_zero, add_zero] at hye
        exact hno y hy hye
      · obtain ⟨y, hy, hye⟩ := List.mem_map.1 hbl
        have h1 := hnone y hy
        have h2 := hpostge b hb
        have hye' : y.dof = b.dof := hye
        omega
    have hw := write_cells_reserved xs (pre.map some) (post.map some)
    rw [List.length_map, hxl] at hw
    have hxs_asc : StrictAsc xs := by
      unfold StrictAsc
      rw [hxd, List.pairwise_map]
      exact List.Pairwise.imp_of_mem (fun _ _ h => by omega)
        (List.pairwise_lt_range nn)
    refine ⟨pre ++ xs ++ post, ?_, ?_, ?_, ?_, ?_⟩
    · rw [c1, hw, Option.some_bind, ← List.map_append, ← List.map_append, allWritten_map_some]
    · rw [strictAsc_append, strictAsc_append]
      refine ⟨⟨hsplit.1, hxs_asc, ?_⟩, hsplit.2.1, ?_⟩
      · intro a ha b hb
        have h1 := hprelt a ha
        have h2 : b.dof ∈ xs.map (·.dof) := List.mem_map.2 ⟨b, hb, rfl⟩
        rw [hxd] at h2
        obtain ⟨k, _, hk⟩ := List.mem_map.1 h2
        omega
      · intro a ha b hb
        rcases List.mem_append.1 ha with ha | ha
        · exact hsplit.2.2 a ha b hb
        · have h2 : a.dof ∈ xs.map (·.dof) := List.mem_map.2 ⟨a, ha, rfl⟩
          rw [hxd] at h2
          obtain ⟨k, hk, hke⟩ := List.mem_map.1 h2
          have hk' := List.mem_range.1 hk
          have := hpostge' (by omega) b hb
          omega
    · rw [c1]
      simp [hxl]
    · rintro ⟨x, hx, hxe⟩
      exact absurd hxe (hno x hx)
    · intro _
      rw [c1]
      simp only [List.length_append, List.length_map, List.length_replicate]
      rw [← hpp, List.length_append]
      omega

/-- C19. The baselist that `update_constrained_nodes` completes for a hanging
vertex (merge, then the edge entries written at `edge_dofs`) is strictly
ascending in dof, without a repeated dof, when both endpoint baselists are
strictly ascending and each holds all or none of the dofs
`[edge.dof, edge.dof + n)` of the constraining edge. The slots start right
before the first merged component with `dof >= edge.dof` (at the end if there
is none); when the edge dofs are present already, no slot is reserved and the
dofs of the list are those of the merge, and otherwise `n` slots are
reserved. -/
theorem completed_baselist_strictAsc (sp : Space) (ndata : Nat → NodeData)
    (v0 v1 mid_vn : Nat) (ei : EdgeInfo) (mode : Nat)
    (hs0 : StrictAsc (endpoint_baselist sp ndata v0))
    (hs1 : StrictAsc (endpoint_baselist sp ndata v1))
    (hn : 0 ≤ (ndata ei.node).n)
    (ha0 : AllOrNone (ndata ei.node).dof (ndata ei.node).n (endpoint_baselist sp ndata v0))
    (ha1 : AllOrNone (ndata ei.node).dof (ndata ei.node).n (endpoint_baselist sp ndata v1)) :
    ∃ nd, constrained_vertex_data sp ndata v0 v1 mid_vn ei mode = some nd ∧
      StrictAsc nd.baselist ∧ (nd.baselist.map (·.dof)).Nodup ∧
      nd.ncomponents = nd.baselist.length ∧
      (merge_baselists ndata (endpoint_baselist sp ndata v0) (endpoint_baselist sp ndata v1)
          (some ei.node) none).edge_dofs =
        some ((written (merge_baselists ndata (endpoint_baselist sp ndata v0)
          (endpoint_baselist sp ndata v1) (some ei.node) none).baselist).takeWhile
            (fun x => x.dof < (ndata ei.node).dof)).length ∧
      ((∃ x ∈ written (merge_baselists ndata (endpoint_baselist sp ndata v0)
            (endpoint_baselist sp ndata v1) (some ei.node) none).baselist,
          x.dof = (ndata ei.node).dof) →
        nd.ncomponents = (written (merge_baselists ndata (endpoint_baselist sp ndata v0)
            (endpoint_baselist sp ndata v1) (some ei.node) none).baselist).length ∧
          nd.baselist.map (·.dof) =
            (written (merge_baselists ndata (endpoint_baselist sp ndata v0)
              (endpoint_baselist sp ndata v1) (some ei.node) none).baselist).map (·.dof)) ∧
      ((∀ x ∈ written (merge_baselists ndata (endpoint_baselist sp ndata v0)
            (endpoint_baselist sp ndata v1) (some ei.node) none).baselist,
          x.dof ≠ (ndata ei.node).dof) →
        nd.ncomponents = (written (merge_baselists ndata (endpoint_baselist sp ndata v0)
            (endpoint_baselist sp ndata v1) (some ei.node) none).baselist).length +
          (ndata ei.node).n.toNat) := by
  obtain ⟨bl, f1, f2, f3, f4, f5⟩ := fill_edge_slots sp ndata ei mode _ _ hs0 hs1 hn ha0 ha1
  obtain ⟨_, c2, c3⟩ := merge_baselists_cells ndata _ _ ei.node none hs0 hs1
  have hw := written_merge_baselists ndata _ _ (some ei.node) none hs0 hs1
  rw [hw]
  refine ⟨{ ndata mid_vn with
      baselist := bl
      ncomponents := (merge_baselists ndata (endpoint_baselist sp ndata v0)
        (endpoint_baselist sp ndata v1) (some ei.node) none).ncomponents }, ?_, f2,
    List.Pairwise.imp (fun h => ne_of_lt h) f2, ?_, c2, ?_, ?_⟩
  · unfold constrained_vertex_data
    simp only [c2, f1]
  · show (merge_baselists ndata _ _ (some ei.node) none).ncomponents = bl.length
    rw [c3, f3]
  · intro h
    obtain ⟨g1, g2⟩ := f4 h
    exact ⟨by show (merge_baselists ndata _ _ (some ei.node) none).ncomponents = _
              rw [c3, g1], g2⟩
  · intro h
    show (merge_baselists ndata _ _ (some ei.node) none).ncomponents = _
    rw [c3, f5 h]

/-- The witness of C19: the free vertex 0 and the hanging vertex 2, whose
baselist holds the edge dofs 3 and 4 already. -/
theorem completed_baselist_strictAsc_witness :
    ∃ nd, constrained_vertex_data sampleAsmSpace sampleNestedNdata 0 2 6 sampleEdgeInfo 0 =
        some nd ∧
      StrictAsc nd.baselist ∧ nd.ncomponents = nd.baselist.length :=
  have h := completed_baselist_strictAsc sampleAsmSpace sampleNestedNdata 0 2 6 sampleEdgeInfo 0
    (by decide) (by decide) (by decide) (by decide) (by decide)
  h.imp fun _ hnd => ⟨hnd.1, hnd.2.1, hnd.2.2.2.1⟩

/-! ### Counting the assigned functions -/

/-- A loop of visits, each of which either finds its target node `t p`
assigned and changes neither the counter nor which nodes are unassigned, or
assigns the target and adds its weight to the counter: the counter grows by
the weights of the distinct targets that were unassigned at the start. -/
theorem foldl_count {σ β : Type} (f : σ → β → σ) (t : β → Nat) (un : σ → Nat → Prop)
    [∀ s, DecidablePred (un s)] (c : σ → Int) (w : Nat → Int) (R : σ → Prop) (L : List β)
    (hR : ∀ s p, p ∈ L → R s → R (f s p))
    (hskip : ∀ s p, p ∈ L → R s → ¬ un s (t p) →
      (∀ id, un (f s p) id ↔ un s id) ∧ c (f s p) = c s)
    (hnew : ∀ s p, p ∈ L → R s → un s (t p) →
      ¬ un (f s p) (t p) ∧ (∀ id, id ≠ t p → (un (f s p) id ↔ un s id)) ∧
        c (f s p) = c s + w (t p)) :
    ∀ s, R s → c (L.foldl f s) = c s + ∑ id ∈ (L.map t).toFinset.filter (un s), w id := by
  induction L with
  | nil => intro s _; simp
  | cons p L ih =>
    intro s hs
    have hp : p ∈ p :: L := List.mem_cons_self _ _
    have ih' := ih (fun s q hq => hR s q (List.mem_cons_of_mem _ hq))
      (fun s q hq => hskip s q (List.mem_cons_of_mem _ hq))
      (fun s q hq => hnew s q (List.mem_cons_of_mem _ hq)) (f s p) (hR s p hp hs)
    rw [List.foldl_cons, ih', List.map_cons, List.toFinset_cons, Finset.filter_insert]
    by_cases hu : un s (t p)
    · obtain ⟨h1, h2, h3⟩ := hnew s p hp hs hu
      rw [if_pos hu, h3]
      have hS : (L.map t).toFinset.filter (un (f s p)) =
          ((L.map t).toFinset.filter (un s)).erase (t p) := by
        ext id
        simp only [Finset.mem_filter, Finset.mem_erase]
        by_cases hid : id = t p
        · subst hid
          simp [h1]
        · simp [hid, h2 id hid]
      rw [hS]
      by_cases hmem : t p ∈ (L.map t).toFinset.filter (un s)
      · rw [Finset.insert_eq_of_mem hmem, ← Finset.add_sum_erase _ _ hmem]
        ring
      · rw [Finset.erase_eq_of_not_mem hmem, Finset.sum_insert hmem]
        ring
    · obtain ⟨h1, h2⟩ := hskip s p hp hs hu
      rw [if_neg hu, h2]
      congr 1
      apply Finset.sum_congr _ (fun _ _ => rfl)
      exact Finset.filter_congr (fun id _ => h1 id)

theorem sum_toFinset_dedup (l : List Nat) (w : Nat → Int) :
    ∑ id ∈ l.toFinset, w id = (l.dedup.map w).sum := by
  have h : l.dedup.toFinset = l.toFinset := by
    ext x; simp
  rw [← h, List.sum_toFinset w (List.nodup_dedup l)]

theorem markInv_vertex_visit (sp : Space) (hwf : WellFormed sp) (st0 : SpaceState)
    (e : Element) (he : e ∈ sp.mesh.active) (i : Nat) (hi : i < e.nvert) (s : SpaceState)
    (h : MarkInv sp st0 s) : MarkInv sp st0 (assign_vertex_dofs_visit sp e s i) := by
  have hu := hwf.unassigned_neg
  have hc := hwf.constrained_neg
  have hne := hwf.sentinels_ne
  have hty := hwf.vertex_type e he i hi
  have hnn := h.nonneg
  rcases assign_vertex_dofs_visit_cases sp e s i with h1 | ⟨hd, _, hn, h1⟩ | ⟨hd, _, hn, h1⟩
  · rw [h1]; exact h
  · rw [h1]
    refine ⟨hnn, ?_, ?_, ?_⟩
    · intro id hid hdu
      by_cases hv : id = e.vn i
      · subst hv
        simp only [Function.update_same] at hdu
        exact absurd hdu.symm hne
      · simp only [Function.update_noteq hv] at hdu ⊢
        exact h.vertex_n id hid hdu
    · intro id hid hdu
      by_cases hv : id = e.vn i
      · subst hv
        simp only [Function.update_same, true_iff]
        rw [← h.vertex_n _ hid hd]
        exact hn
      · simp only [Function.update_noteq hv] at hdu ⊢
        exact h.vertex_mark id hid hdu
    · intro id hid hdu
      have hv : id ≠ e.vn i := by
        intro hh; rw [hh, hty] at hid; cases hid
      simp only [Function.update_noteq hv] at hdu ⊢
      exact h.edge_mark id hid hdu
  · rw [h1]
    refine ⟨by show 0 ≤ s.next_dof + 1; omega, ?_, ?_, ?_⟩
    · intro id hid hdu
      by_cases hv : id = e.vn i
      · subst hv
        simp only [Function.update_same] at hdu
        omega
      · simp only [Function.update_noteq hv] at hdu ⊢
        exact h.vertex_n id hid hdu
    · intro id hid hdu
      by_cases hv : id = e.vn i
      · subst hv
        simp only [Function.update_same]
        have h0 : (st0.ndata (e.vn i)).n ≠ 0 := by
          rw [← h.vertex_n _ hid hd]; exact hn
        constructor
        · intro hh; omega
        · intro hh; exact absurd hh h0
      · simp only [Function.update_noteq hv] at hdu ⊢
        exact h.vertex_mark id hid hdu
    · intro id hid hdu
      have hv : id ≠ e.vn i := by
        intro hh; rw [hh, hty] at hid; cases hid
      simp only [Function.update_noteq hv] at hdu ⊢
      exact h.edge_mark id hid hdu

theorem markInv_edge_visit (sp : Space) (hwf : WellFormed sp) (st0 : SpaceState)
    (e : Element) (he : e ∈ sp.mesh.active) (i : Nat) (hi : i < e.nvert) (s : SpaceState)
    (ho : 1 ≤ sp.get_edge_order_internal (e.en i))
    (h : MarkInv sp st0 s) : MarkInv sp st0 (assign_edge_dofs_visit sp e s i) := by
  have hu := hwf.unassigned_neg
  have hc := hwf.constrained_neg
  have hne := hwf.sentinels_ne
  have hty := hwf.edge_type e he i hi
  have hnn := h.nonneg
  have hvert : ∀ id, (sp.mesh.node id).type = NodeType.vertex → id ≠ e.en i := by
    intro id hid hh
    rw [hh, hty] at hid; cases hid
  rcases assign_edge_dofs_visit_cases sp e s i with
    h1 | ⟨hd, _, h1⟩ | ⟨hd, _, hes, h1⟩ | ⟨hd, _, hes, h1⟩
  · rw [h1]; exact h
  · rw [h1]
    refine ⟨hnn, ?_, ?_, ?_⟩
    · intro id hid hdu
      simp only [Function.update_noteq (hvert id hid)] at hdu ⊢
      exact h.vertex_n id hid hdu
    · intro id hid hdu
      simp only [Function.update_noteq (hvert id hid)] at hdu ⊢
      exact h.vertex_mark id hid hdu
    · intro id hid hdu
      by_cases hv : id = e.en i
      · subst hv
        simp only [Function.update_same] at hdu
        exact absurd hd hdu
      · simp only [Function.update_noteq hv] at hdu ⊢
        exact h.edge_mark id hid hdu
  · rw [h1]
    refine ⟨hnn, ?_, ?_, ?_⟩
    · intro id hid hdu
      simp only [Function.update_noteq (hvert id hid)] at hdu ⊢
      exact h.vertex_n id hid hdu
    · intro id hid hdu
      simp only [Function.update_noteq (hvert id hid)] at hdu ⊢
      exact h.vertex_mark id hid hdu
    · intro id hid hdu
      by_cases hv : id = e.en i
      · subst hv
        simp only [Function.update_same]
        exact ⟨⟨fun _ => hes, fun _ => trivial⟩, trivial⟩
      · simp only [Function.update_noteq hv] at hdu ⊢
        exact h.edge_mark id hid hdu
  · rw [h1]
    refine ⟨by show 0 ≤ s.next_dof + (sp.get_edge_order_internal (e.en i) - 1); omega,
      ?_, ?_, ?_⟩
    · intro id hid hdu
      simp only [Function.update_noteq (hvert id hid)] at hdu ⊢
      exact h.vertex_n id hid hdu
    · intro id hid hdu
      simp only [Function.update_noteq (hvert id hid)] at hdu ⊢
      exact h.vertex_mark id hid hdu
    · intro id hid hdu
      by_cases hv : id = e.en i
      · subst hv
        simp only [Function.update_same]
        refine ⟨⟨fun hh => ?_, fun hh => ?_⟩, trivial⟩
        · omega
        · rw [hes] at hh; cases hh
      · simp only [Function.update_noteq hv] at hdu ⊢
        exact h.edge_mark id hid hdu

theorem markInv_init (sp : Space) (st : SpaceState)
    (h0 : 0 ≤ st.next_dof) (hun : ∀ id, (st.ndata id).dof = sp.H2D_UNASSIGNED_DOF) :
    MarkInv sp st st :=
  ⟨h0, fun _ _ _ => rfl, fun id _ h => absurd (hun id) h, fun id _ h => absurd (hun id) h⟩

theorem MarkInv.of_ndata_eq {sp : Space} {st0 s s' : SpaceState} (h : MarkInv sp st0 s)
    (hnd : s'.ndata = s.ndata) (hnext : s.next_dof ≤ s'.next_dof) : MarkInv sp st0 s' := by
  refine ⟨le_trans h.nonneg hnext, ?_, ?_, ?_⟩
  · rw [hnd]; exact h.vertex_n
  · rw [hnd]; exact h.vertex_mark
  · rw [hnd]; exact h.edge_mark

/-- The mark invariant after the three passes from a state without assigned
dofs. -/
theorem assign_dofs_passes_markInv (sp : Space) (st : SpaceState) (hwf : WellFormed sp)
    (hord : EdgeOrdersPositive sp st) (h0 : 0 ≤ st.next_dof)
    (hun : ∀ id, (st.ndata id).dof = sp.H2D_UNASSIGNED_DOF) :
    MarkInv sp st (assign_vertex_dofs sp st) ∧
      MarkInv sp st (assign_edge_dofs sp (assign_vertex_dofs sp st)) ∧
      MarkInv sp st (assign_dofs_passes sp st) := by
  have h1 : MarkInv sp st (assign_vertex_dofs sp st) := by
    rw [assign_vertex_dofs_flat]
    refine foldl_preserves (MarkInv sp st) _ _ ?_ _
      ((markInv_init sp st h0 hun).of_ndata_eq rfl (le_refl _))
    intro s p hp hs
    obtain ⟨he, _, hi⟩ := (mem_visit_list _ _ p).1 hp
    exact markInv_vertex_visit sp hwf st p.1 he p.2 hi s hs
  have h2 : MarkInv sp st (assign_edge_dofs sp (assign_vertex_dofs sp st)) := by
    rw [assign_edge_dofs_flat]
    refine foldl_preserves (MarkInv sp st) _ _ ?_ _ (h1.of_ndata_eq rfl (le_refl _))
    intro s p hp hs
    obtain ⟨he, ho, hi⟩ := (mem_visit_list _ _ p).1 hp
    rw [assign_vertex_dofs_edata] at ho
    exact markInv_edge_visit sp hwf st p.1 he p.2 hi s (hord p.1 he ho p.2 hi) hs
  refine ⟨h1, h2, ?_⟩
  exact h2.of_ndata_eq (assign_bubble_dofs_counts sp _).1 (assign_bubble_dofs_next_dof sp _ hwf)

theorem assign_vertex_dofs_visit_assign (sp : Space) (e : Element) (st : SpaceState) (i : Nat)
    (hc : (sp.mesh.node (e.vn i)).is_constrained_vertex = false)
    (hd : (st.ndata (e.vn i)).dof = sp.H2D_UNASSIGNED_DOF) (hn : (st.ndata (e.vn i)).n ≠ 0) :
    assign_vertex_dofs_visit sp e st i =
      { st with
        ndata := Function.update st.ndata (e.vn i)
          { st.ndata (e.vn i) with dof := st.next_dof, n := 1 }
        next_dof := st.next_dof + 1
        vertex_functions_count := st.vertex_functions_count + 1 } := by
  unfold assign_vertex_dofs_visit
  simp [hc, hd, hn]

theorem assign_edge_dofs_visit_assign (sp : Space) (e : Element) (st : SpaceState) (i : Nat)
    (hd : (st.ndata (e.en i)).dof = sp.H2D_UNASSIGNED_DOF)
    (hel : edge_eligible sp (e.en i) = true) (hes : edge_essential sp (e.en i) = false) :
    assign_edge_dofs_visit sp e st i =
      { st with
        ndata := Function.update st.ndata (e.en i)
          { st.ndata (e.en i) with
            n := sp.get_edge_order_internal (e.en i) - 1, dof := st.next_dof }
        next_dof := st.next_dof + (sp.get_edge_order_internal (e.en i) - 1)
        edge_functions_count :=
          st.edge_functions_count + (sp.get_edge_order_internal (e.en i) - 1) } := by
  unfold assign_edge_dofs_visit
  simp [hd, hel, hes]

/-- With no hanging vertex and no vertex on the essential boundary, the
vertex pass counts every vertex node once. -/
theorem assign_vertex_dofs_count (sp : Space) (st : SpaceState) (hwf : WellFormed sp)
    (h0 : 0 ≤ st.next_dof) (hun : ∀ id, (st.ndata id).dof = sp.H2D_UNASSIGNED_DOF)
    (hfree : ∀ p ∈ visit_list st.edata sp.mesh.active,
      (sp.mesh.node (p.1.vn p.2)).is_constrained_vertex = false ∧
        (st.ndata (p.1.vn p.2)).n ≠ 0) :
    (assign_vertex_dofs sp st).vertex_functions_count = ((vertex_nodes sp st).length : Int) := by
  have hu := hwf.unassigned_neg
  rw [assign_vertex_dofs_flat]
  have key := foldl_count
    (fun t (p : Element × Nat) => assign_vertex_dofs_visit sp p.1 t p.2)
    (fun p => p.1.vn p.2)
    (fun (s : SpaceState) id => (s.ndata id).dof = sp.H2D_UNASSIGNED_DOF)
    (fun s => s.vertex_functions_count) (fun _ => 1) (MarkInv sp st)
    (visit_list st.edata sp.mesh.active) ?_ ?_ ?_
    { st with vertex_functions_count := 0 }
    ((markInv_init sp st h0 hun).of_ndata_eq rfl (le_refl _))
  · beta_reduce at key
    rw [key]
    have hall : ((visit_list st.edata sp.mesh.active).map (fun p => p.1.vn p.2)).toFinset.filter
        (fun id => (st.ndata id).dof = sp.H2D_UNASSIGNED_DOF) =
        ((visit_list st.edata sp.mesh.active).map (fun p => p.1.vn p.2)).toFinset :=
      Finset.filter_true_of_mem (fun id _ => hun id)
    show (0 : Int) + _ = _
    rw [hall, sum_toFinset_dedup]
    simp [vertex_nodes]
  · intro s p hp hs
    beta_reduce
    obtain ⟨he, _, hi⟩ := (mem_visit_list _ _ p).1 hp
    exact markInv_vertex_visit sp hwf st p.1 he p.2 hi s hs
  · intro s p _ _ hd
    beta_reduce at hd ⊢
    rw [assign_vertex_dofs_visit_skip sp p.1 s p.2 (Or.inr hd)]
    exact ⟨fun _ => Iff.rfl, rfl⟩
  · intro s p hp hs hd
    beta_reduce at hd ⊢
    obtain ⟨he, _, hi⟩ := (mem_visit_list _ _ p).1 hp
    obtain ⟨hc, hn⟩ := hfree p hp
    have hn' : (s.ndata (p.1.vn p.2)).n ≠ 0 := by
      rw [hs.vertex_n _ (hwf.vertex_type p.1 he p.2 hi) hd]; exact hn
    have hnn := hs.nonneg
    rw [assign_vertex_dofs_visit_assign sp p.1 s p.2 hc hd hn']
    refine ⟨?_, ?_, rfl⟩
    · simp only [Function.update_same]
      omega
    · intro id hid
      simp only [Function.update_noteq hid]

theorem assign_vertex_dofs_edge_untouched (sp : Space) (st : SpaceState) (hwf : WellFormed sp)
    (id : Nat) (hty : (sp.mesh.node id).type = NodeType.edge) :
    (assign_vertex_dofs sp st).ndata id = st.ndata id := by
  rw [assign_vertex_dofs_flat]
  refine foldl_preserves (fun s : SpaceState => s.ndata id = st.ndata id) _ _ ?_ _ rfl
  intro s p hp hs
  obtain ⟨he, _, hi⟩ := (mem_visit_list _ _ p).1 hp
  rw [← hs]
  apply assign_vertex_dofs_visit_other
  intro hh
  have := hwf.vertex_type p.1 he p.2 hi
  rw [← hh, hty] at this
  cases this

/-- With every visited edge unassigned, eligible and without an essential
condition, the edge pass counts `edge order - 1` for every edge node, once. -/
theorem assign_edge_dofs_count (sp : Space) (st0 s : SpaceState) (hwf : WellFormed sp)
    (hinv : MarkInv sp st0 s)
    (hfree : ∀ p ∈ visit_list s.edata sp.mesh.active,
      (s.ndata (p.1.en p.2)).dof = sp.H2D_UNASSIGNED_DOF ∧
        edge_eligible sp (p.1.en p.2) = true ∧ edge_essential sp (p.1.en p.2) = false ∧
        1 ≤ sp.get_edge_order_internal (p.1.en p.2)) :
    (assign_edge_dofs sp s).edge_functions_count =
      ((edge_nodes sp s).map (fun en => sp.get_edge_order_internal en - 1)).sum := by
  have hu := hwf.unassigned_neg
  rw [assign_edge_dofs_flat]
  have key := foldl_count
    (fun t (p : Element × Nat) => assign_edge_dofs_visit sp p.1 t p.2)
    (fun p => p.1.en p.2)
    (fun (s : SpaceState) id => (s.ndata id).dof = sp.H2D_UNASSIGNED_DOF)
    (fun s => s.edge_functions_count) (fun en => sp.get_edge_order_internal en - 1)
    (MarkInv sp st0) (visit_list s.edata sp.mesh.active) ?_ ?_ ?_
    { s with edge_functions_count := 0 } (hinv.of_ndata_eq rfl (le_refl _))
  · beta_reduce at key
    rw [key]
    have hall : ((visit_list s.edata sp.mesh.active).map (fun p => p.1.en p.2)).toFinset.filter
        (fun id => (s.ndata id).dof = sp.H2D_UNASSIGNED_DOF) =
        ((visit_list s.edata sp.mesh.active).map (fun p => p.1.en p.2)).toFinset := by
      apply Finset.filter_true_of_mem
      intro id hid
      obtain ⟨p, hp, rfl⟩ := List.mem_map.1 (List.mem_toFinset.1 hid)
      exact (hfree p hp).1
    show (0 : Int) + _ = _
    rw [hall, sum_toFinset_dedup]
    simp [edge_nodes]
  · intro t p hp ht
    beta_reduce
    obtain ⟨he, _, hi⟩ := (mem_visit_list _ _ p).1 hp
    exact markInv_edge_visit sp hwf st0 p.1 he p.2 hi t (hfree p hp).2.2.2 ht
  · intro t p _ _ hd
    beta_reduce at hd ⊢
    rw [assign_edge_dofs_visit_skip sp p.1 t p.2 hd]
    exact ⟨fun _ => Iff.rfl, rfl⟩
  · intro t p hp ht hd
    beta_reduce at hd ⊢
    obtain ⟨_, hel, hes, _⟩ := hfree p hp
    have hnn := ht.nonneg
    rw [assign_edge_dofs_visit_assign sp p.1 t p.2 hd hel hes]
    refine ⟨?_, ?_, rfl⟩
    · simp only [Function.update_same]
      omega
    · intro id hid
      simp only [Function.update_noteq hid]

theorem assign_bubble_dofs_foldl_count (sp : Space) (l : List Element) :
    ∀ s : SpaceState,
      (l.foldl (assign_bubble_dofs_element sp) s).bubble_functions_count =
        s.bubble_functions_count +
          (l.map (fun e => sp.shapeset.get_num_bubbles (s.edata e.id).order e.mode)).sum := by
  induction l with
  | nil => intro s; simp
  | cons e l ih =>
    intro s
    rw [List.foldl_cons, ih]
    have hord : ∀ id, ((assign_bubble_dofs_element sp s e).edata id).order =
        (s.edata id).order := by
      intro id
      simp only [assign_bubble_dofs_element]
      by_cases h : id = e.id
      · subst h; simp
      · rw [Function.update_noteq h]
    simp only [hord, List.map_cons, List.sum_cons]
    simp only [assign_bubble_dofs_element]
    ring

theorem assign_bubble_dofs_count (sp : Space) (s : SpaceState) :
    (assign_bubble_dofs sp s).bubble_functions_count =
      (sp.mesh.active.map
        (fun e => sp.shapeset.get_num_bubbles (s.edata e.id).order e.mode)).sum := by
  unfold assign_bubble_dofs
  rw [assign_bubble_dofs_foldl_count]
  simp

theorem conforming_edge_eligible (sp : Space) (hconf : Conforming sp) (e : Element)
    (he : e ∈ sp.mesh.active) (i : Nat) (hi : i < e.nvert) :
    edge_eligible sp (e.en i) = true := by
  unfold edge_eligible
  rcases (hconf e he i hi).2 with h | h
  · simp [h]
  · simp [h]

theorem sampleSpace_conforming : Conforming sampleSpace := by
  intro e he i hi
  have he' : e = sampleTriangle := List.mem_singleton.1 he
  subst he'
  exact ⟨rfl, Or.inl (by simp [sampleSpace, sampleMesh, sampleTriangle])⟩

/-- C11, as stated, fails: the triangle with three boundary edges is a
conforming mesh, yet with an essential boundary condition the three passes
give the constrained marker to its vertex 0 and to its edge node 3, and
`next_dof` stays 0 while the orders give three vertex functions. -/
theorem conforming_counterexample :
    Conforming sampleDirichletSpace ∧
      sampleTriangle ∈ sampleDirichletSpace.mesh.active ∧
      0 < get_element_order sampleDirichletState sampleTriangle.id ∧
      (∀ id, (sampleDirichletState.ndata id).dof = sampleDirichletSpace.H2D_UNASSIGNED_DOF) ∧
      ((assign_dofs_passes sampleDirichletSpace sampleDirichletState).ndata
          (sampleTriangle.vn 0)).dof = sampleDirichletSpace.H2D_CONSTRAINED_DOF ∧
      ((assign_dofs_passes sampleDirichletSpace sampleDirichletState).ndata
          (sampleTriangle.en 0)).dof = sampleDirichletSpace.H2D_CONSTRAINED_DOF ∧
      (assign_dofs_passes sampleDirichletSpace sampleDirichletState).next_dof = 0 ∧
      expected_dofs sampleDirichletSpace sampleDirichletState = 3 := by
  refine ⟨?_, List.mem_singleton.2 rfl, by decide, fun _ => rfl, by decide, by decide,
    by decide, by decide⟩
  intro e he i hi
  have he' : e = sampleTriangle := List.mem_singleton.1 he
  subst he'
  exact ⟨rfl, Or.inl (by simp [sampleDirichletSpace, sampleSpace, sampleMesh, sampleTriangle])⟩

/-- C11, amended. On a mesh with only conforming elements, from a state
without assigned dofs and with `next_dof >= 0`, after the three passes no edge
of an active element of positive order is hanging (`n` is not `-1`); a vertex
of such an element carries the constrained marker exactly when it lay on the
essential boundary (`n = 0` before the passes), and an edge exactly when it
is a boundary edge with an essential boundary condition. When no vertex and
no edge of these elements is on the essential boundary, `next_dof` has
advanced by the number of functions determined by the orders: one per vertex
node, `edge order - 1` per edge node, `get_num_bubbles(order, mode)` per
active element. -/
theorem conforming_assignment (sp : Space) (st : SpaceState) (hwf : WellFormed sp)
    (hord : EdgeOrdersPositive sp st) (h0 : 0 ≤ st.next_dof)
    (hun : ∀ id, (st.ndata id).dof = sp.H2D_UNASSIGNED_DOF) (hconf : Conforming sp) :
    (∀ e ∈ sp.mesh.active, 0 < get_element_order st e.id → ∀ i < e.nvert,
      ((assign_dofs_passes sp st).ndata (e.en i)).n ≠ -1 ∧
      (((assign_dofs_passes sp st).ndata (e.vn i)).dof = sp.H2D_CONSTRAINED_DOF ↔
        (st.ndata (e.vn i)).n = 0) ∧
      (((assign_dofs_passes sp st).ndata (e.en i)).dof = sp.H2D_CONSTRAINED_DOF ↔
        edge_essential sp (e.en i) = true)) ∧
    ((∀ e ∈ sp.mesh.active, 0 < get_element_order st e.id → ∀ i < e.nvert,
        (st.ndata (e.vn i)).n ≠ 0 ∧ edge_essential sp (e.en i) = false) →
      (assign_dofs_passes sp st).next_dof = st.next_dof + expected_dofs sp st) := by
  obtain ⟨hM1, _, hM⟩ := assign_dofs_passes_markInv sp st hwf hord h0 hun
  constructor
  · intro e he ho i hi
    obtain ⟨hv, hed⟩ := assign_dofs_passes_visited sp st hwf hord h0 e he ho i hi
    have hel := conforming_edge_eligible sp hconf e he i hi
    have hed' : ((assign_dofs_passes sp st).ndata (e.en i)).dof ≠ sp.H2D_UNASSIGNED_DOF := by
      rcases hed with h | ⟨h, _⟩
      · exact h
      · rw [hel] at h; cases h
    have hem := hM.edge_mark _ (hwf.edge_type e he i hi) hed'
    have ho1 := hord e he ho i hi
    refine ⟨?_, hM.vertex_mark _ (hwf.vertex_type e he i hi) (hv (hconf e he i hi).1), hem.1⟩
    rw [hem.2]
    omega
  · intro hfree
    have hV := assign_vertex_dofs_count sp st hwf h0 hun (by
      intro p hp
      obtain ⟨he, ho, hi⟩ := (mem_visit_list _ _ p).1 hp
      exact ⟨(hconf p.1 he p.2 hi).1, (hfree p.1 he ho p.2 hi).1⟩)
    have hE := assign_edge_dofs_count sp st (assign_vertex_dofs sp st) hwf hM1 (by
      intro p hp
      rw [assign_vertex_dofs_edata] at hp
      obtain ⟨he, ho, hi⟩ := (mem_visit_list _ _ p).1 hp
      refine ⟨?_, conforming_edge_eligible sp hconf p.1 he p.2 hi,
        (hfree p.1 he ho p.2 hi).2, hord p.1 he ho p.2 hi⟩
      rw [assign_vertex_dofs_edge_untouched sp st hwf _ (hwf.edge_type p.1 he p.2 hi)]
      exact hun _)
    have hB := assign_bubble_dofs_count sp (assign_edge_dofs sp (assign_vertex_dofs sp st))
    have hen : edge_nodes sp (assign_vertex_dofs sp st) = edge_nodes sp st := by
      unfold edge_nodes
      rw [assign_vertex_dofs_edata]
    rw [hen] at hE
    rw [assign_edge_dofs_edata, assign_vertex_dofs_edata] at hB
    have c1 := (assign_vertex_dofs_counts sp st).2.2
    have c2 := (assign_edge_dofs_counts sp (assign_vertex_dofs sp st)).2.2
    have c3 := (assign_bubble_dofs_counts sp (assign_edge_dofs sp (assign_vertex_dofs sp st))).2.2.2
    unfold expected_dofs
    show (assign_bubble_dofs sp (assign_edge_dofs sp (assign_vertex_dofs sp st))).next_dof = _
    rw [c3, c2, c1, hV, hE]
    show _ + (assign_bubble_dofs sp (assign_edge_dofs sp (assign_vertex_dofs sp st))).bubble_functions_count = _
    rw [hB]
    ring

/-- The witness of the amended C11 on the first-order triangle without
essential boundary conditions. -/
theorem conforming_assignment_witness :
    (∀ e ∈ sampleSpace.mesh.active, 0 < get_element_order sampleState e.id → ∀ i < e.nvert,
      ((assign_dofs_passes sampleSpace sampleState).ndata (e.en i)).n ≠ -1 ∧
      (((assign_dofs_passes sampleSpace sampleState).ndata (e.vn i)).dof =
          sampleSpace.H2D_CONSTRAINED_DOF ↔ (sampleState.ndata (e.vn i)).n = 0) ∧
      (((assign_dofs_passes sampleSpace sampleState).ndata (e.en i)).dof =
          sampleSpace.H2D_CONSTRAINED_DOF ↔ edge_essential sampleSpace (e.en i) = true)) ∧
    ((∀ e ∈ sampleSpace.mesh.active, 0 < get_element_order sampleState e.id → ∀ i < e.nvert,
        (sampleState.ndata (e.vn i)).n ≠ 0 ∧ edge_essential sampleSpace (e.en i) = false) →
      (assign_dofs_passes sampleSpace sampleState).next_dof =
        sampleState.next_dof + expected_dofs sampleSpace sampleState) :=
  conforming_assignment sampleSpace sampleState sampleSpace_wellFormed
    (sampleSpace_edgeOrders sampleState) (by decide) (fun _ => rfl) sampleSpace_conforming

/-! ### Where the dofs of a merged baselist come from -/

theorem emit_cells (ndata : Nat → NodeData) (s : MergeCursor) (x b : BaseComponent)
    (h : some b ∈ (emit ndata s x).result) : some b ∈ s.result ∨ b = x := by
  unfold emit reserve at h
  cases he : s.edge with
  | none => simpa [he] using h
  | some en =>
    by_cases h1 : (ndata en).dof ≤ x.dof
    · by_cases h2 : (ndata en).dof = x.dof
      · simpa [he, h1, h2] using h
      · simp [he, h1, h2, List.mem_replicate] at h
        tauto
    · simpa [he, h1] using h

theorem output_component_cases (ndata : Nat → NodeData) (s : MergeCursor) (m : BaseComponent) :
    output_component ndata s m = emit ndata s (halve m) ∨
      ∃ i c, (output_component ndata s m).result =
        s.result.set i (some { dof := m.dof, coef := c }) := by
  by_cases h : ∀ l, s.lastCell = some l → l.dof ≠ m.dof
  · exact Or.inl (output_component_fresh ndata s m h)
  · right
    push_neg at h
    obtain ⟨l, hc, heq⟩ := h
    cases hl : s.last with
    | none => simp [MergeCursor.lastCell, hl] at hc
    | some i =>
      refine ⟨i, l.coef + m.coef * (1 / 2), ?_⟩
      unfold output_component
      simp [hl, hc, heq]

theorem output_component_cells (ndata : Nat → NodeData) (D : Int → Prop) (s : MergeCursor)
    (m : BaseComponent) (hs : ∀ b, some b ∈ s.result → D b.dof) (hm : D m.dof) :
    ∀ b, some b ∈ (output_component ndata s m).result → D b.dof := by
  intro b hb
  rcases output_component_cases ndata s m with h | ⟨i, c, h⟩
  · rw [h] at hb
    rcases emit_cells ndata s _ b hb with h1 | h1
    · exact hs b h1
    · rw [h1]; exact hm
  · rw [h] at hb
    rcases List.mem_or_eq_of_mem_set hb with h1 | h1
    · exact hs b h1
    · have : b = { dof := m.dof, coef := c } := Option.some.inj h1
      rw [this]; exact hm

theorem merge_main_cells (ndata : Nat → NodeData) (D : Int → Prop) :
    ∀ (l1 l2 : List BaseComponent) (s : MergeCursor),
      (∀ a ∈ l1, D a.dof) → (∀ b ∈ l2, D b.dof) → (∀ b, some b ∈ s.result → D b.dof) →
      (∀ b, some b ∈ (merge_main ndata l1 l2 s).2.2.result → D b.dof) ∧
        (∀ a ∈ (merge_main ndata l1 l2 s).1, D a.dof) ∧
        (∀ b ∈ (merge_main ndata l1 l2 s).2.1, D b.dof) := by
  intro l1
  induction l1 with
  | nil =>
    intro l2 s h1 h2 hs
    simp only [merge_main]
    exact ⟨hs, h1, h2⟩
  | cons a l1 ih1 =>
    intro l2
    induction l2 with
    | nil =>
      intro s h1 h2 hs
      simp only [merge_main]
      exact ⟨hs, h1, h2⟩
    | cons b l2 ih2 =>
      intro s h1 h2 hs
      rw [merge_main]
      by_cases hab : a.dof < b.dof
      · rw [if_pos hab]
        exact ih1 (b :: l2) _ (fun x hx => h1 x (List.mem_cons_of_mem _ hx)) h2
          (output_component_cells ndata D s a hs (h1 a (List.mem_cons_self _ _)))
      · rw [if_neg hab]
        exact ih2 _ h1 (fun x hx => h2 x (List.mem_cons_of_mem _ hx))
          (output_component_cells ndata D s b hs (h2 b (List.mem_cons_self _ _)))

/-- Every written cell of the array that `merge_baselists` returns carries a
dof of one of the two lists. -/
theorem merge_baselists_cells_from (ndata : Nat → NodeData) (D : Int → Prop)
    (l1 l2 : List BaseComponent) (edge edge_dofs0 : Option Nat)
    (h1 : ∀ a ∈ l1, D a.dof) (h2 : ∀ b ∈ l2, D b.dof) :
    ∀ b, some b ∈ (merge_baselists ndata l1 l2 edge edge_dofs0).baselist → D b.dof := by
  obtain ⟨m1, m2, m3⟩ := merge_main_cells ndata D l1 l2
    { result := [], last := none, edge := edge, edge_dofs := edge_dofs0 } h1 h2
    (fun b hb => by simp at hb)
  have hfold : ∀ (l : List BaseComponent) (s : MergeCursor), (∀ a ∈ l, D a.dof) →
      (∀ b, some b ∈ s.result → D b.dof) →
      ∀ b, some b ∈ (l.foldl (output_component ndata) s).result → D b.dof := by
    intro l
    induction l with
    | nil => intro s _ hs; exact hs
    | cons x l ih =>
      intro s hl hs
      rw [List.foldl_cons]
      exact ih _ (fun a ha => hl a (List.mem_cons_of_mem _ ha))
        (output_component_cells ndata D s x hs (hl x (List.mem_cons_self _ _)))
  have h3 := hfold _ _ m3 (hfold _ _ m2 m1)
  intro b hb
  unfold merge_baselists at hb
  simp only at hb
  split at hb
  · simp only [List.mem_append, List.mem_replicate] at hb
    rcases hb with hb | hb
    · exact h3 b hb
    · exact absurd hb.2 (by simp)
  · exact h3 b hb

theorem write_cells_mem (xs : List BaseComponent) :
    ∀ (cells : List (Option BaseComponent)) (pos : Nat) (cells' : List (Option BaseComponent)),
      write_cells cells pos xs = some cells' →
      ∀ c ∈ cells', c ∈ cells ∨ ∃ x ∈ xs, c = some x := by
  induction xs with
  | nil =>
    intro cells pos cells' h c hc
    simp only [write_cells, Option.some.injEq] at h
    subst h
    exact Or.inl hc
  | cons x xs ih =>
    intro cells pos cells' h c hc
    rw [write_cells] at h
    by_cases hp : pos < cells.length
    · rw [if_pos hp] at h
      rcases ih _ _ _ h c hc with h1 | ⟨y, hy, h1⟩
      · rcases List.mem_or_eq_of_mem_set h1 with h2 | h2
        · exact Or.inl h2
        · exact Or.inr ⟨x, List.mem_cons_self _ _, h2⟩
      · exact Or.inr ⟨y, List.mem_cons_of_mem _ hy, h1⟩
    · rw [if_neg hp] at h; cases h

theorem allWritten_mem :
    ∀ (cells : List (Option BaseComponent)) (bl : List BaseComponent),
      allWritten cells = some bl → ∀ b ∈ bl, some b ∈ cells := by
  intro cells
  induction cells with
  | nil =>
    intro bl h b hb
    simp only [allWritten, Option.some.injEq] at h
    subst h
    cases hb
  | cons c cells ih =>
    intro bl h b hb
    cases c with
    | none => simp [allWritten] at h
    | some x =>
      simp only [allWritten, Option.map_eq_some'] at h
      obtain ⟨bl', h1, h2⟩ := h
      subst h2
      rcases List.mem_cons.1 hb with h3 | h3
      · subst h3; exact List.mem_cons_self _ _
      · exact List.mem_cons_of_mem _ (ih bl' h1 b h3)

/-- The node data that `update_constrained_nodes` stores for a mid-edge
vertex keep `dof`, `n` and `base`, and every dof of the stored baselist is a
dof of an endpoint baselist or of the constraining edge. -/
theorem constrained_vertex_data_dofs (sp : Space) (ndata : Nat → NodeData) (D : Int → Prop)
    (v0 v1 mid_vn : Nat) (ei : EdgeInfo) (mode : Nat) (d : NodeData)
    (h0 : ∀ b ∈ endpoint_baselist sp ndata v0, D b.dof)
    (h1 : ∀ b ∈ endpoint_baselist sp ndata v1, D b.dof)
    (he : ∀ b ∈ edge_coefs sp ndata ei mode, D b.dof)
    (h : constrained_vertex_data sp ndata v0 v1 mid_vn ei mode = some d) :
    (∀ b ∈ d.baselist, D b.dof) ∧ d.dof = (ndata mid_vn).dof ∧ d.n = (ndata mid_vn).n ∧
      d.base = (ndata mid_vn).base := by
  unfold constrained_vertex_data at h
  simp only at h
  split at h
  · cases h
  · rename_i p hp
    split at h
    · cases h
    · rename_i bl hbl
      simp only [Option.some.injEq] at h
      subst h
      refine ⟨?_, rfl, rfl, rfl⟩
      intro b hb
      obtain ⟨cells, hw, ha⟩ := Option.bind_eq_some.1 hbl
      have hmem := allWritten_mem cells bl ha b hb
      rcases write_cells_mem _ _ _ _ hw _ hmem with h2 | ⟨x, hx, h2⟩
      · exact merge_baselists_cells_from ndata D _ _ _ _ h0 h1 b h2
      · have : b = x := Option.some.inj h2
        rw [this]; exact he x hx

/-! ### Constraint propagation keeps the dofs in range -/

theorem foldlM_preserves {α β : Type} (P : α → Prop) (f : α → β → Option α) (l : List β)
    (h : ∀ s x s', x ∈ l → P s → f s x = some s' → P s') :
    ∀ s s', P s → l.foldlM f s = some s' → P s' := by
  induction l with
  | nil =>
    intro s s' hs he
    simp only [List.foldlM_nil, Option.pure_def, Option.some.injEq] at he
    subst he
    exact hs
  | cons x l ih =>
    intro s s' hs he
    simp only [List.foldlM_cons, Option.bind_eq_bind, Option.bind_eq_some] at he
    obtain ⟨s1, h1, h2⟩ := he
    exact ih (fun s y s' hy => h s y s' (List.mem_cons_of_mem _ hy)) s1 s'
      (h s x s1 (List.mem_cons_self _ _) hs h1) h2

theorem next_vert_lt (e : Element) (i : Nat) (hi : i < e.nvert) : next_vert e i < e.nvert := by
  unfold next_vert
  split
  · assumption
  · omega

theorem edge_info_args_good (P : EdgeInfo → Prop) (a b c d : Option EdgeInfo)
    (ha : ∀ x, a = some x → P x) (hb : ∀ x, b = some x → P x) (hc : ∀ x, c = some x → P x)
    (hd : ∀ x, d = some x → P x) : ∀ i x, edge_info_args a b c d i = some x → P x := by
  intro i x h
  match i with
  | 0 => exact ha x h
  | 1 => exact hb x h
  | 2 => exact hc x h
  | 3 => exact hd x h
  | _ + 4 => simp [edge_info_args] at h

theorem half_edge_infos_good (Q : Nat → Prop) (o : Option EdgeInfo)
    (h : ∀ x, o = some x → Q x.node) :
    (∀ x, (half_edge_infos o).1 = some x → Q x.node) ∧
      (∀ x, (half_edge_infos o).2 = some x → Q x.node) := by
  cases o with
  | none => simp [half_edge_infos]
  | some y =>
    have hy := h y rfl
    constructor <;> intro x hx <;> simp only [half_edge_infos, Option.some.injEq] at hx <;>
      subst hx <;> exact hy

theorem edge_infos_good (sp : Space) (rf : Refinement) (e : Element)
    (ei : Nat → Option EdgeInfo) (Q : Nat → Prop) (h : ∀ i x, ei i = some x → Q x.node)
    (hnew : ∀ i < e.nvert, ∀ x, new_edge_info sp rf e i = some x → Q x.node) :
    ∀ i x, edge_infos sp rf e ei i = some x → Q x.node := by
  intro i x hx
  unfold edge_infos at hx
  by_cases hi : i < e.nvert
  · rw [if_pos hi] at hx
    cases hei : ei i with
    | none => rw [hei] at hx; exact hnew i hi x hx
    | some y => rw [hei] at hx; exact h i x (by rw [hei]; exact hx)
  · rw [if_neg hi] at hx
    exact h i x hx

theorem rangeInv_store (s0 s : SpaceState) (e : Element) (ei : Nat → Option EdgeInfo)
    (hei : ∀ i x, ei i = some x → BlockInRange s0 x.node) (h : RangeInv s0 s) :
    RangeInv s0 { s with ndata := store_edge_infos e ei s.ndata } := by
  unfold store_edge_infos
  refine foldl_preserves (fun nd => RangeInv s0 { s with ndata := nd }) _ _ ?_ _ h
  intro nd i _ hnd
  cases hx : ei i with
  | none => exact hnd
  | some x =>
    refine ⟨hnd.next_eq, hnd.edata_eq, ?_, ?_, ?_, ?_⟩
    · intro id
      by_cases hid : id = e.en i
      · subst hid; simpa [store_edge_info] using hnd.dof_eq (e.en i)
      · simpa [Function.update_noteq hid] using hnd.dof_eq id
    · intro id
      by_cases hid : id = e.en i
      · subst hid; simpa [store_edge_info] using hnd.n_eq (e.en i)
      · simpa [Function.update_noteq hid] using hnd.n_eq id
    · intro id
      by_cases hid : id = e.en i
      · subst hid; simpa [store_edge_info] using hnd.baselist (e.en i)
      · simpa [Function.update_noteq hid] using hnd.baselist id
    · intro id b hb
      by_cases hid : id = e.en i
      · subst hid
        simp only [Function.update_same, store_edge_info, Option.some.injEq] at hb
        rw [← hb]
        exact hei i x hx
      · simp only [Function.update_noteq hid] at hb
        exact hnd.base id b hb

theorem endpoint_baselist_range (sp : Space) (s0 s : SpaceState) (h : RangeInv s0 s) (v : Nat)
    (hv : (s0.ndata v).dof < s0.next_dof) :
    ∀ b ∈ endpoint_baselist sp s.ndata v, b.dof < s0.next_dof := by
  intro b hb
  unfold endpoint_baselist at hb
  split at hb
  · exact h.baselist v b (List.mem_of_mem_take hb)
  · simp only [List.mem_singleton] at hb
    rw [hb]
    show (s.ndata v).dof < _
    rw [h.dof_eq]
    exact hv

theorem edge_coefs_range (sp : Space) (s0 s : SpaceState) (h : RangeInv s0 s) (x : EdgeInfo)
    (mode : Nat) (hx : BlockInRange s0 x.node) :
    ∀ b ∈ edge_coefs sp s.ndata x mode, b.dof < s0.next_dof := by
  intro b hb
  unfold edge_coefs at hb
  obtain ⟨k, hk, rfl⟩ := List.mem_map.1 hb
  have hk' := List.mem_range.1 hk
  show (s.ndata x.node).dof + (k : Int) < _
  rw [h.dof_eq]
  apply hx k
  rw [h.n_eq] at hk'
  omega

theorem rangeInv_mid_vertex (sp : Space) (rf : Refinement) (s0 s : SpaceState) (e : Element)
    (ei : Nat → Option EdgeInfo) (hei : ∀ i x, ei i = some x → BlockInRange s0 x.node)
    (hv : ∀ i < e.nvert, (s0.ndata (e.vn i)).dof < s0.next_dof)
    (nd nd' : Nat → NodeData) (i : Nat) (hi : i < e.nvert)
    (h : RangeInv s0 { s with ndata := nd })
    (hstep : mid_vertex_baselist sp rf e ei nd i = some nd') :
    RangeInv s0 { s with ndata := nd' } := by
  unfold mid_vertex_baselist at hstep
  cases hx : ei i with
  | none =>
    simp only [hx, Option.some.injEq] at hstep
    subst hstep; exact h
  | some x =>
    simp only [hx] at hstep
    cases hm : rf.get_mid_edge_vertex_node e i (next_vert e i) with
    | none =>
      simp only [hm, Option.some.injEq] at hstep
      subst hstep; exact h
    | some mid_vn =>
      simp only [hm, Option.map_eq_some'] at hstep
      obtain ⟨d, hd, rfl⟩ := hstep
      obtain ⟨d1, d2, d3, d4⟩ := constrained_vertex_data_dofs sp nd
        (fun k => k < s0.next_dof) _ _ mid_vn x e.mode d
        (endpoint_baselist_range sp s0 { s with ndata := nd } h _ (hv i hi))
        (endpoint_baselist_range sp s0 { s with ndata := nd } h _
          (hv _ (next_vert_lt e i hi)))
        (edge_coefs_range sp s0 { s with ndata := nd } h x e.mode (hei i x hx)) hd
      refine ⟨h.next_eq, h.edata_eq, ?_, ?_, ?_, ?_⟩
      · intro id
        by_cases hid : id = mid_vn
        · subst hid; simpa [d2] using h.dof_eq id
        · simpa [Function.update_noteq hid] using h.dof_eq id
      · intro id
        by_cases hid : id = mid_vn
        · subst hid; simpa [d3] using h.n_eq id
        · simpa [Function.update_noteq hid] using h.n_eq id
      · intro id
        by_cases hid : id = mid_vn
        · subst hid; simpa using d1
        · simpa [Function.update_noteq hid] using h.baselist id
      · intro id b hb
        by_cases hid : id = mid_vn
        · subst hid
          simp only [Function.update_same, d4] at hb
          exact h.base id b hb
        · simp only [Function.update_noteq hid] at hb
          exact h.base id b hb

theorem rangeInv_mid_vertices (sp : Space) (rf : Refinement) (s0 s s' : SpaceState)
    (e : Element) (ei : Nat → Option EdgeInfo)
    (hei : ∀ i x, ei i = some x → BlockInRange s0 x.node)
    (hv : ∀ i < e.nvert, (s0.ndata (e.vn i)).dof < s0.next_dof) (h : RangeInv s0 s)
    (hstep : mid_vertex_baselists sp rf e ei s = some s') : RangeInv s0 s' := by
  unfold mid_vertex_baselists at hstep
  simp only [Option.map_eq_some'] at hstep
  obtain ⟨nd', h1, rfl⟩ := hstep
  refine foldlM_preserves (fun nd => RangeInv s0 { s with ndata := nd }) _ _ ?_ _ _ h h1
  intro nd i nd1 hi hnd hs
  exact rangeInv_mid_vertex sp rf s0 s e ei hei hv nd nd1 i (List.mem_range.1 hi) hnd hs

/-- Constraint propagation below an element keeps the range invariant, when
the vertex dofs of the refined elements and the blocks of the constraining
edge nodes lie below `next_dof`. -/
theorem update_constrained_nodes_range (sp : Space) (rf : Refinement) (s0 : SpaceState) :
    ∀ (t : ElementTree) (ei : Nat → Option EdgeInfo) (s s' : SpaceState),
      (∀ e ∈ t.refined, ∀ i < e.nvert, (s0.ndata (e.vn i)).dof < s0.next_dof) →
      (∀ e ∈ t.refined, ∀ i < e.nvert, ∀ x, new_edge_info sp rf e i = some x →
        BlockInRange s0 x.node) →
      (∀ i x, ei i = some x → BlockInRange s0 x.node) →
      RangeInv s0 s → update_constrained_nodes sp rf t ei s = some s' → RangeInv s0 s' := by
  have hn : ∀ x : EdgeInfo, (none : Option EdgeInfo) = some x → BlockInRange s0 x.node :=
    fun _ hx => by cases hx
  intro t
  induction t with
  | active e =>
    intro ei s s' _ _ hei h hu
    rw [update_constrained_nodes] at hu
    by_cases ho : get_element_order s e.id = 0
    · rw [if_pos ho] at hu
      cases hu
      exact h
    · rw [if_neg ho] at hu
      cases hu
      exact rangeInv_store s0 s e ei hei h
  | triangle e a0 a1 a2 a3 ih0 ih1 ih2 ih3 =>
    intro ei s s' hv hc hei h hu
    rw [update_constrained_nodes] at hu
    by_cases ho : get_element_order s e.id = 0
    · rw [if_pos ho] at hu
      cases hu
      exact h
    · rw [if_neg ho] at hu
      simp only [Option.bind_eq_some] at hu
      obtain ⟨t0, h0, t1, h1, t2, h2, t3, h3, h4⟩ := hu
      have hg := edge_infos_good sp rf e ei (BlockInRange s0) hei
        (hc e (by simp [ElementTree.refined]))
      have hh := fun i => half_edge_infos_good (BlockInRange s0) _ (hg i)
      have r0 := rangeInv_mid_vertices sp rf s0 s t0 e _ hg
        (hv e (by simp [ElementTree.refined])) h h0
      have r1 : RangeInv s0 t1 := by
        refine ih0 _ t0 t1 (fun e' he' => hv e' (by simp [ElementTree.refined, he']))
          (fun e' he' => hc e' (by simp [ElementTree.refined, he'])) ?_ r0 h1
        exact edge_info_args_good (fun x => BlockInRange s0 x.node) _ _ _ _
          (hh 0).1 hn (hh 2).2 hn
      have r2 : RangeInv s0 t2 := by
        refine ih1 _ t1 t2 (fun e' he' => hv e' (by simp [ElementTree.refined, he']))
          (fun e' he' => hc e' (by simp [ElementTree.refined, he'])) ?_ r1 h2
        exact edge_info_args_good (fun x => BlockInRange s0 x.node) _ _ _ _
          (hh 0).2 (hh 1).1 hn hn
      have r3 : RangeInv s0 t3 := by
        refine ih2 _ t2 t3 (fun e' he' => hv e' (by simp [ElementTree.refined, he']))
          (fun e' he' => hc e' (by simp [ElementTree.refined, he'])) ?_ r2 h3
        exact edge_info_args_good (fun x => BlockInRange s0 x.node) _ _ _ _
          hn (hh 1).2 (hh 2).1 hn
      have r4 : RangeInv s0 s' := by
        refine ih3 _ t3 s' (fun e' he' => hv e' (by simp [ElementTree.refined, he']))
          (fun e' he' => hc e' (by simp [ElementTree.refined, he'])) ?_ r3 h4
        exact edge_info_args_good (fun x => BlockInRange s0 x.node) _ _ _ _
          hn hn hn hn
      exact r4
  | quad_h e a0 a1 ih0 ih1 =>
    intro ei s s' hv hc hei h hu
    rw [update_constrained_nodes] at hu
    by_cases ho : get_element_order s e.id = 0
    · rw [if_pos ho] at hu
      cases hu
      exact h
    · rw [if_neg ho] at hu
      simp only [Option.bind_eq_some] at hu
      obtain ⟨t0, h0, t1, h1, h2⟩ := hu
      have hg := edge_infos_good sp rf e ei (BlockInRange s0) hei
        (hc e (by simp [ElementTree.refined]))
      have hh := fun i => half_edge_infos_good (BlockInRange s0) _ (hg i)
      have r0 := rangeInv_mid_vertices sp rf s0 s t0 e _ hg
        (hv e (by simp [ElementTree.refined])) h h0
      have r1 : RangeInv s0 t1 := by
        refine ih0 _ t0 t1 (fun e' he' => hv e' (by simp [ElementTree.refined, he']))
          (fun e' he' => hc e' (by simp [ElementTree.refined, he'])) ?_ r0 h1
        exact edge_info_args_good (fun x => BlockInRange s0 x.node) _ _ _ _
          (hg 0) (hh 1).1 hn (hh 3).2
      have r2 : RangeInv s0 s' := by
        refine ih1 _ t1 s' (fun e' he' => hv e' (by simp [ElementTree.refined, he']))
          (fun e' he' => hc e' (by simp [ElementTree.refined, he'])) ?_ r1 h2
        exact edge_info_args_good (fun x => BlockInRange s0 x.node) _ _ _ _
          hn (hh 1).2 (hg 2) (hh 3).1
      exact r2
  | quad_v e a2 a3 ih0 ih1 =>
    intro ei s s' hv hc hei h hu
    rw [update_constrained_nodes] at hu
    by_cases ho : get_element_order s e.id = 0
    · rw [if_pos ho] at hu
      cases hu
      exact h
    · rw [if_neg ho] at hu
      simp only [Option.bind_eq_some] at hu
      obtain ⟨t0, h0, t1, h1, h2⟩ := hu
      have hg := edge_infos_good sp rf e ei (BlockInRange s0) hei
        (hc e (by simp [ElementTree.refined]))
      have hh := fun i => half_edge_infos_good (BlockInRange s0) _ (hg i)
      have r0 := rangeInv_mid_vertices sp rf s0 s t0 e _ hg
        (hv e (by simp [ElementTree.refined])) h h0
      have r1 : RangeInv s0 t1 := by
        refine ih0 _ t0 t1 (fun e' he' => hv e' (by simp [ElementTree.refined, he']))
          (fun e' he' => hc e' (by simp [ElementTree.refined, he'])) ?_ r0 h1
        exact edge_info_args_good (fun x => BlockInRange s0 x.node) _ _ _ _
          (hh 0).1 hn (hh 2).2 (hg 3)
      have r2 : RangeInv s0 s' := by
        refine ih1 _ t1 s' (fun e' he' => hv e' (by simp [ElementTree.refined, he']))
          (fun e' he' => hc e' (by simp [ElementTree.refined, he'])) ?_ r1 h2
        exact edge_info_args_good (fun x => BlockInRange s0 x.node) _ _ _ _
          (hh 0).2 (hg 1) (hh 2).1 hn
      exact r2
  | quad_full e a0 a1 a2 a3 ih0 ih1 ih2 ih3 =>
    intro ei s s' hv hc hei h hu
    rw [update_constrained_nodes] at hu
    by_cases ho : get_element_order s e.id = 0
    · rw [if_pos ho] at hu
      cases hu
      exact h
    · rw [if_neg ho] at hu
      simp only [Option.bind_eq_some] at hu
      obtain ⟨t0, h0, t1, h1, t2, h2, t3, h3, h4⟩ := hu
      have hg := edge_infos_good sp rf e ei (BlockInRange s0) hei
        (hc e (by simp [ElementTree.refined]))
      have hh := fun i => half_edge_infos_good (BlockInRange s0) _ (hg i)
      have r0 := rangeInv_mid_vertices sp rf s0 s t0 e _ hg
        (hv e (by simp [ElementTree.refined])) h h0
      have r1 : RangeInv s0 t1 := by
        refine ih0 _ t0 t1 (fun e' he' => hv e' (by simp [ElementTree.refined, he']))
          (fun e' he' => hc e' (by simp [ElementTree.refined, he'])) ?_ r0 h1
        exact edge_info_args_good (fun x => BlockInRange s0 x.node) _ _ _ _
          (hh 0).1 hn hn (hh 3).2
      have r2 : RangeInv s0 t2 := by
        refine ih1 _ t1 t2 (fun e' he' => hv e' (by simp [ElementTree.refined, he']))
          (fun e' he' => hc e' (by simp [ElementTree.refined, he'])) ?_ r1 h2
        exact edge_info_args_good (fun x => BlockInRange s0 x.node) _ _ _ _
          (hh 0).2 (hh 1).1 hn hn
      have r3 : RangeInv s0 t3 := by
        refine ih2 _ t2 t3 (fun e' he' => hv e' (by simp [ElementTree.refined, he']))
          (fun e' he' => hc e' (by simp [ElementTree.refined, he'])) ?_ r2 h3
        exact edge_info_args_good (fun x => BlockInRange s0 x.node) _ _ _ _
          hn (hh 1).2 (hh 2).1 hn
      have r4 : RangeInv s0 s' := by
        refine ih3 _ t3 s' (fun e' he' => hv e' (by simp [ElementTree.refined, he']))
          (fun e' he' => hc e' (by simp [ElementTree.refined, he'])) ?_ r3 h4
        exact edge_info_args_good (fun x => BlockInRange s0 x.node) _ _ _ _
          hn hn (hh 2).2 (hh 3).1
      exact r4

/-- The same for `update_constraints`, over the base elements. -/
theorem update_constraints_range (sp : Space) (rf : Refinement) (s0 s' : SpaceState)
    (hv : ∀ t ∈ rf.base, ∀ e ∈ t.refined, ∀ i < e.nvert,
      (s0.ndata (e.vn i)).dof < s0.next_dof)
    (hc : ∀ t ∈ rf.base, ∀ e ∈ t.refined, ∀ i < e.nvert, ∀ x,
      new_edge_info sp rf e i = some x → BlockInRange s0 x.node)
    (h : RangeInv s0 s0) (hu : update_constraints sp rf s0 = some s') : RangeInv s0 s' := by
  unfold update_constraints at hu
  refine foldlM_preserves (RangeInv s0) _ _ ?_ _ _ h hu
  intro s t s1 ht hs hstep
  exact update_constrained_nodes_range sp rf s0 t _ s s1 (hv t ht) (hc t ht)
    (edge_info_args_good (fun x => BlockInRange s0 x.node) _ _ _ _
      (fun _ hx => by cases hx) (fun _ hx => by cases hx) (fun _ hx => by cases hx)
      (fun _ hx => by cases hx)) hs hstep

/-! ### The dofs of the assembly lists -/

theorem assign_vertex_dofs_visit_keeps (sp : Space) (e : Element) (s : SpaceState) (i id : Nat) :
    ((assign_vertex_dofs_visit sp e s i).ndata id).baselist = (s.ndata id).baselist ∧
      ((assign_vertex_dofs_visit sp e s i).ndata id).base = (s.ndata id).base := by
  rcases assign_vertex_dofs_visit_cases sp e s i with h | ⟨_, _, _, h⟩ | ⟨_, _, _, h⟩ <;>
    rw [h]
  · exact ⟨rfl, rfl⟩
  all_goals
    by_cases hid : id = e.vn i
    · subst hid; simp
    · simp [Function.update_noteq hid]

theorem assign_edge_dofs_visit_keeps (sp : Space) (e : Element) (s : SpaceState) (i id : Nat) :
    ((assign_edge_dofs_visit sp e s i).ndata id).baselist = (s.ndata id).baselist ∧
      ((assign_edge_dofs_visit sp e s i).ndata id).base = (s.ndata id).base := by
  rcases assign_edge_dofs_visit_cases sp e s i with
    h | ⟨_, _, h⟩ | ⟨_, _, _, h⟩ | ⟨_, _, _, h⟩ <;> rw [h]
  · exact ⟨rfl, rfl⟩
  all_goals
    by_cases hid : id = e.en i
    · subst hid; simp
    · simp [Function.update_noteq hid]

/-- The assignment passes leave the stored baselists and constraining edges
as they are. -/
theorem assign_dofs_passes_keeps (sp : Space) (st : SpaceState) (id : Nat) :
    ((assign_dofs_passes sp st).ndata id).baselist = (st.ndata id).baselist ∧
      ((assign_dofs_passes sp st).ndata id).base = (st.ndata id).base := by
  have hnd : (assign_dofs_passes sp st).ndata =
      (assign_edge_dofs sp (assign_vertex_dofs sp st)).ndata :=
    (assign_bubble_dofs_counts sp _).1
  rw [hnd]
  have h1 : ((assign_vertex_dofs sp st).ndata id).baselist = (st.ndata id).baselist ∧
      ((assign_vertex_dofs sp st).ndata id).base = (st.ndata id).base := by
    rw [assign_vertex_dofs_flat]
    refine foldl_preserves (fun s : SpaceState =>
      (s.ndata id).baselist = (st.ndata id).baselist ∧ (s.ndata id).base = (st.ndata id).base)
      _ _ ?_ _ ⟨rfl, rfl⟩
    intro s p _ hs
    obtain ⟨k1, k2⟩ := assign_vertex_dofs_visit_keeps sp p.1 s p.2 id
    exact ⟨k1.trans hs.1, k2.trans hs.2⟩
  rw [assign_edge_dofs_flat]
  refine foldl_preserves (fun s : SpaceState =>
    (s.ndata id).baselist = (st.ndata id).baselist ∧ (s.ndata id).base = (st.ndata id).base)
    _ _ ?_ _ h1
  intro s p _ hs
  obtain ⟨k1, k2⟩ := assign_edge_dofs_visit_keeps sp p.1 s p.2 id
  exact ⟨k1.trans hs.1, k2.trans hs.2⟩

/-- Every triplet that `get_vertex_assembly_list` adds carries the dof of the
vertex or a dof of its stored baselist. -/
theorem get_vertex_assembly_list_dofs (sp : Space) (ndata : Nat → NodeData) (D : Int → Prop)
    (e : Element) (iv : Nat) (al l : List Triplet)
    (hv : D (ndata (e.vn iv)).dof) (hb : ∀ b ∈ (ndata (e.vn iv)).baselist, D b.dof)
    (hal : ∀ t ∈ al, D t.dof) (h : get_vertex_assembly_list sp ndata e iv al = some l) :
    ∀ t ∈ l, D t.dof := by
  unfold get_vertex_assembly_list at h
  simp only at h
  split at h
  · split at h
    · cases h
      intro t ht
      simp only [add_triplet, List.mem_append, List.mem_singleton] at ht
      rcases ht with ht | ht
      · exact hal t ht
      · rw [ht]; exact hv
    · split at h
      · cases h
        intro t ht
        simp only [add_triplet, List.mem_append, List.mem_singleton] at ht
        rcases ht with ht | ht
        · exact hal t ht
        · rw [ht]; exact hv
      · cases h
  · split at h
    · cases h
      rw [foldl_add_nonzero]
      intro t ht
      simp only [List.mem_append, List.mem_map, List.mem_filter] at ht
      rcases ht with ht | ⟨b, ⟨hb1, _⟩, rfl⟩
      · exact hal t ht
      · exact hb b (List.mem_of_mem_take hb1)
    · cases h

/-- Every triplet that `get_boundary_assembly_list_internal` adds carries a
dof of the block of the edge node, the dof `-1`, or a dof of the block of the
constraining edge node. -/
theorem get_boundary_assembly_list_dofs (sp : Space) (ndata : Nat → NodeData) (D : Int → Prop)
    (e : Element) (surf_num : Nat) (al l : List Triplet) (hneg : D (-1))
    (hblock : 0 ≤ (ndata (e.en surf_num)).dof → ∀ k : Nat,
      (k : Int) < (ndata (e.en surf_num)).n → D ((ndata (e.en surf_num)).dof + (k : Int)))
    (hbase : ∀ b, (ndata (e.en surf_num)).base = some b → ∀ k : Nat,
      (k : Int) < (ndata b).n → D ((ndata b).dof + (k : Int)))
    (hal : ∀ t ∈ al, D t.dof)
    (h : get_boundary_assembly_list_internal sp ndata e surf_num al = some l) :
    ∀ t ∈ l, D t.dof := by
  unfold get_boundary_assembly_list_internal at h
  simp only at h
  split at h
  · split at h
    · rename_i hd
      cases h
      refine foldl_preserves (fun al : List Triplet => ∀ t ∈ al, D t.dof) _ _ ?_ _ hal
      intro al' j hj hal' t ht
      simp only [add_triplet, List.mem_append, List.mem_singleton] at ht
      rcases ht with ht | ht
      · exact hal' t ht
      · rw [ht]
        have := List.mem_range.1 hj
        exact hblock hd j (by omega)
    · refine foldlM_preserves (fun al : List Triplet => ∀ t ∈ al, D t.dof) _ _ ?_ _ _ hal h
      intro al' j al'' _ hal' hstep t ht
      split at hstep
      · cases hstep
        simp only [add_triplet, List.mem_append, List.mem_singleton] at ht
        rcases ht with ht | ht
        · exact hal' t ht
        · rw [ht]; exact hneg
      · cases hstep
  · split at h
    · cases h
    · rename_i b hb
      cases h
      refine foldl_preserves (fun al : List Triplet => ∀ t ∈ al, D t.dof) _ _ ?_ _ hal
      intro al' j hj hal' t ht
      simp only [add_triplet, List.mem_append, List.mem_singleton] at ht
      rcases ht with ht | ht
      · exact hal' t ht
      · rw [ht]
        have := List.mem_range.1 hj
        exact hbase b hb j (by omega)

/-- After the passes from a state without assigned dofs, the dof of every
vertex node lies below `next_dof`. -/
theorem assign_dofs_passes_vertex_range (sp : Space) (st : SpaceState) (hwf : WellFormed sp)
    (hord : EdgeOrdersPositive sp st) (h0 : 0 ≤ st.next_dof)
    (hun : ∀ id, (st.ndata id).dof = sp.H2D_UNASSIGNED_DOF) (id : Nat)
    (hty : (sp.mesh.node id).type = NodeType.vertex) :
    ((assign_dofs_passes sp st).ndata id).dof < (assign_dofs_passes sp st).next_dof := by
  have inv := assign_dofs_passes_inv sp st hwf hord h0 hun
  by_cases hd : 0 ≤ ((assign_dofs_passes sp st).ndata id).dof
  · exact (inv.part.bound (DofOwner.vertex id) _ ⟨hty, hd, rfl⟩).2
  · have := inv.part.le
    omega

/-- After the passes from a state without assigned dofs, an eligible edge
without an essential boundary condition, of an active element of positive
order, has its block below `next_dof`. -/
theorem assign_dofs_passes_block (sp : Space) (st : SpaceState) (hwf : WellFormed sp)
    (hord : EdgeOrdersPositive sp st) (h0 : 0 ≤ st.next_dof)
    (hun : ∀ id, (st.ndata id).dof = sp.H2D_UNASSIGNED_DOF) (a : Element)
    (ha : a ∈ sp.mesh.active) (ho : 0 < get_element_order st a.id) (k : Nat) (hk : k < a.nvert)
    (hel : edge_eligible sp (a.en k) = true) (hes : edge_essential sp (a.en k) = false) :
    BlockInRange (assign_dofs_passes sp st) (a.en k) := by
  have inv := assign_dofs_passes_inv sp st hwf hord h0 hun
  obtain ⟨_, _, hM⟩ := assign_dofs_passes_markInv sp st hwf hord h0 hun
  have hty := hwf.edge_type a ha k hk
  have hne : ((assign_dofs_passes sp st).ndata (a.en k)).dof ≠ sp.H2D_UNASSIGNED_DOF := by
    rcases (assign_dofs_passes_visited sp st hwf hord h0 a ha ho k hk).2 with h | ⟨h, _⟩
    · exact h
    · rw [hel] at h; cases h
  have hnc : ((assign_dofs_passes sp st).ndata (a.en k)).dof ≠ sp.H2D_CONSTRAINED_DOF := by
    intro h
    have := ((hM.edge_mark _ hty hne).1).1 h
    rw [hes] at this
    cases this
  have hpos : 0 ≤ ((assign_dofs_passes sp st).ndata (a.en k)).dof := by
    by_contra hneg
    rcases inv.sentinel _ (not_le.1 hneg) with h | h
    · exact hne h
    · exact hnc h
  have hb := inv.edge_block _ hty hpos
  intro j hj
  omega

/-- C15. After the three assignment passes from `next_dof = 0`, from a node
table without assigned dofs, stored baselists or stored constraining edges,
followed by `update_constraints`: every triplet that
`get_vertex_assembly_list` or `get_boundary_assembly_list_internal` emits for
a vertex or an edge of an active element has a dof that, when nonnegative,
lies below `next_dof`. This covers the dofs taken from the baselist of a
hanging vertex and from the constraining edge of a constrained edge. -/
theorem assembly_dofs_in_range (sp : Space) (rf : Refinement) (st s2 : SpaceState)
    (hwf : WellFormed sp) (hord : EdgeOrdersPositive sp st) (h0 : st.next_dof = 0)
    (hun : ∀ id, (st.ndata id).dof = sp.H2D_UNASSIGNED_DOF)
    (hfresh : ∀ id, (st.ndata id).baselist = [] ∧ (st.ndata id).base = none)
    (hok : ConstraintsOK sp rf st)
    (hu : update_constraints sp rf (assign_dofs_passes sp st) = some s2) :
    ∀ e ∈ sp.mesh.active, ∀ i < e.nvert, ∀ l,
      (get_vertex_assembly_list sp s2.ndata e i [] = some l ∨
        get_boundary_assembly_list_internal sp s2.ndata e i [] = some l) →
      ∀ t ∈ l, 0 ≤ t.dof → t.dof < s2.next_dof := by
  have h0' : 0 ≤ st.next_dof := by omega
  have inv := assign_dofs_passes_inv sp st hwf hord h0' hun
  have hinit : RangeInv (assign_dofs_passes sp st) (assign_dofs_passes sp st) := by
    refine ⟨rfl, rfl, fun _ => rfl, fun _ => rfl, ?_, ?_⟩
    · intro id b hb
      rw [(assign_dofs_passes_keeps sp st id).1, (hfresh id).1] at hb
      cases hb
    · intro id b hb
      rw [(assign_dofs_passes_keeps sp st id).2, (hfresh id).2] at hb
      cases hb
  have hr := update_constraints_range sp rf (assign_dofs_passes sp st) s2
    (fun t ht e he i hi =>
      assign_dofs_passes_vertex_range sp st hwf hord h0' hun _ (hok.vertex_type t ht e he i hi))
    (fun t ht e he i hi x hx => by
      obtain ⟨hel, hes, a, ha, ho, k, hk, hak⟩ := hok.constraining t ht e he i hi x hx
      rw [← hak] at hel hes ⊢
      exact assign_dofs_passes_block sp st hwf hord h0' hun a ha ho k hk hel hes)
    hinit hu
  have hnext : 0 ≤ (assign_dofs_passes sp st).next_dof := by
    have := inv.part.le
    omega
  intro e he i hi l hl t ht _
  rw [hr.next_eq]
  rcases hl with hl | hl
  · refine get_vertex_assembly_list_dofs sp s2.ndata
      (fun d => d < (assign_dofs_passes sp st).next_dof) e i [] l ?_ (hr.baselist _)
      (fun _ h => by cases h) hl t ht
    show (s2.ndata (e.vn i)).dof < _
    rw [hr.dof_eq]
    exact assign_dofs_passes_vertex_range sp st hwf hord h0' hun _ (hwf.vertex_type e he i hi)
  · refine get_boundary_assembly_list_dofs sp s2.ndata
      (fun d => d < (assign_dofs_passes sp st).next_dof) e i [] l ?_ ?_ ?_
      (fun _ h => by cases h) hl t ht
    · show (-1 : Int) < _
      omega
    · intro hd k hk
      show (s2.ndata (e.en i)).dof + (k : Int) < _
      rw [hr.dof_eq] at hd ⊢
      rw [hr.n_eq] at hk
      have hb := inv.edge_block _ (hwf.edge_type e he i hi) hd
      omega
    · intro b hb k hk
      show (s2.ndata b).dof + (k : Int) < _
      rw [hr.dof_eq]
      rw [hr.n_eq] at hk
      exact hr.base _ b hb k hk

theorem store_edge_infos_none (e : Element) (ei : Nat → Option EdgeInfo) (nd : Nat → NodeData)
    (h : ∀ i, ei i = none) : store_edge_infos e ei nd = nd := by
  unfold store_edge_infos
  refine foldl_preserves (fun x => x = nd) _ _ ?_ _ rfl
  intro s i _ hs
  simp only [h i]
  exact hs

theorem update_constrained_nodes_active (sp : Space) (rf : Refinement) (e : Element)
    (ei : Nat → Option EdgeInfo) (s : SpaceState) :
    update_constrained_nodes sp rf (ElementTree.active e) ei s =
      some (if get_element_order s e.id = 0 then s
        else { s with ndata := store_edge_infos e ei s.ndata }) := by
  rw [update_constrained_nodes]
  split <;> rfl

/-- The baselist of a mid-edge vertex can be completed when both endpoint
baselists are strictly ascending and each holds all or none of the dofs of
the constraining edge. -/
theorem constrained_vertex_data_some (sp : Space) (ndata : Nat → NodeData)
    (v0 v1 mid_vn : Nat) (ei : EdgeInfo) (mode : Nat)
    (hs0 : StrictAsc (endpoint_baselist sp ndata v0))
    (hs1 : StrictAsc (endpoint_baselist sp ndata v1))
    (hn : 0 ≤ (ndata ei.node).n)
    (ha0 : AllOrNone (ndata ei.node).dof (ndata ei.node).n (endpoint_baselist sp ndata v0))
    (ha1 : AllOrNone (ndata ei.node).dof (ndata ei.node).n (endpoint_baselist sp ndata v1)) :
    ∃ nd, constrained_vertex_data sp ndata v0 v1 mid_vn ei mode = some nd := by
  obtain ⟨bl, f1, _⟩ := fill_edge_slots sp ndata ei mode _ _ hs0 hs1 hn ha0 ha1
  obtain ⟨_, c2, _⟩ := merge_baselists_cells ndata _ _ ei.node none hs0 hs1
  refine ⟨{ ndata mid_vn with
      baselist := bl
      ncomponents := (merge_baselists ndata (endpoint_baselist sp ndata v0)
        (endpoint_baselist sp ndata v1) (some ei.node) none).ncomponents }, ?_⟩
  unfold constrained_vertex_data
  simp only [c2, f1]

theorem sampleRefinedSpace_wellFormed : WellFormed sampleRefinedSpace := by
  refine ⟨by decide, by decide, by decide, by decide, by decide, ?_, by decide⟩
  intro o m
  simp [sampleRefinedSpace, sampleShapeset]

theorem sampleRefinedSpace_edgeOrders (st : SpaceState) :
    EdgeOrdersPositive sampleRefinedSpace st := by
  intro e _ _ i _
  simp [sampleRefinedSpace]

theorem sampleRefinement_ok :
    ConstraintsOK sampleRefinedSpace sampleRefinement sampleRefinedState := by
  constructor
  · intro t ht e he i hi
    simp only [sampleRefinement, List.mem_cons, List.mem_singleton, List.not_mem_nil,
      or_false] at ht
    rcases ht with rfl | rfl
    · simp [ElementTree.refined] at he
    · simp only [ElementTree.refined, List.append_nil, List.mem_singleton] at he
      subst he
      have : i < 3 := hi
      interval_cases i <;> rfl
  · intro t ht e he i hi x hx
    simp only [sampleRefinement, List.mem_cons, List.mem_singleton, List.not_mem_nil,
      or_false] at ht
    rcases ht with rfl | rfl
    · simp [ElementTree.refined] at he
    · simp only [ElementTree.refined, List.append_nil, List.mem_singleton] at he
      subst he
      have : i < 3 := hi
      interval_cases i
      · have h0 : new_edge_info sampleRefinedSpace sampleRefinement sampleParent 0 =
            some { node := 10, part := -1, ori := 0, lo := -1, hi := 1 } := rfl
        rw [h0] at hx
        cases hx
        refine ⟨by decide, by decide, sampleCoarse, by simp [sampleRefinedSpace, sampleRefinedMesh],
          by decide, 0, by decide, rfl⟩
      · cases hx
      · cases hx

theorem update_constrained_nodes_active_none (sp : Space) (rf : Refinement) (e : Element)
    (s : SpaceState) :
    update_constrained_nodes sp rf (ElementTree.active e) (edge_info_args none none none none) s =
      some s := by
  rw [update_constrained_nodes_active, store_edge_infos_none _ _ _ (fun i => by
    match i with
    | 0 => rfl
    | 1 => rfl
    | 2 => rfl
    | 3 => rfl
    | _ + 4 => rfl)]
  split <;> rfl

theorem sampleRefinement_vertex_data :
    ∃ d0, constrained_vertex_data sampleRefinedSpace
      (assign_dofs_passes sampleRefinedSpace sampleRefinedState).ndata
      (sampleParent.vn 0) (sampleParent.vn (next_vert sampleParent 0)) 4
      { node := 10, part := -1, ori := 0, lo := -1, hi := 1 } sampleParent.mode = some d0 :=
  constrained_vertex_data_some sampleRefinedSpace
    (assign_dofs_passes sampleRefinedSpace sampleRefinedState).ndata
    (sampleParent.vn 0) (sampleParent.vn (next_vert sampleParent 0)) 4
    { node := 10, part := -1, ori := 0, lo := -1, hi := 1 } sampleParent.mode
    (by decide) (by decide) (by decide) (by decide) (by decide)

theorem sampleRefinement_update_of (s : SpaceState)
    (ho : get_element_order s sampleParent.id ≠ 0)
    (hd : ∃ d0, constrained_vertex_data sampleRefinedSpace s.ndata
      (sampleParent.vn 0) (sampleParent.vn (next_vert sampleParent 0)) 4
      { node := 10, part := -1, ori := 0, lo := -1, hi := 1 } sampleParent.mode = some d0) :
    ∃ s2, update_constraints sampleRefinedSpace sampleRefinement s = some s2 := by
  obtain ⟨d0, hd0⟩ := hd
  have hx0 : edge_infos sampleRefinedSpace sampleRefinement sampleParent
      (edge_info_args none none none none) 0 =
      some { node := 10, part := -1, ori := 0, lo := -1, hi := 1 } := rfl
  have hx1 : edge_infos sampleRefinedSpace sampleRefinement sampleParent
      (edge_info_args none none none none) 1 = none := rfl
  have hx2 : edge_infos sampleRefinedSpace sampleRefinement sampleParent
      (edge_info_args none none none none) 2 = none := rfl
  have hm0 : sampleRefinement.get_mid_edge_vertex_node sampleParent 0
      (next_vert sampleParent 0) = some 4 := rfl
  have hmid : ∃ t0, mid_vertex_baselists sampleRefinedSpace sampleRefinement sampleParent
      (edge_infos sampleRefinedSpace sampleRefinement sampleParent
        (edge_info_args none none none none)) s = some t0 := by
    unfold mid_vertex_baselists
    have hr : List.range sampleParent.nvert = [0, 1, 2] := rfl
    simp only [hr, List.foldlM_cons, List.foldlM_nil, mid_vertex_baselist, hx0, hx1, hx2, hm0,
      hd0, Option.map_some', Option.bind_eq_bind, Option.some_bind, Option.pure_def]
    exact ⟨_, rfl⟩
  obtain ⟨t0, ht0⟩ := hmid
  have hb : sampleRefinement.base =
      [ElementTree.active sampleCoarse,
       ElementTree.triangle sampleParent (ElementTree.active sampleSon0)
         (ElementTree.active sampleSon1) (ElementTree.active sampleSon2)
         (ElementTree.active sampleSon3)] := rfl
  unfold update_constraints
  rw [hb]
  simp only [List.foldlM_cons, List.foldlM_nil, Option.bind_eq_bind, Option.pure_def,
    update_constrained_nodes_active_none, Option.some_bind]
  rw [update_constrained_nodes, if_neg ho]
  simp only [ht0, Option.some_bind, update_constrained_nodes_active,
    update_constrained_nodes_active_none]
  exact ⟨_, rfl⟩

theorem sampleRefinement_update :
    ∃ s2, update_constraints sampleRefinedSpace sampleRefinement
      (assign_dofs_passes sampleRefinedSpace sampleRefinedState) = some s2 :=
  sampleRefinement_update_of _
    (by rw [assign_dofs_passes_order]; decide) sampleRefinement_vertex_data

/-- The witness of C15: the coarse triangle next to the refined triangle,
with the hanging vertex 4 and the constrained edges 20 and 23. -/
theorem assembly_dofs_in_range_witness :
    ∃ s2, update_constraints sampleRefinedSpace sampleRefinement
        (assign_dofs_passes sampleRefinedSpace sampleRefinedState) = some s2 ∧
      ∀ e ∈ sampleRefinedSpace.mesh.active, ∀ i < e.nvert, ∀ l,
        (get_vertex_assembly_list sampleRefinedSpace s2.ndata e i [] = some l ∨
          get_boundary_assembly_list_internal sampleRefinedSpace s2.ndata e i [] = some l) →
        ∀ t ∈ l, 0 ≤ t.dof → t.dof < s2.next_dof :=
  sampleRefinement_update.imp fun s2 h2 =>
    ⟨h2, assembly_dofs_in_range sampleRefinedSpace sampleRefinement sampleRefinedState s2
      sampleRefinedSpace_wellFormed (sampleRefinedSpace_edgeOrders sampleRefinedState) rfl
      (fun _ => rfl) (fun _ => ⟨rfl, rfl⟩) sampleRefinement_ok h2⟩

/-! ### The part code as a binary path -/

theorem descend_cons (o : Option EdgeInfo) (b : Bool) (bits : List Bool) :
    descend o (b :: bits) = descend (half_edge_info o b) bits := rfl

theorem bits_from_cons (v : Nat) (b : Bool) (bits : List Bool) :
    bits_from v (b :: bits) = bits_from (2 * v + (if b then 1 else 0)) bits := rfl

/-- The invariant of the descents: after `k0` descents with value `v0`, the
code is `2 ^ k0 + v0 - 2` and the interval is the `v0`-th of the `2 ^ k0`
equal parts of `[-1, 1]`. -/
theorem descend_spec (bits : List Bool) :
    ∀ (x0 : EdgeInfo) (k0 v0 : Nat), x0.part + 2 = ((2 ^ k0 + v0 : Nat) : Int) → v0 < 2 ^ k0 →
      x0.lo = -1 + 2 * (v0 : ℚ) / 2 ^ k0 → x0.hi = x0.lo + 2 / 2 ^ k0 →
      ∃ x, descend (some x0) bits = some x ∧
        x.part + 2 = ((2 ^ (k0 + bits.length) + bits_from v0 bits : Nat) : Int) ∧
        bits_from v0 bits < 2 ^ (k0 + bits.length) ∧
        x.lo = -1 + 2 * (bits_from v0 bits : ℚ) / 2 ^ (k0 + bits.length) ∧
        x.hi = x.lo + 2 / 2 ^ (k0 + bits.length) ∧ x.node = x0.node ∧ x.ori = x0.ori := by
  induction bits with
  | nil =>
    intro x0 k0 v0 hp hv hlo hhi
    exact ⟨x0, rfl, hp, hv, hlo, hhi, rfl, rfl⟩
  | cons b bits ih =>
    intro x0 k0 v0 hp hv hlo hhi
    have hpow : (2 : ℚ) ^ (k0 + 1) = 2 * 2 ^ k0 := by ring
    have hne : (2 : ℚ) ^ k0 ≠ 0 := pow_ne_zero _ (by norm_num)
    cases b with
    | false =>
      obtain ⟨x, h1, h2, h3, h4, h5, h6, h7⟩ := ih
        { node := x0.node, part := (x0.part + 1) * 2, ori := x0.ori,
          lo := x0.lo, hi := (x0.lo + x0.hi) / 2 } (k0 + 1) (2 * v0 + 0)
        (by show (x0.part + 1) * 2 + 2 = _
            push_cast
            rw [pow_succ]
            push_cast at hp
            linarith)
        (by rw [pow_succ]; omega)
        (by show x0.lo = _
            rw [hlo, hpow]
            push_cast
            field_simp
            ring)
        (by show (x0.lo + x0.hi) / 2 = x0.lo + _
            rw [hhi, hpow]
            field_simp
            ring)
      have hk : k0 + (bits.length + 1) = k0 + 1 + bits.length := by ring
      have hb : bits_from v0 (false :: bits) = bits_from (2 * v0 + 0) bits := rfl
      refine ⟨x, h1, ?_, ?_, ?_, ?_, h6, h7⟩ <;> rw [List.length_cons, hk] <;>
        (try rw [hb]) <;> assumption
    | true =>
      obtain ⟨x, h1, h2, h3, h4, h5, h6, h7⟩ := ih
        { node := x0.node, part := (x0.part + 1) * 2 + 1, ori := x0.ori,
          lo := (x0.lo + x0.hi) / 2, hi := x0.hi } (k0 + 1) (2 * v0 + 1)
        (by show (x0.part + 1) * 2 + 1 + 2 = _
            push_cast
            rw [pow_succ]
            push_cast at hp
            linarith)
        (by rw [pow_succ]; omega)
        (by show (x0.lo + x0.hi) / 2 = _
            rw [hhi, hlo, hpow]
            push_cast
            field_simp
            ring)
        (by show x0.hi = (x0.lo + x0.hi) / 2 + _
            rw [hhi, hpow]
            field_simp
            ring)
      have hk : k0 + (bits.length + 1) = k0 + 1 + bits.length := by ring
      have hb : bits_from v0 (true :: bits) = bits_from (2 * v0 + 1) bits := rfl
      refine ⟨x, h1, ?_, ?_, ?_, ?_, h6, h7⟩ <;> rw [List.length_cons, hk] <;>
        (try rw [hb]) <;> assumption

theorem bits_from_inj (bits : List Bool) :
    ∀ (bits' : List Bool) (v v' : Nat), bits.length = bits'.length →
      bits_from v bits = bits_from v' bits' → v = v' ∧ bits = bits' := by
  induction bits with
  | nil =>
    intro bits' v v' hl h
    cases bits' with
    | nil => exact ⟨h, rfl⟩
    | cons _ _ => simp at hl
  | cons b bits ih =>
    intro bits' v v' hl h
    cases bits' with
    | nil => simp at hl
    | cons b' bits' =>
      rw [bits_from_cons, bits_from_cons] at h
      obtain ⟨hv, ht⟩ := ih bits' _ _ (by simpa using hl) h
      subst ht
      cases b <;> cases b' <;> simp at hv <;> first | omega | (refine ⟨by omega, ?_⟩; rfl)

theorem pow_two_code_inj (k k' v v' : Nat) (hv : v < 2 ^ k) (hv' : v' < 2 ^ k')
    (h : 2 ^ k + v = 2 ^ k' + v') : k = k' ∧ v = v' := by
  have hk : k = k' := by
    rcases Nat.lt_trichotomy k k' with hlt | heq | hgt
    · have : 2 ^ (k + 1) ≤ 2 ^ k' := Nat.pow_le_pow_right (by norm_num) hlt
      rw [pow_succ] at this
      omega
    · exact heq
    · have : 2 ^ (k' + 1) ≤ 2 ^ k := Nat.pow_le_pow_right (by norm_num) hgt
      rw [pow_succ] at this
      omega
  subst hk
  exact ⟨rfl, by omega⟩

/-- C24. The part code is a binary path from the root constraining edge.
The root edge info that `update_constrained_nodes` creates has `part = -1`
and the interval `[-1, 1]`. From such a root, the edge info reached by
`k >= 1` half-edge descents with the bits `b1 ... bk` (0 the first half, 1
the second) has `part >= 0` and `part + 2 = 2 ^ k + (b1 ... bk)`, the binary
number `1 b1 ... bk`; its interval is `[lo, lo + 2 / 2 ^ k]` with
`lo = -1 + 2 * (b1 ... bk) / 2 ^ k`; node and orientation are those of the
root. Two descent sequences with the same part code are equal. -/
theorem part_code_binary_path (root : EdgeInfo) (hp : root.part = -1) (hlo : root.lo = -1)
    (hhi : root.hi = 1) :
    (∀ (sp : Space) (rf : Refinement) (e : Element) (i : Nat) (r : EdgeInfo),
      new_edge_info sp rf e i = some r → r.part = -1 ∧ r.lo = -1 ∧ r.hi = 1) ∧
    (∀ bits : List Bool, 1 ≤ bits.length →
      ∃ x, descend (some root) bits = some x ∧ 0 ≤ x.part ∧
        x.part + 2 = ((2 ^ bits.length + bits_value bits : Nat) : Int) ∧
        bits_value bits < 2 ^ bits.length ∧
        x.lo = -1 + 2 * (bits_value bits : ℚ) / 2 ^ bits.length ∧
        x.hi = x.lo + 2 / 2 ^ bits.length ∧ x.node = root.node ∧ x.ori = root.ori) ∧
    (∀ (bits bits' : List Bool) (x x' : EdgeInfo), 1 ≤ bits.length → 1 ≤ bits'.length →
      descend (some root) bits = some x → descend (some root) bits' = some x' →
      x.part = x'.part → bits = bits') := by
  have hroot : ∀ bits : List Bool,
      ∃ x, descend (some root) bits = some x ∧
        x.part + 2 = ((2 ^ bits.length + bits_value bits : Nat) : Int) ∧
        bits_value bits < 2 ^ bits.length ∧
        x.lo = -1 + 2 * (bits_value bits : ℚ) / 2 ^ bits.length ∧
        x.hi = x.lo + 2 / 2 ^ bits.length ∧ x.node = root.node ∧ x.ori = root.ori := by
    intro bits
    have h := descend_spec bits root 0 0 (by rw [hp]; norm_num) (by norm_num)
      (by rw [hlo]; norm_num) (by rw [hhi, hlo]; norm_num)
    simpa only [Nat.zero_add, bits_value] using h
  refine ⟨?_, ?_, ?_⟩
  · intro sp rf e i r hr
    unfold new_edge_info at hr
    split at hr
    · cases hr
    · split at hr
      · split at hr
        · cases hr
        · cases hr
          exact ⟨rfl, rfl, rfl⟩
      · cases hr
  · intro bits hk
    obtain ⟨x, h1, h2, h3, h4, h5, h6, h7⟩ := hroot bits
    refine ⟨x, h1, ?_, h2, h3, h4, h5, h6, h7⟩
    have : 2 ^ 1 ≤ 2 ^ bits.length := Nat.pow_le_pow_right (by norm_num) hk
    push_cast at h2
    have h2' : ((2 : Int) ^ bits.length) = ((2 ^ bits.length : Nat) : Int) := by push_cast; rfl
    rw [h2'] at h2
    omega
  · intro bits bits' x x' _ _ hx hx' hpart
    obtain ⟨y, h1, h2, h3, _⟩ := hroot bits
    obtain ⟨y', h1', h2', h3', _⟩ := hroot bits'
    rw [hx] at h1
    rw [hx'] at h1'
    cases h1
    cases h1'
    rw [hpart, h2'] at h2
    have hn : 2 ^ bits'.length + bits_value bits' = 2 ^ bits.length + bits_value bits := by
      exact_mod_cast h2
    obtain ⟨hlen, hval⟩ := pow_two_code_inj _ _ _ _ h3' h3 hn
    exact (bits_from_inj bits bits' 0 0 hlen.symm hval.symm).2

/-- The witness of C24: from the root edge info of edge node 3, the first
half and then the second half lead to the part code 3 (binary `1 0 1` is 5)
and to the interval `[-1/2, 0]`. -/
theorem part_code_binary_path_witness :
    ∃ x, descend (some sampleEdgeInfo) [false, true] = some x ∧ 0 ≤ x.part ∧
      x.part + 2 = ((2 ^ 2 + bits_value [false, true] : Nat) : Int) ∧
      bits_value [false, true] < 2 ^ 2 ∧
      x.lo = -1 + 2 * (bits_value [false, true] : ℚ) / 2 ^ 2 ∧
      x.hi = x.lo + 2 / 2 ^ 2 ∧ x.node = sampleEdgeInfo.node ∧ x.ori = sampleEdgeInfo.ori :=
  (part_code_binary_path sampleEdgeInfo rfl rfl rfl).2.1 [false, true] (by decide)

/-! ### The number of components of a merge -/

/-- In a strictly ascending list, the first component with `dof >= e` has the
dof `e` exactly when `e` is a dof of the list. -/
theorem head_dropWhile_iff (cs : List BaseComponent) (hs : StrictAsc cs) (e : Int) :
    ((cs.dropWhile (fun x => decide (x.dof < e))).head?).map (·.dof) = some e ↔
      e ∈ cs.map (·.dof) := by
  have hpp : cs.takeWhile (fun x => decide (x.dof < e)) ++
      cs.dropWhile (fun x => decide (x.dof < e)) = cs := List.takeWhile_append_dropWhile _ _
  have hge := dropWhile_dof_ge e cs hs
  have hlt := takeWhile_dof_lt e cs
  have hsplit := (strictAsc_append _ _).1 (by rw [hpp]; exact hs)
  constructor
  · intro h
    cases hp : cs.dropWhile (fun x => decide (x.dof < e)) with
    | nil => rw [hp] at h; simp at h
    | cons x post =>
      rw [hp] at h
      simp only [List.head?_cons, Option.map_some', Option.some.injEq] at h
      refine List.mem_map.2 ⟨x, ?_, h⟩
      rw [← hpp, hp]
      simp
  · intro h
    obtain ⟨x, hx, hxe⟩ := List.mem_map.1 h
    rw [← hpp, List.mem_append] at hx
    rcases hx with hx | hx
    · have := hlt x hx
      omega
    · cases hp : cs.dropWhile (fun x => decide (x.dof < e)) with
      | nil => rw [hp] at hx; cases hx
      | cons y post =>
        simp only [List.head?_cons, Option.map_some', Option.some.injEq]
        have hy := hge y (by rw [hp]; simp)
        rw [hp] at hx
        rcases List.mem_cons.1 hx with rfl | hx
        · exact hxe
        · have hs' := (strictAsc_cons y post).1 (by rw [← hp]; exact hsplit.2.1)
          have := hs'.1 x hx
          omega

theorem strictAsc_nodup (l : List BaseComponent) (h : StrictAsc l) : (l.map (·.dof)).Nodup :=
  List.Pairwise.imp (fun h => ne_of_lt h) h

/-- The merged components are as many as the distinct dofs of the two
lists. -/
theorem mergeSpec_length (l1 l2 : List BaseComponent) (h1 : StrictAsc l1) (h2 : StrictAsc l2) :
    (mergeSpec l1 l2).length = ((l1 ++ l2).map (·.dof)).toFinset.card := by
  obtain ⟨p1, p2, _⟩ := mergeSpec_props _ l1 l2 rfl h1 h2
  have hfin : ((mergeSpec l1 l2).map (·.dof)).toFinset = ((l1 ++ l2).map (·.dof)).toFinset := by
    ext d
    simp only [List.mem_toFinset, List.map_append, List.mem_append]
    exact p2 d
  rw [← hfin, List.toFinset_card_of_nodup (strictAsc_nodup _ p1), List.length_map]

/-- The distinct dofs of two strictly ascending lists are at most
`n1 + n2`, and fewer exactly when the lists share a dof. -/
theorem distinct_dofs_bound (l1 l2 : List BaseComponent) (h1 : StrictAsc l1)
    (h2 : StrictAsc l2) :
    ((l1 ++ l2).map (·.dof)).toFinset.card ≤ l1.length + l2.length ∧
      (((l1 ++ l2).map (·.dof)).toFinset.card < l1.length + l2.length ↔
        ∃ d, d ∈ l1.map (·.dof) ∧ d ∈ l2.map (·.dof)) := by
  have c1 : (l1.map (·.dof)).toFinset.card = l1.length := by
    rw [List.toFinset_card_of_nodup (strictAsc_nodup _ h1), List.length_map]
  have c2 : (l2.map (·.dof)).toFinset.card = l2.length := by
    rw [List.toFinset_card_of_nodup (strictAsc_nodup _ h2), List.length_map]
  have hu := Finset.card_union_add_card_inter (l1.map (·.dof)).toFinset (l2.map (·.dof)).toFinset
  rw [c1, c2] at hu
  rw [List.map_append, List.toFinset_append]
  refine ⟨by omega, ?_⟩
  have hi : 0 < ((l1.map (·.dof)).toFinset ∩ (l2.map (·.dof)).toFinset).card ↔
      ∃ d, d ∈ l1.map (·.dof) ∧ d ∈ l2.map (·.dof) := by
    rw [Finset.card_pos]
    constructor
    · rintro ⟨d, hd⟩
      rw [Finset.mem_inter, List.mem_toFinset, List.mem_toFinset] at hd
      exact ⟨d, hd⟩
    · rintro ⟨d, hd⟩
      exact ⟨d, by rw [Finset.mem_inter, List.mem_toFinset, List.mem_toFinset]; exact hd⟩
  rw [← hi]
  omega

theorem merge_baselists_ncomponents_none (ndata : Nat → NodeData) (l1 l2 : List BaseComponent)
    (edge_dofs0 : Option Nat) (h1 : StrictAsc l1) (h2 : StrictAsc l2) :
    (merge_baselists ndata l1 l2 none edge_dofs0).ncomponents = (mergeSpec l1 l2).length := by
  rw [merge_baselists_eq_spec ndata l1 l2 none edge_dofs0 h1 h2]
  obtain ⟨r1, r2, _⟩ := foldl_emit_no_edge ndata (mergeSpec l1 l2)
    { result := [], last := none, edge := none, edge_dofs := edge_dofs0 } rfl
  simp [merge_finish, r1, r2]

theorem merge_baselists_ncomponents_some (ndata : Nat → NodeData) (l1 l2 : List BaseComponent)
    (en : Nat) (edge_dofs0 : Option Nat) (h1 : StrictAsc l1) (h2 : StrictAsc l2) :
    (merge_baselists ndata l1 l2 (some en) edge_dofs0).ncomponents =
      (mergeSpec l1 l2).length +
        (if (ndata en).dof ∈ (l1 ++ l2).map (·.dof) then 0 else (ndata en).n.toNat) := by
  obtain ⟨p1, p2, _⟩ := mergeSpec_props _ l1 l2 rfl h1 h2
  obtain ⟨c1, _, c3⟩ := merge_baselists_cells ndata l1 l2 en edge_dofs0 h1 h2
  have hiff := head_dropWhile_iff (mergeSpec l1 l2) p1 (ndata en).dof
  have hmem : (ndata en).dof ∈ (mergeSpec l1 l2).map (·.dof) ↔
      (ndata en).dof ∈ (l1 ++ l2).map (·.dof) := by
    rw [p2, List.map_append, List.mem_append]
  have hlen : ((mergeSpec l1 l2).takeWhile (fun x => decide (x.dof < (ndata en).dof))).length +
      ((mergeSpec l1 l2).dropWhile (fun x => decide (x.dof < (ndata en).dof))).length =
      (mergeSpec l1 l2).length := by
    rw [← List.length_append, List.takeWhile_append_dropWhile]
  rw [c3, c1]
  by_cases hin : (ndata en).dof ∈ (l1 ++ l2).map (·.dof)
  · rw [if_pos (hiff.2 (hmem.2 hin)), if_pos hin]
    simp only [List.length_append, List.length_map, List.length_nil]
    omega
  · rw [if_neg (fun h => hin (hmem.1 (hiff.1 h))), if_neg hin]
    simp only [List.length_append, List.length_map, List.length_replicate]
    omega

/-- C23. For strictly ascending baselists `l1`, `l2` and a constraining edge
node with `n >= 0` edge functions (or none), the `ncomponents` that
`merge_baselists` returns is the number of distinct dofs of `l1` and `l2`
together, plus `n` if an edge is given and its first dof is no dof of `l1` or
`l2`. It is at most the allocated bound `max_result = n1 + n2 + n` (`n1 + n2`
without an edge), and below it exactly when `l1` and `l2` share a dof or the
dof of the edge occurs already and `n > 0`. -/
theorem merge_baselists_ncomponents (ndata : Nat → NodeData) (l1 l2 : List BaseComponent)
    (edge edge_dofs0 : Option Nat) (h1 : StrictAsc l1) (h2 : StrictAsc l2)
    (hn : ∀ en, edge = some en → 0 ≤ (ndata en).n) :
    ((merge_baselists ndata l1 l2 edge edge_dofs0).ncomponents : Int) =
        (((l1 ++ l2).map (·.dof)).toFinset.card : Int) +
          (match edge with
           | some en => if (ndata en).dof ∈ (l1 ++ l2).map (·.dof) then 0 else (ndata en).n
           | none => 0) ∧
      ((merge_baselists ndata l1 l2 edge edge_dofs0).ncomponents : Int) ≤
        max_result ndata l1 l2 edge ∧
      (((merge_baselists ndata l1 l2 edge edge_dofs0).ncomponents : Int) <
          max_result ndata l1 l2 edge ↔
        (∃ d, d ∈ l1.map (·.dof) ∧ d ∈ l2.map (·.dof)) ∨
          ∃ en, edge = some en ∧ (ndata en).dof ∈ (l1 ++ l2).map (·.dof) ∧ 0 < (ndata en).n) := by
  obtain ⟨b1, b2⟩ := distinct_dofs_bound l1 l2 h1 h2
  have hlen := mergeSpec_length l1 l2 h1 h2
  cases edge with
  | none =>
    have hc := merge_baselists_ncomponents_none ndata l1 l2 edge_dofs0 h1 h2
    rw [hc, hlen]
    simp only [max_result, add_zero]
    refine ⟨trivial, by exact_mod_cast b1, ?_⟩
    constructor
    · intro h
      exact Or.inl (b2.1 (by exact_mod_cast h))
    · rintro (h | ⟨en, hen, _⟩)
      · exact_mod_cast b2.2 h
      · cases hen
  | some en =>
    have hc := merge_baselists_ncomponents_some ndata l1 l2 en edge_dofs0 h1 h2
    have hnn := hn en rfl
    have hcast : (((ndata en).n.toNat : Nat) : Int) = (ndata en).n := Int.toNat_of_nonneg hnn
    rw [hc, hlen]
    simp only [max_result]
    by_cases hin : (ndata en).dof ∈ (l1 ++ l2).map (·.dof)
    · simp only [if_pos hin, add_zero, Nat.cast_add, Nat.cast_zero]
      refine ⟨trivial, by omega, ?_⟩
      constructor
      · intro h
        by_cases hs : ∃ d, d ∈ l1.map (·.dof) ∧ d ∈ l2.map (·.dof)
        · exact Or.inl hs
        · have : ¬ ((l1 ++ l2).map (·.dof)).toFinset.card < l1.length + l2.length :=
            fun hlt => hs (b2.1 hlt)
          exact Or.inr ⟨en, rfl, hin, by omega⟩
      · rintro (h | ⟨en', hen, _, hpos⟩)
        · have := b2.2 h
          omega
        · cases hen
          omega
    · simp only [if_neg hin, Nat.cast_add]
      rw [hcast]
      refine ⟨rfl, by omega, ?_⟩
      constructor
      · intro h
        exact Or.inl (b2.1 (by omega))
      · rintro (h | ⟨en', hen, hin', _⟩)
        · have := b2.2 h
          omega
        · cases hen
          exact absurd hin' hin

/-- The witness of C23 on the two sample baselists, which share the dof 1,
with an edge node whose dof 5 is in neither list: five components, below the
bound seven. -/
theorem merge_baselists_ncomponents_witness :
    ((merge_baselists sampleNdata sampleA sampleB (some 0) none).ncomponents : Int) =
        (((sampleA ++ sampleB).map (·.dof)).toFinset.card : Int) +
          (if (sampleNdata 0).dof ∈ (sampleA ++ sampleB).map (·.dof) then 0
            else (sampleNdata 0).n) ∧
      ((merge_baselists sampleNdata sampleA sampleB (some 0) none).ncomponents : Int) ≤
        max_result sampleNdata sampleA sampleB (some 0) ∧
      (((merge_baselists sampleNdata sampleA sampleB (some 0) none).ncomponents : Int) <
          max_result sampleNdata sampleA sampleB (some 0) ↔
        (∃ d, d ∈ sampleA.map (·.dof) ∧ d ∈ sampleB.map (·.dof)) ∨
          ∃ en, some 0 = some en ∧ (sampleNdata en).dof ∈ (sampleA ++ sampleB).map (·.dof) ∧
            0 < (sampleNdata en).n) :=
  merge_baselists_ncomponents sampleNdata sampleA sampleB (some 0) none (by decide) (by decide)
    (fun _ _ => by simp [sampleNdata])

/-! ### Which forms contribute -/

/-- The completed baselist in terms of the merged components `cs`: the
components below the edge dof, then the edge entries, then the components
from the edge dof on, without the first `n` of them when the edge dofs were
in the merge already (these are the cells that the edge entries overwrite). -/
theorem fill_edge_slots_cells (sp : Space) (ndata : Nat → NodeData) (ei : EdgeInfo) (mode : Nat)
    (l0 l1 : List BaseComponent) (hs0 : StrictAsc l0) (hs1 : StrictAsc l1)
    (hn : 0 ≤ (ndata ei.node).n)
    (ha0 : AllOrNone (ndata ei.node).dof (ndata ei.node).n l0)
    (ha1 : AllOrNone (ndata ei.node).dof (ndata ei.node).n l1) :
    ∃ m,
      (write_cells (merge_baselists ndata l0 l1 (some ei.node) none).baselist
          ((mergeSpec l0 l1).takeWhile (fun x => x.dof < (ndata ei.node).dof)).length
          (edge_coefs sp ndata ei mode)).bind allWritten =
        some ((mergeSpec l0 l1).takeWhile (fun x => x.dof < (ndata ei.node).dof) ++
          edge_coefs sp ndata ei mode ++
          ((mergeSpec l0 l1).dropWhile (fun x => x.dof < (ndata ei.node).dof)).drop m) ∧
      (((mergeSpec l0 l1).dropWhile (fun x => x.dof < (ndata ei.node).dof)).take m).map (·.dof) =
        (List.range m).map (fun (k : Nat) => (ndata ei.node).dof + (k : Int)) ∧
      m ≤ ((mergeSpec l0 l1).dropWhile (fun x => x.dof < (ndata ei.node).dof)).length ∧
      (m = (ndata ei.node).n.toNat ∨
        (m = 0 ∧ (ndata ei.node).dof ∉ (mergeSpec l0 l1).map (·.dof))) := by
  obtain ⟨p1, p2, _⟩ := mergeSpec_props _ l0 l1 rfl hs0 hs1
  obtain ⟨c1, _, _⟩ := merge_baselists_cells ndata l0 l1 ei.node none hs0 hs1
  have hiff := head_dropWhile_iff (mergeSpec l0 l1) p1 (ndata ei.node).dof
  set cs := mergeSpec l0 l1 with hcs
  set e := (ndata ei.node).dof with he
  set nn := (ndata ei.node).n.toNat with hnn
  set xs := edge_coefs sp ndata ei mode with hxs
  set pre := cs.takeWhile (fun x => x.dof < e) with hpre
  set post := cs.dropWhile (fun x => x.dof < e) with hpost
  have hpp : pre ++ post = cs := List.takeWhile_append_dropWhile _ _
  have hxl : xs.length = nn := edge_coefs_length sp ndata ei mode
  have hprelt : ∀ a ∈ pre, a.dof < e := takeWhile_dof_lt e cs
  have hpostge : ∀ b ∈ post, e ≤ b.dof := dropWhile_dof_ge e cs p1
  have hsplit := (strictAsc_append pre post).1 (by rw [hpp]; exact p1)
  by_cases hhead : (post.head?).map (·.dof) = some e
  · rw [if_pos hhead] at c1
    have hin : e ∈ cs.map (·.dof) := hiff.1 hhead
    have hnn' : ((nn : Nat) : Int) = (ndata ei.node).n := Int.toNat_of_nonneg hn
    have hallcs : ∀ k ∈ List.range nn, e + (k : Int) ∈ cs.map (·.dof) := by
      intro k hk
      have hk' := List.mem_range.1 hk
      rcases (p2 e).1 hin with h | h
      · rcases ha0 with hall | hnone
        · exact (p2 _).2 (Or.inl (hall k hk))
        · obtain ⟨y, hy, hye⟩ := List.mem_map.1 h
          have := hnone y hy
          have hye' : y.dof = e := hye
          omega
      · rcases ha1 with hall | hnone
        · exact (p2 _).2 (Or.inr (hall k hk))
        · obtain ⟨y, hy, hye⟩ := List.mem_map.1 h
          have := hnone y hy
          have hye' : y.dof = e := hye
          omega
    have hallpost : ∀ k ∈ List.range nn, e + (k : Int) ∈ post.map (·.dof) := by
      intro k hk
      have h := hallcs k hk
      rw [← hpp, List.map_append, List.mem_append] at h
      rcases h with h | h
      · obtain ⟨y, hy, hye⟩ := List.mem_map.1 h
        have := hprelt y hy
        have hye' : y.dof = e + (k : Int) := hye
        omega
      · exact h
    obtain ⟨t1, t2⟩ := take_consecutive nn post e hsplit.2.1 hpostge hallpost
    have hcells : (merge_baselists ndata l0 l1 (some ei.node) none).baselist =
        pre.map some ++ (post.take nn).map some ++ (post.drop nn).map some := by
      simp only [c1, List.append_nil, List.append_assoc, ← List.map_append,
        List.take_append_drop]
    have hw := write_cells_overwrite xs (pre.map some) ((post.take nn).map some)
      ((post.drop nn).map some) (by simp [hxl, t1])
    rw [List.length_map] at hw
    refine ⟨nn, ?_, t2, t1, Or.inl rfl⟩
    rw [hcells, hw, Option.some_bind, ← List.map_append, ← List.map_append,
      allWritten_map_some]
  · rw [if_neg hhead] at c1
    have hw := write_cells_reserved xs (pre.map some) (post.map some)
    rw [List.length_map, hxl] at hw
    refine ⟨0, ?_, by simp, by simp, Or.inr ⟨rfl, fun h => hhead (hiff.2 h)⟩⟩
    rw [c1, hw, Option.some_bind, ← List.map_append, ← List.map_append, allWritten_map_some]
    simp

/-- The completed baselist when the dofs of the two endpoint lists are `d0`,
`d1` and the dofs of the constraining edge: it holds `d0` and `d1` with the
half sums `c0`, `c1` of their coefficients, and the edge entries. -/
theorem completed_baselist_two_vertices (sp : Space) (ndata : Nat → NodeData) (ei : EdgeInfo)
    (mode : Nat) (l0 l1 : List BaseComponent) (d0 d1 : Int) (c0 c1 : ℚ)
    (hs0 : StrictAsc l0) (hs1 : StrictAsc l1) (hn : 0 ≤ (ndata ei.node).n)
    (ha0 : AllOrNone (ndata ei.node).dof (ndata ei.node).n l0)
    (ha1 : AllOrNone (ndata ei.node).dof (ndata ei.node).n l1)
    (hdofs : ∀ d, (d ∈ l0.map (·.dof) ∨ d ∈ l1.map (·.dof)) ↔
      (d = d0 ∨ d = d1 ∨ ∃ k ∈ List.range (ndata ei.node).n.toNat,
        d = (ndata ei.node).dof + (k : Int)))
    (hout0 : ∀ k ∈ List.range (ndata ei.node).n.toNat, d0 ≠ (ndata ei.node).dof + (k : Int))
    (hout1 : ∀ k ∈ List.range (ndata ei.node).n.toNat, d1 ≠ (ndata ei.node).dof + (k : Int))
    (hc0 : 1 / 2 * (coefOf l0 d0 + coefOf l1 d0) = c0)
    (hc1 : 1 / 2 * (coefOf l0 d1 + coefOf l1 d1) = c1) (hne : d0 ≠ d1) :
    ∃ bl,
      (write_cells (merge_baselists ndata l0 l1 (some ei.node) none).baselist
          ((mergeSpec l0 l1).takeWhile (fun x => x.dof < (ndata ei.node).dof)).length
          (edge_coefs sp ndata ei mode)).bind allWritten = some bl ∧
      bl.Perm ({ dof := d0, coef := c0 } :: { dof := d1, coef := c1 } ::
        edge_coefs sp ndata ei mode) ∧
      StrictAsc bl ∧
      bl.length = (merge_baselists ndata l0 l1 (some ei.node) none).baselist.length := by
  obtain ⟨bl', g1, _, g3, _⟩ := fill_edge_slots sp ndata ei mode l0 l1 hs0 hs1 hn ha0 ha1
  obtain ⟨m, hbl, ht, hm, hmcase⟩ := fill_edge_slots_cells sp ndata ei mode l0 l1 hs0 hs1 hn ha0 ha1
  obtain ⟨p1, p2, p3⟩ := mergeSpec_props _ l0 l1 rfl hs0 hs1
  have hxd := edge_coefs_dofs sp ndata ei mode
  set cs := mergeSpec l0 l1 with hcs
  set e := (ndata ei.node).dof with he
  set nn := (ndata ei.node).n.toNat with hnn
  set xs := edge_coefs sp ndata ei mode with hxs
  set pre := cs.takeWhile (fun x => x.dof < e) with hpre
  set post := cs.dropWhile (fun x => x.dof < e) with hpost
  have hpp : pre ++ post = cs := List.takeWhile_append_dropWhile _ _
  have hprelt : ∀ a ∈ pre, a.dof < e := takeWhile_dof_lt e cs
  have hsplit := (strictAsc_append pre post).1 (by rw [hpp]; exact p1)
  -- the overwritten cells are those of the edge dofs
  have hmn : m = nn := by
    rcases hmcase with h | ⟨h0, hnot⟩
    · exact h
    · rw [h0]
      by_contra hpos
      have h0' : 0 ∈ List.range nn := List.mem_range.2 (by omega)
      have : e ∈ cs.map (·.dof) :=
        (p2 e).2 ((hdofs e).2 (Or.inr (Or.inr ⟨0, h0', by simp⟩)))
      exact hnot this
  subst hmn
  have htd : post.take nn ++ post.drop nn = post := List.take_append_drop _ _
  have hsplit2 := (strictAsc_append (post.take nn) (post.drop nn)).1 (by rw [htd]; exact hsplit.2.1)
  have hR : StrictAsc (pre ++ post.drop nn) := by
    rw [strictAsc_append]
    exact ⟨hsplit.1, hsplit2.2.1, fun a ha b hb => hsplit.2.2 a ha b (List.mem_of_mem_drop hb)⟩
  have htake : ∀ y ∈ post.take nn, ∃ k ∈ List.range nn, y.dof = e + (k : Int) := by
    intro y hy
    have : y.dof ∈ (post.take nn).map (·.dof) := List.mem_map.2 ⟨y, hy, rfl⟩
    rw [ht] at this
    obtain ⟨k, hk, hke⟩ := List.mem_map.1 this
    exact ⟨k, hk, hke.symm⟩
  have houtR : ∀ x ∈ pre ++ post.drop nn, ∀ k ∈ List.range nn, x.dof ≠ e + (k : Int) := by
    intro x hx k hk hxe
    rcases List.mem_append.1 hx with hx | hx
    · have := hprelt x hx
      omega
    · have hk' : e + (k : Int) ∈ (post.take nn).map (·.dof) := by
        rw [ht]; exact List.mem_map.2 ⟨k, hk, rfl⟩
      obtain ⟨y, hy, hye⟩ := List.mem_map.1 hk'
      have := hsplit2.2.2 y hy x hx
      have hye' : y.dof = e + (k : Int) := hye
      omega
  have hRcs : ∀ x ∈ pre ++ post.drop nn, x ∈ cs := by
    intro x hx
    rw [← hpp]
    rcases List.mem_append.1 hx with hx | hx
    · exact List.mem_append_left _ hx
    · exact List.mem_append_right _ (List.mem_of_mem_drop hx)
  have hfind : ∀ (d : Int) (c : ℚ), (d = d0 ∨ d = d1) →
      1 / 2 * (coefOf l0 d + coefOf l1 d) = c →
      (∀ k ∈ List.range nn, d ≠ e + (k : Int)) →
      ({ dof := d, coef := c } : BaseComponent) ∈ pre ++ post.drop nn := by
    intro d c hd hc hout
    have hin : d ∈ cs.map (·.dof) :=
      (p2 d).2 ((hdofs d).2 (by rcases hd with h | h; exact Or.inl h; exact Or.inr (Or.inl h)))
    obtain ⟨y, hy, hyd⟩ := List.mem_map.1 hin
    have hyd' : y.dof = d := hyd
    have hyc := p3 y hy
    have hy' : y = { dof := d, coef := c } := by
      cases y
      simp only [BaseComponent.mk.injEq]
      simp only at hyd' hyc
      exact ⟨hyd', by rw [hyc, hyd', hc]⟩
    rw [← hy']
    rw [← hpp, ← htd, List.mem_append, List.mem_append] at hy
    rcases hy with hy | hy | hy
    · exact List.mem_append_left _ hy
    · obtain ⟨k, hk, hke⟩ := htake y hy
      exact absurd (hyd'.symm.trans hke) (hout k hk)
    · exact List.mem_append_right _ hy
  have hperm2 : (pre ++ post.drop nn).Perm
      [{ dof := d0, coef := c0 }, { dof := d1, coef := c1 }] := by
    refine (List.perm_ext_iff_of_nodup (List.Nodup.of_map _ (strictAsc_nodup _ hR)) ?_).2 ?_
    · simp only [List.nodup_cons, List.mem_singleton, BaseComponent.mk.injEq, not_and,
        List.not_mem_nil, not_false_eq_true, List.nodup_nil, and_true]
      intro h
      exact absurd h hne
    · intro x
      constructor
      · intro hx
        have hxcs := hRcs x hx
        have hxd' : x.dof ∈ cs.map (·.dof) := List.mem_map.2 ⟨x, hxcs, rfl⟩
        have hxc := p3 x hxcs
        rcases (hdofs x.dof).1 ((p2 x.dof).1 hxd') with h | h | ⟨k, hk, h⟩
        · have : x = { dof := d0, coef := c0 } := by
            cases x
            simp only [BaseComponent.mk.injEq]
            simp only at h hxc
            exact ⟨h, by rw [hxc, h, hc0]⟩
          rw [this]; simp
        · have : x = { dof := d1, coef := c1 } := by
            cases x
            simp only [BaseComponent.mk.injEq]
            simp only at h hxc
            exact ⟨h, by rw [hxc, h, hc1]⟩
          rw [this]; simp
        · exact absurd h (houtR x hx k hk)
      · intro hx
        simp only [List.mem_cons, List.mem_singleton, List.not_mem_nil, or_false] at hx
        rcases hx with rfl | rfl
        · exact hfind d0 c0 (Or.inl rfl) hc0 hout0
        · exact hfind d1 c1 (Or.inr rfl) hc1 hout1
  have hbl' : bl' = pre ++ xs ++ post.drop nn := by
    rw [hbl] at g1
    exact (Option.some.inj g1).symm
  refine ⟨pre ++ xs ++ post.drop nn, hbl, ?_, ?_, by rw [← hbl']; exact g3⟩
  · have h1 : (pre ++ xs ++ post.drop nn).Perm ((pre ++ post.drop nn) ++ xs) := by
      rw [List.append_assoc, List.append_assoc]
      exact List.Perm.append_left _ List.perm_append_comm
    exact h1.trans (hperm2.append_right xs)
  · have hd : cs.map (·.dof) = (pre ++ xs ++ post.drop nn).map (·.dof) := by
      rw [List.map_append, List.map_append, hxd, ← ht, ← List.map_append, ← List.map_append,
        List.append_assoc, htd, hpp]
    exact strictAsc_of_map_dof cs _ hd p1

/-- C22. Transitive constraint resolution. Let `Q` be the hanging vertex in
the middle of the first half `[-1, 0]` of a constraining edge with first dof
`e` and `n` edge functions, between an unconstrained vertex with the free dof
`d0` and the resolved hanging vertex `M`, whose baselist (strictly ascending)
consists of `(d0, 1/2)`, `(d1, 1/2)` and `(e + k, value of the k-th edge
function at 0)` for `k < n`. Then `update_constrained_nodes` stores for `Q`
the `2 + n` components `(d0, 3/4)`, `(d1, 1/4)` and `(e + k, value of the
k-th edge function at -1/2)`, strictly ascending in dof, whichever of the two
endpoints comes first. -/
theorem transitive_hanging_vertex_baselist (sp : Space) (ndata : Nat → NodeData)
    (v0 vM mid_vn : Nat) (ei : EdgeInfo) (mode : Nat) (n : Nat) (d1 : Int)
    (hv0 : (sp.mesh.node v0).is_constrained_vertex = false) (hd0 : 0 ≤ (ndata v0).dof)
    (hvM : (sp.mesh.node vM).is_constrained_vertex = true)
    (hn : (ndata ei.node).n = n) (hlo : ei.lo = -1) (hhi : ei.hi = 0)
    (hs : StrictAsc ((ndata vM).baselist.take (ndata vM).ncomponents))
    (hM : ((ndata vM).baselist.take (ndata vM).ncomponents).Perm
      ({ dof := (ndata v0).dof, coef := 1 / 2 } :: { dof := d1, coef := 1 / 2 } ::
        (List.range n).map fun (k : Nat) =>
          { dof := (ndata ei.node).dof + (k : Int)
            coef := sp.shapeset.get_fn_value
              (sp.shapeset.get_edge_index 0 ei.ori ((k : Int) + 2) mode) 0 (-1) 0 mode })) :
    (∃ nd, constrained_vertex_data sp ndata v0 vM mid_vn ei mode = some nd ∧
      nd.ncomponents = 2 + n ∧ StrictAsc nd.baselist ∧
      nd.baselist.Perm
        ({ dof := (ndata v0).dof, coef := 3 / 4 } :: { dof := d1, coef := 1 / 4 } ::
          (List.range n).map fun (k : Nat) =>
            { dof := (ndata ei.node).dof + (k : Int)
              coef := sp.shapeset.get_fn_value
                (sp.shapeset.get_edge_index 0 ei.ori ((k : Int) + 2) mode) (-1 / 2) (-1) 0
                  mode })) ∧
    (∃ nd, constrained_vertex_data sp ndata vM v0 mid_vn ei mode = some nd ∧
      nd.ncomponents = 2 + n ∧ StrictAsc nd.baselist ∧
      nd.baselist.Perm
        ({ dof := (ndata v0).dof, coef := 3 / 4 } :: { dof := d1, coef := 1 / 4 } ::
          (List.range n).map fun (k : Nat) =>
            { dof := (ndata ei.node).dof + (k : Int)
              coef := sp.shapeset.get_fn_value
                (sp.shapeset.get_edge_index 0 ei.ori ((k : Int) + 2) mode) (-1 / 2) (-1) 0
                  mode })) := by
  set blM := (ndata vM).baselist.take (ndata vM).ncomponents with hblM
  set a : BaseComponent := { dof := (ndata v0).dof, coef := 1 } with ha
  have hb0 : endpoint_baselist sp ndata v0 = [a] := by
    simp [endpoint_baselist, hv0, hd0, ha]
  have hb1 : endpoint_baselist sp ndata vM = blM := by
    simp [endpoint_baselist, hvM, hblM]
  have hmid : (ei.lo + ei.hi) * (1 / 2) = -1 / 2 := by rw [hlo, hhi]; norm_num
  have hnn : (ndata ei.node).n.toNat = n := by rw [hn]; rfl
  have hn0 : 0 ≤ (ndata ei.node).n := by rw [hn]; exact Int.natCast_nonneg n
  have hec : edge_coefs sp ndata ei mode =
      (List.range n).map fun (k : Nat) =>
        { dof := (ndata ei.node).dof + (k : Int)
          coef := sp.shapeset.get_fn_value
            (sp.shapeset.get_edge_index 0 ei.ori ((k : Int) + 2) mode) (-1 / 2) (-1) 0 mode } := by
    unfold edge_coefs
    rw [hmid, hnn]
  have hsa : StrictAsc [a] := by simp [StrictAsc]
  -- the dofs of the baselist of `M`
  have hdM : ∀ d, d ∈ blM.map (·.dof) ↔
      (d = (ndata v0).dof ∨ d = d1 ∨
        ∃ k ∈ List.range (ndata ei.node).n.toNat, d = (ndata ei.node).dof + (k : Int)) := by
    intro d
    rw [(hM.map (·.dof)).mem_iff, hnn]
    simp only [List.map_cons, List.map_map, List.mem_cons, List.mem_map, Function.comp_def]
    constructor
    · rintro (h | h | ⟨k, hk, h⟩)
      · exact Or.inl h
      · exact Or.inr (Or.inl h)
      · exact Or.inr (Or.inr ⟨k, hk, h.symm⟩)
    · rintro (h | h | ⟨k, hk, h⟩)
      · exact Or.inl h
      · exact Or.inr (Or.inl h)
      · exact Or.inr (Or.inr ⟨k, hk, h.symm⟩)
  have hnd := ((hM.map (·.dof)).nodup_iff).1 (strictAsc_nodup blM hs)
  simp only [List.map_cons, List.map_map, List.nodup_cons, List.mem_cons, List.mem_map,
    Function.comp_def, not_or, not_exists, not_and] at hnd
  obtain ⟨⟨hne, hout0'⟩, hout1', _⟩ := hnd
  have hout0 : ∀ k ∈ List.range (ndata ei.node).n.toNat,
      (ndata v0).dof ≠ (ndata ei.node).dof + (k : Int) := by
    intro k hk h
    rw [hnn] at hk
    exact hout0' k hk h.symm
  have hout1 : ∀ k ∈ List.range (ndata ei.node).n.toNat,
      d1 ≠ (ndata ei.node).dof + (k : Int) := by
    intro k hk h
    rw [hnn] at hk
    exact hout1' k hk h.symm
  have haa : AllOrNone (ndata ei.node).dof (ndata ei.node).n [a] := by
    right
    intro x hx
    simp only [List.mem_singleton] at hx
    subst hx
    by_contra hcon
    simp only [not_or, not_lt, not_le] at hcon
    have hk : ((ndata v0).dof - (ndata ei.node).dof).toNat ∈
        List.range (ndata ei.node).n.toNat := by
      rw [List.mem_range]
      have : a.dof = (ndata v0).dof := rfl
      omega
    apply hout0 _ hk
    have : a.dof = (ndata v0).dof := rfl
    omega
  have haM : AllOrNone (ndata ei.node).dof (ndata ei.node).n blM := by
    left
    intro k hk
    exact (hdM _).2 (Or.inr (Or.inr ⟨k, hk, rfl⟩))
  have hcM0 : coefOf blM (ndata v0).dof = 1 / 2 :=
    coefOf_mem blM hs { dof := (ndata v0).dof, coef := 1 / 2 }
      (hM.mem_iff.2 (List.mem_cons_self _ _))
  have hcM1 : coefOf blM d1 = 1 / 2 :=
    coefOf_mem blM hs { dof := d1, coef := 1 / 2 }
      (hM.mem_iff.2 (List.mem_cons_of_mem _ (List.mem_cons_self _ _)))
  have hca0 : coefOf [a] (ndata v0).dof = 1 := by simp [coefOf, ha]
  have hca1 : coefOf [a] d1 = 0 := by simp [coefOf, ha, hne]
  have hd01 : ∀ d, (d ∈ [a].map (·.dof) ∨ d ∈ blM.map (·.dof)) ↔
      (d = (ndata v0).dof ∨ d = d1 ∨
        ∃ k ∈ List.range (ndata ei.node).n.toNat, d = (ndata ei.node).dof + (k : Int)) := by
    intro d
    rw [hdM d]
    constructor
    · rintro (h | h)
      · simp only [List.map_cons, List.map_nil, List.mem_singleton] at h
        exact Or.inl h
      · exact h
    · intro h
      exact Or.inr h
  have hlenT : ∀ bl : List BaseComponent,
      bl.Perm ({ dof := (ndata v0).dof, coef := 3 / 4 } :: { dof := d1, coef := 1 / 4 } ::
        edge_coefs sp ndata ei mode) → bl.length = 2 + n := by
    intro bl hp
    rw [hp.length_eq, List.length_cons, List.length_cons, edge_coefs_length, hnn]
    omega
  constructor
  · obtain ⟨bl, f1, f2, f3, f4⟩ := completed_baselist_two_vertices sp ndata ei mode [a] blM
      (ndata v0).dof d1 (3 / 4) (1 / 4) hsa hs hn0 haa haM
      hd01 hout0 hout1
      (by rw [hca0, hcM0]; norm_num) (by rw [hca1, hcM1]; norm_num) hne
    obtain ⟨_, c2, c3⟩ := merge_baselists_cells ndata [a] blM ei.node none hsa hs
    refine ⟨{ ndata mid_vn with
        baselist := bl
        ncomponents := (merge_baselists ndata [a] blM (some ei.node) none).ncomponents },
      ?_, ?_, f3, by rw [← hec]; exact f2⟩
    · unfold constrained_vertex_data
      rw [hb0, hb1]
      simp only [c2, f1]
    · show (merge_baselists ndata [a] blM (some ei.node) none).ncomponents = 2 + n
      rw [c3, ← f4]
      exact hlenT bl f2
  · obtain ⟨bl, f1, f2, f3, f4⟩ := completed_baselist_two_vertices sp ndata ei mode blM [a]
      (ndata v0).dof d1 (3 / 4) (1 / 4) hs hsa hn0 haM haa
      (fun d => Or.comm.trans (hd01 d)) hout0 hout1
      (by rw [hca0, hcM0]; norm_num) (by rw [hca1, hcM1]; norm_num) hne
    obtain ⟨_, c2, c3⟩ := merge_baselists_cells ndata blM [a] ei.node none hs hsa
    refine ⟨{ ndata mid_vn with
        baselist := bl
        ncomponents := (merge_baselists ndata blM [a] (some ei.node) none).ncomponents },
      ?_, ?_, f3, by rw [← hec]; exact f2⟩
    · unfold constrained_vertex_data
      rw [hb0, hb1]
      simp only [c2, f1]
    · show (merge_baselists ndata blM [a] (some ei.node) none).ncomponents = 2 + n
      rw [c3, ← f4]
      exact hlenT bl f2

/-- The witness of C22: the free vertex 0 and the hanging vertex 2 with the
baselist `(0, 1/2), (1, 1/2), (3, 1), (4, 1)`, on the first half of the edge
with the dofs 3 and 4. -/
theorem transitive_hanging_vertex_baselist_witness :
    ∃ nd, constrained_vertex_data sampleAsmSpace sampleNestedNdata 0 2 6 sampleHalfEdgeInfo 0 =
        some nd ∧
      nd.ncomponents = 2 + 2 ∧ StrictAsc nd.baselist ∧
      nd.baselist.Perm
        ({ dof := (sampleNestedNdata 0).dof, coef := 3 / 4 } :: { dof := 1, coef := 1 / 4 } ::
          (List.range 2).map fun (k : Nat) =>
            { dof := (sampleNestedNdata sampleHalfEdgeInfo.node).dof + (k : Int)
              coef := sampleAsmSpace.shapeset.get_fn_value
                (sampleAsmSpace.shapeset.get_edge_index 0 sampleHalfEdgeInfo.ori ((k : Int) + 2) 0)
                (-1 / 2) (-1) 0 0 }) :=
  (transitive_hanging_vertex_baselist sampleAsmSpace sampleNestedNdata 0 2 6 sampleHalfEdgeInfo
    0 2 1 rfl (by decide) rfl rfl rfl rfl (by decide)
    (List.Perm.of_eq (by
      simp [sampleNestedNdata, sampleHalfEdgeInfo, sampleAsmSpace, sampleSpace, sampleShapeset,
        List.range_succ]))).1

end Hermes2D
